import Mathlib

/-! # FilterClouds (`cloudmain.go`): a shallow embedding and its verified properties

How the program is modelled:

* Text is a `List Char`: a Go string that holds valid UTF-8, one `Char` per rune.  Offsets
  into a line count runes where Go counts bytes; the slice taken at the offsets of a match
  is the same text either way.
* The five package-level regular expressions are values of a small type of patterns, run
  by a backtracking matcher that tries the alternatives in the order of Go's `regexp`
  package (leftmost-first: the leftmost match, and among the matches at that offset the
  one that a backtracking search finds first).
* `strings.ToLower` maps ASCII itself, as `unicode.ToLower` does, and takes the Unicode
  case tables as a parameter `tbl`.
* A file is what `os.Open` and `bufio.Scanner` deliver: either "cannot be opened" or the
  sequence of texts returned by `scanner.Text()`.  Creating and writing the output file is
  taken to succeed.
* The goroutines of an operation are interleaved one step at a time by a step function
  on an explicit state that holds the channels, the wait group and the shared variables.

The file has two parts: the definitions, then the theorems.
-/

set_option autoImplicit false

namespace FilterClouds

/-- A Go string, one `Char` per rune. -/
abbrev Str := List Char

/-! ## Character classes used by the patterns -/

/-- Class `\d` of Go regexp: `[0-9]`. -/
def isDigit (c : Char) : Bool := 48 ≤ c.toNat && c.toNat ≤ 57

/-- Class `[a-z]`. -/
def isLowerAZ (c : Char) : Bool := 97 ≤ c.toNat && c.toNat ≤ 122

/-- Class `[A-Z]`. -/
def isUpperAZ (c : Char) : Bool := 65 ≤ c.toNat && c.toNat ≤ 90

/-- Class `[a-zA-Z]`. -/
def isAlpha (c : Char) : Bool := isLowerAZ c || isUpperAZ c

/-- Class `\w` of Go regexp: `[0-9A-Za-z_]`; it decides `\b`. -/
def isWordChar (c : Char) : Bool := isDigit c || isAlpha c || c == '_'

/-- Class `\s` of Go regexp: `[\t\n\f\r ]`. -/
def isReSpace (c : Char) : Bool :=
  c == '\t' || c == '\n' || c.toNat == 12 || c == '\r' || c == ' '

/-- Class `[a-zA-Z0-9._%+-]` (local part of `emailRe`). -/
def isEmailLocal (c : Char) : Bool :=
  isAlpha c || isDigit c || c == '.' || c == '_' || c == '%' || c == '+' || c == '-'

/-- Class `[a-zA-Z0-9.-]` (domain part of `emailRe`). -/
def isEmailDomain (c : Char) : Bool :=
  isAlpha c || isDigit c || c == '.' || c == '-'

/-- The separator alternative `(?::|,|\s)` of `passRe`, as a set of characters. -/
def isSep (c : Char) : Bool := c == ':' || c == ',' || isReSpace c

/-- Class `[^,\s:]` of `passRe`. -/
def isPassChar (c : Char) : Bool := !(c == ',' || isReSpace c || c == ':')

/-- Class `[^/]` of `domainRe`. -/
def isNotSlash (c : Char) : Bool := !(c == '/')

/-! ## Regular expressions and the backtracking matcher -/

/-- The fragment of Go regexp syntax that the five patterns use. -/
inductive Re where
  | eps : Re
  | cls (p : Char → Bool) : Re
  | many (p : Char → Bool) : Re
  | cat (a b : Re) : Re
  | alt (a b : Re) : Re
  | opt (a : Re) : Re
  | bol : Re
  | wordB : Re
  | group (a : Re) : Re

/-- A literal string, as a concatenation of one-character classes. -/
def Re.lit : List Char → Re
  | [] => Re.eps
  | c :: cs => Re.cat (Re.cls (fun x => x == c)) (Re.lit cs)

/-- The pattern `a{n}`. -/
def Re.rep (a : Re) : Nat → Re
  | 0 => Re.eps
  | n + 1 => Re.cat a (Re.rep a n)

/-- The pattern `[p]+`, which is `[p][p]*`. -/
def Re.plus (p : Char → Bool) : Re := Re.cat (Re.cls p) (Re.many p)

/-- A position of the matcher inside a line: the text before it (reversed), the text
after it, and the text of capture group 1 when the group has been closed. -/
structure Pos where
  before : List Char
  after : List Char
  cap : Option Str
deriving DecidableEq, Repr

/-- All ways of matching `[p]*` at a position, longest first (greedy). -/
def manyFrom (p : Char → Bool) (cap : Option Str) : List Char → List Char → List Pos
  | before, [] => [⟨before, [], cap⟩]
  | before, c :: t =>
    if p c then manyFrom p cap (c :: before) t ++ [⟨before, c :: t, cap⟩]
    else [⟨before, c :: t, cap⟩]

/-- Continue every position of a list with `f`, keeping the priority order. -/
def andThen (f : Pos → List Pos) : List Pos → List Pos
  | [] => []
  | s :: ss => f s ++ andThen f ss

/-- Is there a word character right at the head of this text? -/
def wordAt : List Char → Bool
  | [] => false
  | c :: _ => isWordChar c

/-- The text consumed between an earlier position and a later one. -/
def consumed (s s' : Pos) : Str :=
  (s'.before.take (s'.before.length - s.before.length)).reverse

/-- All matches of a pattern that start at a position, in the order in which a
backtracking matcher tries them (the first one is the match Go reports). -/
def Re.run : Re → Pos → List Pos
  | Re.eps, s => [s]
  | Re.cls p, s =>
    match s.after with
    | [] => []
    | c :: t => if p c then [⟨c :: s.before, t, s.cap⟩] else []
  | Re.many p, s => manyFrom p s.cap s.before s.after
  | Re.cat a b, s => andThen (Re.run b) (Re.run a s)
  | Re.alt a b, s => Re.run a s ++ Re.run b s
  | Re.opt a, s => Re.run a s ++ [s]
  | Re.bol, s => if s.before = [] then [s] else []
  | Re.wordB, s => if wordAt s.before != wordAt s.after then [s] else []
  | Re.group a, s => (Re.run a s).map (fun s' => ⟨s'.before, s'.after, some (consumed s s')⟩)

/-- One match: start and end offsets, and the text of capture group 1. -/
structure Match where
  start : Nat
  stop : Nat
  cap : Option Str
deriving DecidableEq, Repr

/-- The preferred match that starts exactly at the given position. -/
def matchHere (r : Re) (before after : List Char) : Option Match :=
  match r.run ⟨before, after, none⟩ with
  | [] => none
  | s :: _ => some ⟨before.length, s.before.length, s.cap⟩

/-- Leftmost-first search from a position onwards. -/
def findFrom (r : Re) : List Char → List Char → Option Match
  | before, [] => matchHere r before []
  | before, c :: t =>
    match matchHere r before (c :: t) with
    | some m => some m
    | none => findFrom r (c :: before) t

/-- Go `(*Regexp).FindStringIndex`: offsets of the leftmost match, or `none` for nil. -/
def findStringIndex (r : Re) (line : Str) : Option (Nat × Nat) :=
  (findFrom r [] line).map (fun m => (m.start, m.stop))

/-- Go slice expression `line[a:b]`. -/
def slice (line : Str) (a b : Nat) : Str := (line.drop a).take (b - a)

/-- Go `(*Regexp).FindStringSubmatch` for a pattern with one group: the empty list
for nil, otherwise the whole match followed by the text of group 1. -/
def findStringSubmatch (r : Re) (line : Str) : List Str :=
  match findFrom r [] line with
  | none => []
  | some m => [slice line m.start m.stop, m.cap.getD []]

/-! ## The five patterns of `cloudmain.go` -/

/-- The scheme alternative `https?://|android://|smtp://` of `domainRe`. -/
def schemeRe : Re :=
  Re.alt (Re.cat (Re.lit ['h', 't', 't', 'p'])
            (Re.cat (Re.opt (Re.cls (fun x => x == 's'))) (Re.lit [':', '/', '/'])))
    (Re.alt (Re.lit ['a', 'n', 'd', 'r', 'o', 'i', 'd', ':', '/', '/'])
      (Re.lit ['s', 'm', 't', 'p', ':', '/', '/']))

/-- Pattern `^(?:https?://|android://|smtp://)?(?:www\.)?([^/]+)` of `domainRe`. -/
def domainRe : Re :=
  Re.cat Re.bol
    (Re.cat (Re.opt schemeRe)
      (Re.cat (Re.opt (Re.lit ['w', 'w', 'w', '.']))
        (Re.group (Re.plus isNotSlash))))

/-- Pattern `[a-zA-Z0-9._%+-]+@[a-zA-Z0-9.-]+\.[a-zA-Z]{2,}` of `emailRe`. -/
def emailRe : Re :=
  Re.cat (Re.plus isEmailLocal)
    (Re.cat (Re.cls (fun x => x == '@'))
      (Re.cat (Re.plus isEmailDomain)
        (Re.cat (Re.cls (fun x => x == '.'))
          (Re.cat (Re.rep (Re.cls isAlpha) 2) (Re.many isAlpha)))))

/-- Pattern `(?::|,|\s)([^,\s:]+)` of `passRe`. -/
def passRe : Re :=
  Re.cat
    (Re.alt (Re.cls (fun x => x == ':'))
      (Re.alt (Re.cls (fun x => x == ',')) (Re.cls isReSpace)))
    (Re.group (Re.plus isPassChar))

/-- The pattern `\b\d{n}\b`. -/
def digitsRe (n : Nat) : Re :=
  Re.cat Re.wordB (Re.cat (Re.rep (Re.cls isDigit) n) Re.wordB)

/-- Pattern `\b\d{11}\b` of `cpfRe`. -/
def cpfRe : Re := digitsRe 11

/-- Pattern `\b\d{14}\b` of `cnpjRe`. -/
def cnpjRe : Re := digitsRe 14

/-! ## `strings.TrimSpace`, `strings.ToLower`, `strings.Contains` -/

/-- Go `unicode.IsSpace`: the Unicode White_Space property. -/
def isUnicodeSpace (c : Char) : Bool :=
  (9 ≤ c.toNat && c.toNat ≤ 13) || c.toNat == 32 || c.toNat == 0x85 || c.toNat == 0xA0 ||
  c.toNat == 0x1680 || (0x2000 ≤ c.toNat && c.toNat ≤ 0x200A) || c.toNat == 0x2028 ||
  c.toNat == 0x2029 || c.toNat == 0x202F || c.toNat == 0x205F || c.toNat == 0x3000

/-- Go `strings.TrimSpace`: leading and trailing Unicode white space removed. -/
def trimSpace (s : Str) : Str :=
  ((s.dropWhile isUnicodeSpace).reverse.dropWhile isUnicodeSpace).reverse

/-- Go `unicode.ToLower`: ASCII is handled directly, every other rune goes through the
Unicode case tables, which are the parameter `tbl`. -/
def toLowerRune (tbl : Char → Char) (c : Char) : Char :=
  if c.toNat ≤ 127 then
    if isUpperAZ c then Char.ofNat (c.toNat + 32) else c
  else tbl c

/-- Go `strings.ToLower`. -/
def toLower (tbl : Char → Char) (s : Str) : Str := s.map (toLowerRune tbl)

/-- Go `strings.Contains`. -/
def containsStr (s sub : Str) : Bool := s.tails.any (fun t => sub.isPrefixOf t)

/-! ## The per-line work of the five operations -/

/-- Lines 115-117 of `computeStats`: the domain sent on `domainsChan` for a trimmed,
non-empty line, if any. -/
def domainOfLine (tbl : Char → Char) (line : Str) : Option Str :=
  let m := findStringSubmatch domainRe line
  if 1 < m.length then some (toLower tbl (m.getD 1 [])) else none

/-- Lines 213-214 of `filterByDomain`: is the trimmed line selected?  `domainInput` is
the already lowercased filter string. -/
def domainSelects (tbl : Char → Char) (domainInput : Str) (line : Str) : Bool :=
  let m := findStringSubmatch domainRe line
  decide (1 < m.length) && containsStr (toLower tbl (m.getD 1 [])) domainInput

/-- The body shared by `extractEmailsAndPasswords`, `extractCNPJAndPasswords` and
`extractCPFAndPasswords` (lines 290-298, 375-383, 460-468): the key (`email`, `cnpj`,
`cpf`) and the `password` taken from a trimmed line, with `re` the key pattern of the
operation. -/
def credentialPair (re : Re) (line : Str) : Option (Str × Str) :=
  match findStringIndex re line with
  | none => none
  | some (a, b) =>
    let key := slice line a b
    let rest := line.drop b
    let passMatch := findStringSubmatch passRe rest
    if 1 < passMatch.length then some (key, passMatch.getD 1 []) else none

/-- The statement `entry := key + ":" + password` (lines 299, 384, 469). -/
def entryOf (kp : Str × Str) : Str := kp.1 ++ ':' :: kp.2

/-- The entry that a credential extractor checks against `seen` and writes. -/
def credentialEntry (re : Re) (line : Str) : Option Str :=
  (credentialPair re line).map entryOf

/-- The entry of `extractEmailsAndPasswords` for a trimmed line. -/
def emailEntry (line : Str) : Option Str := credentialEntry emailRe line

/-- The entry of `extractCNPJAndPasswords` for a trimmed line. -/
def cnpjEntry (line : Str) : Option Str := credentialEntry cnpjRe line

/-- The entry of `extractCPFAndPasswords` for a trimmed line. -/
def cpfEntry (line : Str) : Option Str := credentialEntry cpfRe line

/-- The four operations that write an output file. -/
inductive Op where
  | filterByDomain (domainInput : Str) : Op
  | extractEmailsAndPasswords : Op
  | extractCNPJAndPasswords : Op
  | extractCPFAndPasswords : Op

/-- The string checked against `seen` and written for a trimmed, non-empty line, if the
line matches.  `filterByDomain` lowercases its argument first (line 168). -/
def Op.key (tbl : Char → Char) : Op → Str → Option Str
  | Op.filterByDomain domainInput, line =>
    if domainSelects tbl (toLower tbl domainInput) line then some line else none
  | Op.extractEmailsAndPasswords, line => emailEntry line
  | Op.extractCNPJAndPasswords, line => cnpjEntry line
  | Op.extractCPFAndPasswords, line => cpfEntry line

/-- The body of the scanner loop for one text returned by `scanner.Text()`: trim, skip
the empty line, otherwise apply the rule of the operation. -/
def Op.scanKey (tbl : Char → Char) (op : Op) (raw : Str) : Option Str :=
  let line := trimSpace raw
  if line = [] then none else op.key tbl line

/-! ## Files and the shared state of the writing operations -/

/-- An input file as a worker sees it: `none` when `os.Open` fails, otherwise the texts
that `scanner.Text()` returns until `scanner.Scan()` reports false (end of file, a read
error or a line over the 10 MiB cap). -/
abbrev File := Option (List Str)

/-- The texts scanned from a file; a file that cannot be opened is skipped (`continue`
at lines 99-103, 199-203, 276-280, 361-365, 446-450). -/
def fileTexts : File → List Str
  | none => []
  | some texts => texts

/-- The state shared by the workers of a writing operation: the keys of the map `seen`,
the lines written to the output file so far (in order), and the counter `matches` (here
`matchCount`). -/
structure Sink where
  seen : List Str
  output : List Str
  matchCount : Nat
deriving DecidableEq, Repr

/-- The state at the start of an operation. -/
def Sink.empty : Sink := ⟨[], [], 0⟩

/-- The critical section between `mu.Lock()` and `mu.Unlock()` (lines 215-221, 300-306,
385-391, 470-476): a key that is not in `seen` is recorded, written and counted. -/
def Sink.checkAndInsert (st : Sink) (key : Str) : Sink :=
  if key ∈ st.seen then st else ⟨key :: st.seen, st.output ++ [key], st.matchCount + 1⟩

/-- The keys of all matching lines of all files, file by file. -/
def Op.keysOf (tbl : Char → Char) (op : Op) (files : List File) : List Str :=
  files.flatMap (fun f => (fileTexts f).filterMap (op.scanKey tbl))

/-- A run of a writing operation: the critical section applied to the keys of the
matching lines in the order in which the workers enter it. -/
def runOrder (order : List Str) : Sink := order.foldl Sink.checkAndInsert Sink.empty

/-! ## The writing operations as a system of goroutines

`filterByDomain`, `extractEmailsAndPasswords`, `extractCNPJAndPasswords` and
`extractCPFAndPasswords` run the same worker pool (lines 189-243, 266-328, 351-413,
436-498) and differ in the rule applied to a line.  The workers, the feeder and the
calling goroutine, which waits in `wg.Wait()`, are interleaved one step at a time; the
critical section is one step.  Creating the output file is taken to succeed. -/

/-- Where a worker goroutine of a writing operation stands. -/
inductive PoolWorker where
  /-- At `for file := range filesChan`, waiting for a file. -/
  | idle : PoolWorker
  /-- At `scanner.Scan()`, with the texts still to come. -/
  | scanning (rest : List Str) : PoolWorker
  /-- After the loop over `filesChan`: `wg.Done()` has run. -/
  | done : PoolWorker
deriving DecidableEq, Repr

/-- The state of one call of a writing operation. -/
structure PoolState where
  /-- Files that the feeder has still to send on `filesChan`. -/
  feeder : List File
  /-- Has `close(filesChan)` run? -/
  filesClosed : Bool
  workers : List PoolWorker
  /-- The map `seen`, the output file and the counter `matches`. -/
  sink : Sink
  /-- Has `wg.Wait()` returned, so that the call returns `matches`? -/
  returned : Bool
deriving DecidableEq, Repr

/-- What a worker does with a file it has received: a file that cannot be opened sends it
back to the loop head (`continue`). -/
def poolStart : File → PoolWorker
  | none => PoolWorker.idle
  | some texts => PoolWorker.scanning texts

/-- The body of the scanner loop for one text: a matching line passes through the
critical section. -/
def poolScan (tbl : Char → Char) (op : Op) (raw : Str) (sink : Sink) : Sink :=
  match op.scanKey tbl raw with
  | some key => sink.checkAndInsert key
  | none => sink

/-- The steps that can be scheduled. -/
inductive PoolAction where
  /-- The feeder sends its next file and worker `i` receives it. -/
  | handOver (i : Nat) : PoolAction
  /-- The feeder runs `close(filesChan)`. -/
  | closeFiles : PoolAction
  /-- Worker `i` takes its next step. -/
  | work (i : Nat) : PoolAction
  /-- `wg.Wait()` returns in the calling goroutine. -/
  | finish : PoolAction
deriving DecidableEq, Repr

/-- One scheduled step of a writing operation; `none` when the chosen goroutine is
blocked or has ended. -/
def poolStep (tbl : Char → Char) (op : Op) (s : PoolState) : PoolAction → Option PoolState
  | PoolAction.handOver i =>
    match s.feeder, s.workers[i]? with
    | f :: fs, some PoolWorker.idle =>
      some { s with feeder := fs, workers := s.workers.set i (poolStart f) }
    | _, _ => none
  | PoolAction.closeFiles =>
    if s.feeder = [] ∧ s.filesClosed = false then some { s with filesClosed := true } else none
  | PoolAction.work i =>
    match s.workers[i]? with
    | none => none
    | some PoolWorker.idle =>
      if s.filesClosed then some { s with workers := s.workers.set i PoolWorker.done } else none
    | some (PoolWorker.scanning []) =>
      some { s with workers := s.workers.set i PoolWorker.idle }
    | some (PoolWorker.scanning (raw :: rest)) =>
      some { s with sink := poolScan tbl op raw s.sink,
                    workers := s.workers.set i (PoolWorker.scanning rest) }
    | some PoolWorker.done => none
  | PoolAction.finish =>
    if s.returned = false ∧ s.workers.all (fun w => w == PoolWorker.done) = true then
      some { s with returned := true }
    else none

/-- The state in which a writing operation starts its goroutines, on a machine where
`runtime.NumCPU()` is `numCPU`. -/
def poolInit (files : List File) (numCPU : Nat) : PoolState :=
  { feeder := files
    filesClosed := false
    workers := List.replicate (numCPU * 2) PoolWorker.idle
    sink := Sink.empty
    returned := false }

/-- The states that a schedule of a writing operation can reach. -/
inductive PoolReach (tbl : Char → Char) (op : Op) (s : PoolState) : PoolState → Prop where
  | refl : PoolReach tbl op s s
  | next {t u : PoolState} (a : PoolAction) :
      PoolReach tbl op s t → poolStep tbl op t a = some u → PoolReach tbl op s u

/-- The call can return the count `n` after writing the set `out` of lines. -/
def PoolReturns (tbl : Char → Char) (op : Op) (files : List File) (numCPU : Nat)
    (n : Nat) (out : Finset Str) : Prop :=
  ∃ s, PoolReach tbl op (poolInit files numCPU) s ∧ s.returned = true ∧
    n = s.sink.matchCount ∧ out = s.sink.output.toFinset

/-- The domain that the scanner loop of `computeStats` sends for one text, if any. -/
def scanDomain (tbl : Char → Char) (raw : Str) : Option Str :=
  if trimSpace raw = [] then none else domainOfLine tbl (trimSpace raw)

/-- The texts of all files that can be opened. -/
def allTexts (files : List File) : List Str := files.flatMap fileTexts

/-- The number of texts that are non-empty after trimming. -/
def nonEmptyCount (texts : List Str) : Nat := texts.countP (fun raw => trimSpace raw != [])

/-- The domains sent for a list of texts, one per matching line. -/
def domainsOf (tbl : Char → Char) (texts : List Str) : List Str :=
  texts.filterMap (scanDomain tbl)

/-! ## Definitions used to state the properties of the rules -/

/-- The spec's words: a leading scheme prefix (`http://`, `https://`, `android://` or
`smtp://`) removed if present. -/
def stripScheme (line : Str) : Str :=
  if ['h', 't', 't', 'p', ':', '/', '/'].isPrefixOf line then line.drop 7
  else if ['h', 't', 't', 'p', 's', ':', '/', '/'].isPrefixOf line then line.drop 8
  else if ['a', 'n', 'd', 'r', 'o', 'i', 'd', ':', '/', '/'].isPrefixOf line then line.drop 10
  else if ['s', 'm', 't', 'p', ':', '/', '/'].isPrefixOf line then line.drop 7
  else line

/-- The spec's words: a leading `www.` removed if present. -/
def stripWww (s : Str) : Str :=
  if ['w', 'w', 'w', '.'].isPrefixOf s then s.drop 4 else s

/-- The spec's words: the part of a text before its first `/` (all of it when it has
no `/`). -/
def beforeSlash (r : Str) : Str := r.takeWhile (fun c => c != '/')

/-- Does the text hold, at offset `i`, a separator immediately followed by a
non-separator character? -/
def sepTokenAt (rest : Str) (i : Nat) : Bool :=
  match rest.drop i with
  | c :: d :: _ => isSep c && !isSep d
  | _ => false

/-- Does the pattern match starting exactly at offset `k` of the line? -/
def matchesAt (r : Re) (line : Str) (k : Nat) : Bool :=
  !(r.run ⟨(line.take k).reverse, line.drop k, none⟩).isEmpty

/-- The characters that a pattern can consume. -/
def Re.alphabet : Re → Char → Bool
  | Re.eps, _ => false
  | Re.cls p, c => p c
  | Re.many p, c => p c
  | Re.cat a b, c => a.alphabet c || b.alphabet c
  | Re.alt a b, c => a.alphabet c || b.alphabet c
  | Re.opt a, c => a.alphabet c
  | Re.bol, _ => false
  | Re.wordB, _ => false
  | Re.group a, c => a.alphabet c

/-- Position `s'` lies `w` further into the same line than `s`. -/
def Advances (s s' : Pos) (w : List Char) : Prop :=
  s'.before = w.reverse ++ s.before ∧ s.after = w ++ s'.after

/-- The code's boundary: at offset `k` the line holds `n` decimal digits with no word
character (`[0-9A-Za-z_]`) right before them and none right after them. -/
def wordBoundedDigitsAt (n : Nat) (line : Str) (k : Nat) : Bool :=
  decide (k + n ≤ line.length) && ((line.drop k).take n).all isDigit &&
    !wordAt (line.take k).reverse && !wordAt (line.drop (k + n))

/-- Is the first character of a text a decimal digit? -/
def digitAt : List Char → Bool
  | [] => false
  | c :: _ => isDigit c

/-- The spec's words: at offset `k` the line holds a run of exactly `n` decimal digits
bounded on each side by a non-digit character or a line edge. -/
def standaloneDigitsAt (n : Nat) (line : Str) (k : Nat) : Bool :=
  decide (k + n ≤ line.length) && ((line.drop k).take n).all isDigit &&
    !digitAt (line.take k).reverse && !digitAt (line.drop (k + n))

/-- The invariant of the critical section. -/
def Sink.Ok (st : Sink) : Prop :=
  st.output.Nodup ∧ (∀ k, k ∈ st.seen ↔ k ∈ st.output) ∧ st.matchCount = st.output.length

/-- Splitting an entry at its first `:`. -/
def splitAtColon (e : Str) : Str × Str :=
  (e.takeWhile (fun c => c != ':'), (e.dropWhile (fun c => c != ':')).drop 1)

/-- For one credential extractor with key pattern `re`: every pair it produces has a key
without `:` and a non-empty password without `:`, `,` or `\s` characters, its entry holds
exactly one `:`, splitting the entry at the `:` gives the pair back, two matching lines
give the same entry exactly when they give the same pair, and over any list of lines the
lines written under deduplication by entry are as many as the distinct pairs. -/
def EntryDeterminesPair (re : Re) : Prop :=
  (∀ (line : Str) (k p : Str), credentialPair re line = some (k, p) →
    ':' ∉ k ∧ ':' ∉ p ∧ p ≠ [] ∧ (∀ c ∈ p, c ≠ ',' ∧ isReSpace c = false) ∧
    (entryOf (k, p)).count ':' = 1 ∧ splitAtColon (entryOf (k, p)) = (k, p)) ∧
  (∀ (line₁ line₂ : Str) (kp₁ kp₂ : Str × Str), credentialPair re line₁ = some kp₁ →
    credentialPair re line₂ = some kp₂ → (entryOf kp₁ = entryOf kp₂ ↔ kp₁ = kp₂)) ∧
  (∀ lines : List Str,
    (runOrder (lines.filterMap (credentialEntry re))).matchCount =
      (lines.filterMap (credentialPair re)).toFinset.card)

/-- The steps of `poolStep`, with the state spelled out. -/
inductive PoolStepRel (tbl : Char → Char) (op : Op) : PoolState → PoolState → Prop where
  | handOver (f : File) (fs : List File) (fc : Bool) (l₁ l₂ : List PoolWorker) (sink : Sink)
      (ret : Bool) :
      PoolStepRel tbl op ⟨f :: fs, fc, l₁ ++ PoolWorker.idle :: l₂, sink, ret⟩
        ⟨fs, fc, l₁ ++ poolStart f :: l₂, sink, ret⟩
  | closeFiles (ws : List PoolWorker) (sink : Sink) (ret : Bool) :
      PoolStepRel tbl op ⟨[], false, ws, sink, ret⟩ ⟨[], true, ws, sink, ret⟩
  | exit (fd : List File) (l₁ l₂ : List PoolWorker) (sink : Sink) (ret : Bool) :
      PoolStepRel tbl op ⟨fd, true, l₁ ++ PoolWorker.idle :: l₂, sink, ret⟩
        ⟨fd, true, l₁ ++ PoolWorker.done :: l₂, sink, ret⟩
  | scanEnd (fd : List File) (fc : Bool) (l₁ l₂ : List PoolWorker) (sink : Sink)
      (ret : Bool) :
      PoolStepRel tbl op ⟨fd, fc, l₁ ++ PoolWorker.scanning [] :: l₂, sink, ret⟩
        ⟨fd, fc, l₁ ++ PoolWorker.idle :: l₂, sink, ret⟩
  | scanLine (raw : Str) (rest : List Str) (fd : List File) (fc : Bool)
      (l₁ l₂ : List PoolWorker) (sink : Sink) (ret : Bool) :
      PoolStepRel tbl op ⟨fd, fc, l₁ ++ PoolWorker.scanning (raw :: rest) :: l₂, sink, ret⟩
        ⟨fd, fc, l₁ ++ PoolWorker.scanning rest :: l₂, poolScan tbl op raw sink, ret⟩
  | finish (fd : List File) (fc : Bool) (ws : List PoolWorker) (sink : Sink)
      (hdone : ∀ w ∈ ws, w = PoolWorker.done) :
      PoolStepRel tbl op ⟨fd, fc, ws, sink, false⟩ ⟨fd, fc, ws, sink, true⟩

/-- Keys that a worker has still to pass through the critical section. -/
def PoolWorker.pending (tbl : Char → Char) (op : Op) : PoolWorker → List Str
  | PoolWorker.scanning rest => rest.filterMap (op.scanKey tbl)
  | _ => []

/-- All keys that have not yet passed through the critical section. -/
def PoolState.pending (tbl : Char → Char) (op : Op) (s : PoolState) : List Str :=
  s.workers.flatMap (PoolWorker.pending tbl op) ++ op.keysOf tbl s.feeder

/-- Facts about who may be where in a writing operation. -/
def PoolStructural (s : PoolState) : Prop :=
  s.workers ≠ [] ∧
  (s.filesClosed = true → s.feeder = []) ∧
  (∀ w ∈ s.workers, w = PoolWorker.done → s.filesClosed = true) ∧
  (s.returned = true → ∀ w ∈ s.workers, w = PoolWorker.done)

/-- What holds in every state of a call of a writing operation on `files`: the shared
state is the critical section applied to some sequence `order` of keys, and these keys
together with the pending ones are the keys of all matching lines, each as often as it
occurs. -/
def PoolInv (tbl : Char → Char) (op : Op) (files : List File) (s : PoolState) : Prop :=
  PoolStructural s ∧
  ∃ order : List Str, s.sink = runOrder order ∧
    (order ++ s.pending tbl op).Perm (op.keysOf tbl files)

namespace computeStats

/-! ## `computeStats` as a system of goroutines

The workers (lines 94-129), the feeder (lines 131-136), the closer (lines 138-143) and
the calling goroutine (lines 145-156) are interleaved one step at a time.  Sending on the
unbuffered `filesChan` is a joint step of the feeder and the receiving worker; a send on
a buffered channel needs room in the buffer; a receive needs a buffered value or a closed
channel. -/

/-- Capacity of `domainsChan` (line 85). -/
def domainsChanCap : Nat := 1000

/-- Where a worker goroutine stands. -/
inductive Worker where
  /-- At `for file := range filesChan`, waiting for a file. -/
  | idle : Worker
  /-- At `scanner.Scan()`, with the texts still to come and the value of `localLines`. -/
  | scanning (rest : List Str) (localLines : Nat) : Worker
  /-- At `domainsChan <- domain`. -/
  | sending (domain : Str) (rest : List Str) (localLines : Nat) : Worker
  /-- At `totalLinesChan <- localLines`. -/
  | reporting (localLines : Nat) : Worker
  /-- After the loop over `filesChan`: `wg.Done()` has run. -/
  | done : Worker
deriving DecidableEq, Repr

/-- Where the closer goroutine stands: at `wg.Wait()`, after `close(totalLinesChan)`,
after `close(domainsChan)`. -/
inductive Closer where
  | waiting : Closer
  | closedLines : Closer
  | finished : Closer
deriving DecidableEq, Repr

/-- Where the calling goroutine stands: in the loop over `totalLinesChan`, in the loop
over `domainsChan`, or returned. -/
inductive Caller where
  | drainingLines : Caller
  | drainingDomains : Caller
  | returned : Caller
deriving DecidableEq, Repr

/-- The state of one call of `computeStats`. -/
structure State where
  /-- Files that the feeder has still to send on `filesChan`. -/
  feeder : List File
  /-- Has `close(filesChan)` run? -/
  filesClosed : Bool
  workers : List Worker
  /-- Buffer of `totalLinesChan`, oldest value first. -/
  totalLinesChan : List Nat
  /-- Capacity of `totalLinesChan`: `len(txtFiles)` (line 84). -/
  totalLinesCap : Nat
  totalLinesClosed : Bool
  /-- Buffer of `domainsChan`, oldest value first. -/
  domainsChan : List Str
  domainsClosed : Bool
  closer : Closer
  caller : Caller
  /-- The variable `totalLines`. -/
  totalLines : Nat
  /-- The keys of the map `domains`. -/
  domains : List Str
deriving DecidableEq, Repr

/-- What a worker does with a file it has received: a file that cannot be opened sends it
back to the loop head (`continue`, lines 99-103). -/
def startFile : File → Worker
  | none => Worker.idle
  | some texts => Worker.scanning texts 0

/-- Lines 110-119, up to the send: one text of the scanner. -/
def scanStep (tbl : Char → Char) (raw : Str) (rest : List Str) (localLines : Nat) : Worker :=
  let line := trimSpace raw
  if line = [] then Worker.scanning rest localLines
  else
    match domainOfLine tbl line with
    | some domain => Worker.sending domain rest (localLines + 1)
    | none => Worker.scanning rest (localLines + 1)

/-- The steps that can be scheduled. -/
inductive Action where
  /-- The feeder sends its next file and worker `i` receives it. -/
  | handOver (i : Nat) : Action
  /-- The feeder runs `close(filesChan)`. -/
  | closeFiles : Action
  /-- Worker `i` takes its next step. -/
  | work (i : Nat) : Action
  /-- The closer takes its next step. -/
  | close : Action
  /-- The calling goroutine takes its next step. -/
  | call : Action
deriving DecidableEq, Repr

/-- The next step of worker `i`, when it is not blocked. -/
def workStep (tbl : Char → Char) (s : State) (i : Nat) : Option State :=
  match s.workers[i]? with
  | none => none
  | some Worker.idle =>
    if s.filesClosed then some { s with workers := s.workers.set i Worker.done } else none
  | some (Worker.scanning [] n) =>
    some { s with workers := s.workers.set i (Worker.reporting n) }
  | some (Worker.scanning (raw :: rest) n) =>
    some { s with workers := s.workers.set i (scanStep tbl raw rest n) }
  | some (Worker.sending d rest n) =>
    if s.domainsChan.length < domainsChanCap then
      some { s with domainsChan := s.domainsChan ++ [d],
                    workers := s.workers.set i (Worker.scanning rest n) }
    else none
  | some (Worker.reporting n) =>
    if s.totalLinesChan.length < s.totalLinesCap then
      some { s with totalLinesChan := s.totalLinesChan ++ [n],
                    workers := s.workers.set i Worker.idle }
    else none
  | some Worker.done => none

/-- The next step of the closer: `wg.Wait()` returns once every worker is done. -/
def closeStep (s : State) : Option State :=
  match s.closer with
  | Closer.waiting =>
    if s.workers.all (fun w => w == Worker.done) then
      some { s with totalLinesClosed := true, closer := Closer.closedLines }
    else none
  | Closer.closedLines => some { s with domainsClosed := true, closer := Closer.finished }
  | Closer.finished => none

/-- The next step of the calling goroutine (lines 145-156). -/
def callStep (s : State) : Option State :=
  match s.caller with
  | Caller.drainingLines =>
    match s.totalLinesChan with
    | n :: ns => some { s with totalLinesChan := ns, totalLines := s.totalLines + n }
    | [] => if s.totalLinesClosed then some { s with caller := Caller.drainingDomains } else none
  | Caller.drainingDomains =>
    match s.domainsChan with
    | d :: ds =>
      some { s with domainsChan := ds,
                    domains := if d ∈ s.domains then s.domains else d :: s.domains }
    | [] => if s.domainsClosed then some { s with caller := Caller.returned } else none
  | Caller.returned => none

/-- One scheduled step; `none` when the chosen goroutine is blocked or has ended. -/
def step (tbl : Char → Char) (s : State) : Action → Option State
  | Action.handOver i =>
    match s.feeder, s.workers[i]? with
    | f :: fs, some Worker.idle =>
      some { s with feeder := fs, workers := s.workers.set i (startFile f) }
    | _, _ => none
  | Action.closeFiles =>
    if s.feeder = [] ∧ s.filesClosed = false then some { s with filesClosed := true } else none
  | Action.work i => workStep tbl s i
  | Action.close => closeStep s
  | Action.call => callStep s

/-- The state in which `computeStats` starts its goroutines, on a machine where
`runtime.NumCPU()` is `numCPU`. -/
def init (files : List File) (numCPU : Nat) : State :=
  { feeder := files
    filesClosed := false
    workers := List.replicate (numCPU * 2) Worker.idle
    totalLinesChan := []
    totalLinesCap := files.length
    totalLinesClosed := false
    domainsChan := []
    domainsClosed := false
    closer := Closer.waiting
    caller := Caller.drainingLines
    totalLines := 0
    domains := [] }

/-- The states that a schedule can reach. -/
inductive Reach (tbl : Char → Char) (s : State) : State → Prop where
  | refl : Reach tbl s s
  | next {t u : State} (a : Action) : Reach tbl s t → step tbl t a = some u → Reach tbl s u

/-- The call can return the pair `(totalLines, len(domains))`. -/
def Returns (tbl : Char → Char) (files : List File) (numCPU : Nat) (r : Nat × Nat) : Prop :=
  ∃ s, Reach tbl (init files numCPU) s ∧ s.caller = Caller.returned ∧
    r = (s.totalLines, s.domains.length)

/-- No goroutine can take a step. -/
def Stuck (tbl : Char → Char) (s : State) : Prop := ∀ a, step tbl s a = none

/-! ## Definitions used to state the properties of `computeStats` -/

/-- The steps of `step`, with the state spelled out. -/
inductive Step (tbl : Char → Char) : State → State → Prop where
  | handOver (f : File) (fs : List File) (fc : Bool) (l₁ l₂ : List Worker) (tc : List Nat)
      (cap : Nat) (tcl : Bool) (dc : List Str) (dcl : Bool) (cl : Closer) (ca : Caller)
      (tl : Nat) (ds : List Str) :
      Step tbl ⟨f :: fs, fc, l₁ ++ Worker.idle :: l₂, tc, cap, tcl, dc, dcl, cl, ca, tl, ds⟩
        ⟨fs, fc, l₁ ++ startFile f :: l₂, tc, cap, tcl, dc, dcl, cl, ca, tl, ds⟩
  | closeFiles (ws : List Worker) (tc : List Nat)
      (cap : Nat) (tcl : Bool) (dc : List Str) (dcl : Bool) (cl : Closer) (ca : Caller)
      (tl : Nat) (ds : List Str) :
      Step tbl ⟨[], false, ws, tc, cap, tcl, dc, dcl, cl, ca, tl, ds⟩
        ⟨[], true, ws, tc, cap, tcl, dc, dcl, cl, ca, tl, ds⟩
  | exit (fd : List File) (l₁ l₂ : List Worker) (tc : List Nat)
      (cap : Nat) (tcl : Bool) (dc : List Str) (dcl : Bool) (cl : Closer) (ca : Caller)
      (tl : Nat) (ds : List Str) :
      Step tbl ⟨fd, true, l₁ ++ Worker.idle :: l₂, tc, cap, tcl, dc, dcl, cl, ca, tl, ds⟩
        ⟨fd, true, l₁ ++ Worker.done :: l₂, tc, cap, tcl, dc, dcl, cl, ca, tl, ds⟩
  | scanEnd (n : Nat) (fd : List File) (fc : Bool) (l₁ l₂ : List Worker) (tc : List Nat)
      (cap : Nat) (tcl : Bool) (dc : List Str) (dcl : Bool) (cl : Closer) (ca : Caller)
      (tl : Nat) (ds : List Str) :
      Step tbl ⟨fd, fc, l₁ ++ Worker.scanning [] n :: l₂, tc, cap, tcl, dc, dcl, cl, ca, tl, ds⟩
        ⟨fd, fc, l₁ ++ Worker.reporting n :: l₂, tc, cap, tcl, dc, dcl, cl, ca, tl, ds⟩
  | scanLine (raw : Str) (rest : List Str) (n : Nat) (fd : List File) (fc : Bool)
      (l₁ l₂ : List Worker) (tc : List Nat)
      (cap : Nat) (tcl : Bool) (dc : List Str) (dcl : Bool) (cl : Closer) (ca : Caller)
      (tl : Nat) (ds : List Str) :
      Step tbl
        ⟨fd, fc, l₁ ++ Worker.scanning (raw :: rest) n :: l₂, tc, cap, tcl, dc, dcl, cl, ca, tl, ds⟩
        ⟨fd, fc, l₁ ++ scanStep tbl raw rest n :: l₂, tc, cap, tcl, dc, dcl, cl, ca, tl, ds⟩
  | send (d : Str) (rest : List Str) (n : Nat) (fd : List File) (fc : Bool)
      (l₁ l₂ : List Worker) (tc : List Nat)
      (cap : Nat) (tcl : Bool) (dc : List Str) (dcl : Bool) (cl : Closer) (ca : Caller)
      (tl : Nat) (ds : List Str) (hroom : dc.length < domainsChanCap) :
      Step tbl
        ⟨fd, fc, l₁ ++ Worker.sending d rest n :: l₂, tc, cap, tcl, dc, dcl, cl, ca, tl, ds⟩
        ⟨fd, fc, l₁ ++ Worker.scanning rest n :: l₂, tc, cap, tcl, dc ++ [d], dcl, cl, ca, tl, ds⟩
  | report (n : Nat) (fd : List File) (fc : Bool)
      (l₁ l₂ : List Worker) (tc : List Nat)
      (cap : Nat) (tcl : Bool) (dc : List Str) (dcl : Bool) (cl : Closer) (ca : Caller)
      (tl : Nat) (ds : List Str) (hroom : tc.length < cap) :
      Step tbl
        ⟨fd, fc, l₁ ++ Worker.reporting n :: l₂, tc, cap, tcl, dc, dcl, cl, ca, tl, ds⟩
        ⟨fd, fc, l₁ ++ Worker.idle :: l₂, tc ++ [n], cap, tcl, dc, dcl, cl, ca, tl, ds⟩
  | closeLines (fd : List File) (fc : Bool) (ws : List Worker) (tc : List Nat)
      (cap : Nat) (tcl : Bool) (dc : List Str) (dcl : Bool) (ca : Caller)
      (tl : Nat) (ds : List Str) (hdone : ∀ w ∈ ws, w = Worker.done) :
      Step tbl ⟨fd, fc, ws, tc, cap, tcl, dc, dcl, Closer.waiting, ca, tl, ds⟩
        ⟨fd, fc, ws, tc, cap, true, dc, dcl, Closer.closedLines, ca, tl, ds⟩
  | closeDomains (fd : List File) (fc : Bool) (ws : List Worker) (tc : List Nat)
      (cap : Nat) (tcl : Bool) (dc : List Str) (dcl : Bool) (ca : Caller)
      (tl : Nat) (ds : List Str) :
      Step tbl ⟨fd, fc, ws, tc, cap, tcl, dc, dcl, Closer.closedLines, ca, tl, ds⟩
        ⟨fd, fc, ws, tc, cap, tcl, dc, true, Closer.finished, ca, tl, ds⟩
  | recvLines (n : Nat) (fd : List File) (fc : Bool) (ws : List Worker) (tc : List Nat)
      (cap : Nat) (tcl : Bool) (dc : List Str) (dcl : Bool) (cl : Closer)
      (tl : Nat) (ds : List Str) :
      Step tbl ⟨fd, fc, ws, n :: tc, cap, tcl, dc, dcl, cl, Caller.drainingLines, tl, ds⟩
        ⟨fd, fc, ws, tc, cap, tcl, dc, dcl, cl, Caller.drainingLines, tl + n, ds⟩
  | linesDone (fd : List File) (fc : Bool) (ws : List Worker)
      (cap : Nat) (dc : List Str) (dcl : Bool) (cl : Closer)
      (tl : Nat) (ds : List Str) :
      Step tbl ⟨fd, fc, ws, [], cap, true, dc, dcl, cl, Caller.drainingLines, tl, ds⟩
        ⟨fd, fc, ws, [], cap, true, dc, dcl, cl, Caller.drainingDomains, tl, ds⟩
  | recvDomain (d : Str) (fd : List File) (fc : Bool) (ws : List Worker) (tc : List Nat)
      (cap : Nat) (tcl : Bool) (dc : List Str) (dcl : Bool) (cl : Closer)
      (tl : Nat) (ds : List Str) :
      Step tbl ⟨fd, fc, ws, tc, cap, tcl, d :: dc, dcl, cl, Caller.drainingDomains, tl, ds⟩
        ⟨fd, fc, ws, tc, cap, tcl, dc, dcl, cl, Caller.drainingDomains, tl,
          if d ∈ ds then ds else d :: ds⟩
  | ret (fd : List File) (fc : Bool) (ws : List Worker) (tc : List Nat)
      (cap : Nat) (tcl : Bool) (cl : Closer)
      (tl : Nat) (ds : List Str) :
      Step tbl ⟨fd, fc, ws, tc, cap, tcl, [], true, cl, Caller.drainingDomains, tl, ds⟩
        ⟨fd, fc, ws, tc, cap, tcl, [], true, cl, Caller.returned, tl, ds⟩

/-- Lines already counted by a worker plus the lines it has still to count. -/
def Worker.lines : Worker → Nat
  | Worker.idle => 0
  | Worker.scanning rest n => n + nonEmptyCount rest
  | Worker.sending _ rest n => n + nonEmptyCount rest
  | Worker.reporting n => n
  | Worker.done => 0

/-- Domains that a worker has still to send. -/
def Worker.pending (tbl : Char → Char) : Worker → List Str
  | Worker.scanning rest _ => domainsOf tbl rest
  | Worker.sending d rest _ => d :: domainsOf tbl rest
  | _ => []

/-- All non-empty lines of the run, wherever they are accounted for at the moment. -/
def State.lineSum (s : State) : Nat :=
  s.totalLines + s.totalLinesChan.sum + (s.workers.map Worker.lines).sum +
    nonEmptyCount (allTexts s.feeder)

/-- All domains that have not yet reached the map `domains`. -/
def State.pendingDomains (tbl : Char → Char) (s : State) : List Str :=
  s.domainsChan ++ s.workers.flatMap (Worker.pending tbl) ++ domainsOf tbl (allTexts s.feeder)

/-- Facts about who may be where. -/
def Structural (s : State) : Prop :=
  s.workers ≠ [] ∧
  (s.filesClosed = true → s.feeder = []) ∧
  (∀ w ∈ s.workers, w = Worker.done → s.filesClosed = true) ∧
  (s.closer ≠ Closer.waiting → ∀ w ∈ s.workers, w = Worker.done) ∧
  (s.totalLinesClosed = true ↔ s.closer ≠ Closer.waiting) ∧
  (s.domainsClosed = true ↔ s.closer = Closer.finished) ∧
  (s.caller ≠ Caller.drainingLines → s.totalLinesClosed = true ∧ s.totalLinesChan = []) ∧
  (s.caller = Caller.returned → s.domainsClosed = true ∧ s.domainsChan = []) ∧
  s.domainsChan.length ≤ domainsChanCap ∧ s.domains.Nodup

/-- What holds in every state of a call of `computeStats` on `files`. -/
def Inv (tbl : Char → Char) (files : List File) (s : State) : Prop :=
  Structural s ∧
  s.lineSum = nonEmptyCount (allTexts files) ∧
  (∀ x, (x ∈ s.domains ∨ x ∈ s.pendingDomains tbl) ↔ x ∈ domainsOf tbl (allTexts files)) ∧
  (s.caller = Caller.drainingLines →
    (s.pendingDomains tbl).length = (domainsOf tbl (allTexts files)).length)

/-- Does the worker hold a file whose count it has still to send? -/
def Worker.busy : Worker → Nat
  | Worker.scanning _ _ => 1
  | Worker.sending _ _ _ => 1
  | Worker.reporting _ => 1
  | _ => 0

/-- `totalLinesChan` has room for one count for each file in progress and each file
still to be handed over. -/
def LinesRoom (s : State) : Prop :=
  s.totalLinesChan.length + (s.workers.map Worker.busy).sum + s.feeder.length ≤ s.totalLinesCap

/-- A file of 1001 lines `a`. -/
def overfullFile : File := some (List.replicate (domainsChanCap + 1) ['a'])

/-- The state in which the run on `overfullFile` stops. -/
def deadlockState (numCPU : Nat) : State :=
  ⟨[], true, Worker.sending ['a'] [] (domainsChanCap + 1) :: List.replicate (numCPU * 2 + 1) Worker.done, [], 1,
    false, List.replicate domainsChanCap ['a'], false, Closer.waiting, Caller.drainingLines, 0, []⟩

/-- A file with the one line `c`. -/
def lastFile : File := some [['c']]

/-- A file that cannot be opened, then as many files of 1001 lines `a` as there are
workers (line 90), then a file with the one line `c`. -/
def starvingFiles (numCPU : Nat) : List File :=
  none :: (List.replicate (numCPU * 2) overfullFile ++ [lastFile])

/-- Domains that a worker has sent from the file it holds, for a file that yields 1001
domains. -/
def Worker.sent (tbl : Char → Char) : Worker → Nat
  | Worker.idle => 0
  | Worker.done => 0
  | w => domainsChanCap + 1 - (w.pending tbl).length

/-- What holds in every state of the call on `starvingFiles`: `filesChan` is open, no
count has been sent, the feeder still holds the last file behind the files it has not yet
handed over, every file of 1001 lines that it has handed over is still held by a worker,
and the domains sent from these files are the ones in `domainsChan`. -/
def Starving (tbl : Char → Char) (s : State) : Prop :=
  s.filesClosed = false ∧ s.totalLinesChan = [] ∧ s.totalLines = 0 ∧
  (∃ j k, s.feeder = List.replicate j none ++ (List.replicate k overfullFile ++ [lastFile]) ∧
    (s.workers.map Worker.busy).sum + k = s.workers.length) ∧
  (∀ w ∈ s.workers, (w.pending tbl).length ≤ domainsChanCap + 1) ∧
  (s.workers.map (Worker.sent tbl)).sum = s.domainsChan.length

/-- The state in which the run on `starvingFiles` stops: the first worker has filled
`domainsChan` from its file and waits to send the last domain, every other worker waits to
send its first domain, and the feeder waits to hand over the last file. -/
def starvedState (numCPU : Nat) : State :=
  ⟨[lastFile], false,
    Worker.sending ['a'] [] (domainsChanCap + 1) ::
      List.replicate (numCPU * 2 + 1) (Worker.sending ['a'] (List.replicate domainsChanCap ['a']) 1),
    [], (starvingFiles (numCPU + 1)).length, false, List.replicate domainsChanCap ['a'], false,
    Closer.waiting, Caller.drainingLines, 0, []⟩

end computeStats

/-! # Theorems -/

/-! ## Basic facts about the matcher -/

theorem andThen_append (f : Pos → List Pos) (l₁ l₂ : List Pos) :
    andThen f (l₁ ++ l₂) = andThen f l₁ ++ andThen f l₂ := by
  induction l₁ with
  | nil => simp [andThen]
  | cons s ss ih => simp [andThen, ih]

theorem andThen_singleton (f : Pos → List Pos) (s : Pos) : andThen f [s] = f s := by
  simp [andThen]

theorem mem_andThen {f : Pos → List Pos} {l : List Pos} {x : Pos} :
    x ∈ andThen f l ↔ ∃ s ∈ l, x ∈ f s := by
  induction l with
  | nil => simp [andThen]
  | cons s ss ih => simp [andThen, ih]

/-- A literal matches exactly when it is a prefix of the remaining text. -/
theorem run_lit (w : List Char) (b a : List Char) (cap : Option Str) :
    (Re.lit w).run ⟨b, a, cap⟩ =
      if w.isPrefixOf a then [⟨w.reverse ++ b, a.drop w.length, cap⟩] else [] := by
  induction w generalizing b a with
  | nil => simp [Re.lit, Re.run]
  | cons c cs ih =>
    cases a with
    | nil => simp [Re.lit, Re.run, andThen]
    | cons x t =>
      by_cases hx : x = c
      · subst hx
        by_cases hp : cs.isPrefixOf t <;> simp [Re.lit, Re.run, andThen, ih, hp]
      · have hx' : ¬ c = x := fun h => hx h.symm
        simp [Re.lit, Re.run, andThen, hx, hx']

theorem manyFrom_ne_nil (p : Char → Bool) (cap : Option Str) (b a : List Char) :
    manyFrom p cap b a ≠ [] := by
  cases a with
  | nil => simp [manyFrom]
  | cons c t => by_cases h : p c <;> simp [manyFrom, h]

/-- The preferred match of `[p]*` takes the longest run. -/
theorem manyFrom_head (p : Char → Bool) (cap : Option Str) (b a : List Char) :
    (manyFrom p cap b a).head? = some ⟨(a.takeWhile p).reverse ++ b, a.dropWhile p, cap⟩ := by
  induction a generalizing b with
  | nil => simp [manyFrom]
  | cons c t ih =>
    by_cases h : p c
    · have := ih (c :: b)
      simp [manyFrom, h, List.head?_append, this, List.takeWhile_cons, List.dropWhile_cons]
    · simp [manyFrom, h, List.takeWhile_cons, List.dropWhile_cons]

theorem run_plus (p : Char → Bool) (b a : List Char) (cap : Option Str) :
    (Re.plus p).run ⟨b, a, cap⟩ =
      match a with
      | [] => []
      | c :: t => if p c then manyFrom p cap (c :: b) t else [] := by
  cases a with
  | nil => simp [Re.plus, Re.run, andThen]
  | cons c t => by_cases h : p c <;> simp [Re.plus, Re.run, andThen, h]

theorem matchHere_eq (r : Re) (b a : List Char) :
    matchHere r b a =
      (r.run ⟨b, a, none⟩).head?.map (fun s => ⟨b.length, s.before.length, s.cap⟩) := by
  unfold matchHere
  cases r.run ⟨b, a, none⟩ <;> simp

theorem run_cat (a b : Re) (s : Pos) : (Re.cat a b).run s = andThen b.run (a.run s) := rfl
theorem run_alt (a b : Re) (s : Pos) : (Re.alt a b).run s = a.run s ++ b.run s := rfl
theorem run_opt (a : Re) (s : Pos) : (Re.opt a).run s = a.run s ++ [s] := rfl
theorem run_cls (p : Char → Bool) (b a : List Char) (cap : Option Str) :
    (Re.cls p).run ⟨b, a, cap⟩ =
      match a with
      | [] => []
      | c :: t => if p c then [⟨c :: b, t, cap⟩] else [] := rfl

/-- What `https?://` matches: one of the two literal prefixes. -/
theorem run_httpRe (b a : List Char) (cap : Option Str) :
    (Re.cat (Re.lit ['h', 't', 't', 'p'])
        (Re.cat (Re.opt (Re.cls (fun x => x == 's'))) (Re.lit [':', '/', '/']))).run ⟨b, a, cap⟩ =
      if ['h', 't', 't', 'p', 's', ':', '/', '/'].isPrefixOf a then
        [⟨['/', '/', ':', 's', 'p', 't', 't', 'h'] ++ b, a.drop 8, cap⟩]
      else if ['h', 't', 't', 'p', ':', '/', '/'].isPrefixOf a then
        [⟨['/', '/', ':', 'p', 't', 't', 'h'] ++ b, a.drop 7, cap⟩]
      else [] := by
  rw [run_cat, run_lit]
  by_cases h : ['h', 't', 't', 'p'].isPrefixOf a = true
  · obtain ⟨t, rfl⟩ := List.isPrefixOf_iff_prefix.mp h
    rw [if_pos h]
    simp only [andThen_singleton, run_cat, run_opt, andThen_append, run_lit]
    rcases t with _ | ⟨c, t⟩
    · simp [andThen, run_cls]
    · by_cases hc : c = 's'
      · subst hc
        by_cases h2 : [':', '/', '/'].isPrefixOf t = true
        · simp [andThen, run_cls, run_lit, h2]
        · simp [andThen, run_cls, run_lit, h2]
      · by_cases h2 : [':', '/', '/'].isPrefixOf (c :: t) = true
        · have hc' : ¬ 's' = c := fun e => hc e.symm
          simp [andThen, run_cls, run_lit, h2, hc, hc']
        · have hc' : ¬ 's' = c := fun e => hc e.symm
          simp [andThen, run_cls, run_lit, h2, hc, hc']
  · rw [if_neg h]
    have h8 : ¬ ['h', 't', 't', 'p', 's', ':', '/', '/'].isPrefixOf a = true := by
      intro h8
      exact h (List.isPrefixOf_iff_prefix.mpr
        ((List.prefix_append ['h', 't', 't', 'p'] ['s', ':', '/', '/']).trans
          (List.isPrefixOf_iff_prefix.mp h8)))
    have h7 : ¬ ['h', 't', 't', 'p', ':', '/', '/'].isPrefixOf a = true := by
      intro h7
      exact h (List.isPrefixOf_iff_prefix.mpr
        ((List.prefix_append ['h', 't', 't', 'p'] [':', '/', '/']).trans
          (List.isPrefixOf_iff_prefix.mp h7)))
    rw [if_neg h8, if_neg h7]
    rfl

/-- What the scheme alternative of `domainRe` matches: exactly one of its four literal
prefixes, whichever the text starts with. -/
theorem run_schemeRe (b a : List Char) (cap : Option Str) :
    schemeRe.run ⟨b, a, cap⟩ =
      if ['h', 't', 't', 'p', 's', ':', '/', '/'].isPrefixOf a then
        [⟨['/', '/', ':', 's', 'p', 't', 't', 'h'] ++ b, a.drop 8, cap⟩]
      else if ['h', 't', 't', 'p', ':', '/', '/'].isPrefixOf a then
        [⟨['/', '/', ':', 'p', 't', 't', 'h'] ++ b, a.drop 7, cap⟩]
      else if ['a', 'n', 'd', 'r', 'o', 'i', 'd', ':', '/', '/'].isPrefixOf a then
        [⟨['/', '/', ':', 'd', 'i', 'o', 'r', 'd', 'n', 'a'] ++ b, a.drop 10, cap⟩]
      else if ['s', 'm', 't', 'p', ':', '/', '/'].isPrefixOf a then
        [⟨['/', '/', ':', 'p', 't', 'm', 's'] ++ b, a.drop 7, cap⟩]
      else [] := by
  unfold schemeRe
  rw [run_alt, run_alt, run_httpRe, run_lit, run_lit]
  by_cases h8 : ['h', 't', 't', 'p', 's', ':', '/', '/'].isPrefixOf a = true
  · obtain ⟨t, rfl⟩ := List.isPrefixOf_iff_prefix.mp h8
    simp
  · by_cases h7 : ['h', 't', 't', 'p', ':', '/', '/'].isPrefixOf a = true
    · obtain ⟨t, rfl⟩ := List.isPrefixOf_iff_prefix.mp h7
      simp
    · by_cases ha : ['a', 'n', 'd', 'r', 'o', 'i', 'd', ':', '/', '/'].isPrefixOf a = true
      · obtain ⟨t, rfl⟩ := List.isPrefixOf_iff_prefix.mp ha
        simp
      · simp only [h8, h7, ha]
        simp

theorem findFrom_of_matchHere {r : Re} {b a : List Char} {m : Match}
    (h : matchHere r b a = some m) : findFrom r b a = some m := by
  cases a with
  | nil => simpa [findFrom] using h
  | cons c t => simp [findFrom, h]

theorem consumed_append (w b a a' : List Char) (cap cap' : Option Str) :
    consumed ⟨b, a, cap⟩ ⟨w ++ b, a', cap'⟩ = w.reverse := by
  simp [consumed]

/-- The capture group `([p]+)`: its preferred match is the longest run, and this run is
the text of the group. -/
theorem run_group_plus_head (p : Char → Bool) (b a : List Char) (cap : Option Str)
    (hne : a ≠ []) (hp : ∀ c, a.head? = some c → p c = true) :
    ((Re.group (Re.plus p)).run ⟨b, a, cap⟩).head? =
      some ⟨(a.takeWhile p).reverse ++ b, a.dropWhile p, some (a.takeWhile p)⟩ := by
  cases a with
  | nil => exact absurd rfl hne
  | cons c t =>
    have hc : p c = true := hp c rfl
    have hrun : (Re.group (Re.plus p)).run ⟨b, c :: t, cap⟩ =
        (manyFrom p cap (c :: b) t).map
          (fun s' => ⟨s'.before, s'.after, some (consumed ⟨b, c :: t, cap⟩ s')⟩) := by
      show ((Re.plus p).run ⟨b, c :: t, cap⟩).map _ = _
      rw [run_plus]
      simp [hc]
    rw [hrun, List.head?_map, manyFrom_head]
    have hb : (List.takeWhile p t).reverse ++ c :: b = ((List.takeWhile p t).reverse ++ [c]) ++ b := by
      simp
    simp only [Option.map_some']
    rw [hb, consumed_append]
    simp [List.takeWhile_cons, List.dropWhile_cons, hc]

theorem isNotSlash_eq : isNotSlash = fun c => c != '/' := by
  funext c; simp [isNotSlash, bne]

/-- The part of `domainRe` after the scheme: `(?:www\.)?([^/]+)`. -/
theorem run_domainTail_head (b x : List Char)
    (hne : stripWww x ≠ []) (hslash : (stripWww x).head? ≠ some '/') :
    ∃ s, ((Re.cat (Re.opt (Re.lit ['w', 'w', 'w', '.']))
            (Re.group (Re.plus isNotSlash))).run ⟨b, x, none⟩).head? = some s ∧
      s.cap = some (beforeSlash (stripWww x)) := by
  have hp : ∀ c, (stripWww x).head? = some c → isNotSlash c = true := by
    intro c hc
    have : c ≠ '/' := by rintro rfl; exact hslash hc
    simp [isNotSlash, this]
  rw [run_cat, run_opt, andThen_append, andThen_singleton, run_lit]
  by_cases hw : ['w', 'w', 'w', '.'].isPrefixOf x = true
  · have hr : stripWww x = x.drop 4 := by simp [stripWww, hw]
    rw [hr] at hne hp ⊢
    rw [if_pos hw, andThen_singleton, List.head?_append]
    have h4 : ['w', 'w', 'w', '.'].length = 4 := rfl
    rw [h4, run_group_plus_head isNotSlash _ _ _ hne hp]
    exact ⟨_, rfl, by simp [beforeSlash, isNotSlash_eq]⟩
  · have hr : stripWww x = x := by simp [stripWww, hw]
    rw [hr] at hne hp ⊢
    rw [if_neg hw]
    simp only [andThen, List.nil_append]
    rw [run_group_plus_head isNotSlash _ _ _ hne hp]
    exact ⟨_, rfl, by simp [beforeSlash, isNotSlash_eq]⟩

/-- The preferred match of `domainRe` at the start of a line. -/
theorem run_domainRe_head (line : Str)
    (hne : stripWww (stripScheme line) ≠ [])
    (hslash : (stripWww (stripScheme line)).head? ≠ some '/') :
    ∃ s, (domainRe.run ⟨[], line, none⟩).head? = some s ∧
      s.cap = some (beforeSlash (stripWww (stripScheme line))) := by
  unfold domainRe
  rw [run_cat]
  show ∃ s, (andThen _ [⟨[], line, none⟩]).head? = some s ∧ _
  rw [andThen_singleton, run_cat, run_opt, andThen_append, andThen_singleton, run_schemeRe]
  by_cases h8 : ['h', 't', 't', 'p', 's', ':', '/', '/'].isPrefixOf line = true
  · have h7 : ¬ ['h', 't', 't', 'p', ':', '/', '/'].isPrefixOf line = true := by
      obtain ⟨t, rfl⟩ := List.isPrefixOf_iff_prefix.mp h8
      simp
    simp only [stripScheme, h7, h8, if_true, Bool.false_eq_true, if_false] at hne hslash ⊢
    obtain ⟨s, hs, hcap⟩ := run_domainTail_head
      (['/', '/', ':', 's', 'p', 't', 't', 'h'] ++ []) _ hne hslash
    refine ⟨s, ?_, hcap⟩
    rw [andThen_singleton, List.head?_append, hs]
    rfl
  · by_cases h7 : ['h', 't', 't', 'p', ':', '/', '/'].isPrefixOf line = true
    · simp only [stripScheme, h7, h8, if_true, Bool.false_eq_true, if_false] at hne hslash ⊢
      obtain ⟨s, hs, hcap⟩ := run_domainTail_head
        (['/', '/', ':', 'p', 't', 't', 'h'] ++ []) _ hne hslash
      refine ⟨s, ?_, hcap⟩
      rw [andThen_singleton, List.head?_append, hs]
      rfl
    · by_cases ha : ['a', 'n', 'd', 'r', 'o', 'i', 'd', ':', '/', '/'].isPrefixOf line = true
      · simp only [stripScheme, h7, h8, ha, if_true, Bool.false_eq_true, if_false]
          at hne hslash ⊢
        obtain ⟨s, hs, hcap⟩ := run_domainTail_head
          (['/', '/', ':', 'd', 'i', 'o', 'r', 'd', 'n', 'a'] ++ []) _ hne hslash
        refine ⟨s, ?_, hcap⟩
        rw [andThen_singleton, List.head?_append, hs]
        rfl
      · by_cases hs : ['s', 'm', 't', 'p', ':', '/', '/'].isPrefixOf line = true
        · simp only [stripScheme, h7, h8, ha, hs, if_true, Bool.false_eq_true, if_false]
            at hne hslash ⊢
          obtain ⟨s, hs, hcap⟩ := run_domainTail_head
            (['/', '/', ':', 'p', 't', 'm', 's'] ++ []) _ hne hslash
          refine ⟨s, ?_, hcap⟩
          rw [andThen_singleton, List.head?_append, hs]
          rfl
        · simp only [stripScheme, h7, h8, ha, hs, Bool.false_eq_true, if_false]
            at hne hslash ⊢
          obtain ⟨s, hs, hcap⟩ := run_domainTail_head [] _ hne hslash
          refine ⟨s, ?_, hcap⟩
          simpa [andThen] using hs

/-- C2. DomainRule: let `r` be the line with a leading scheme prefix removed if present
and then a leading `www.` removed if present; whenever `r` is non-empty and does not begin
with `/`, the rule yields a domain, and the domain is the lowercase of the part of `r`
before its first `/`. -/
theorem domainRule_spec (tbl : Char → Char) (line : Str)
    (hne : stripWww (stripScheme line) ≠ [])
    (hslash : (stripWww (stripScheme line)).head? ≠ some '/') :
    domainOfLine tbl line = some (toLower tbl (beforeSlash (stripWww (stripScheme line)))) := by
  obtain ⟨s, hs, hcap⟩ := run_domainRe_head line hne hslash
  have hm : matchHere domainRe [] line = some ⟨0, s.before.length, s.cap⟩ := by
    rw [matchHere_eq, hs]; rfl
  have hf := findFrom_of_matchHere hm
  simp [domainOfLine, findStringSubmatch, hf, hcap]

/-- C2, the literal case of the spec: the line
`https://www.netflix.com/login:user@a.com:pass123` gives the domain `netflix.com`. -/
theorem domainRule_spec_witness :
    stripWww (stripScheme "https://www.netflix.com/login:user@a.com:pass123".toList) ≠ [] ∧
    (stripWww (stripScheme "https://www.netflix.com/login:user@a.com:pass123".toList)).head?
      ≠ some '/' ∧
    domainOfLine id "https://www.netflix.com/login:user@a.com:pass123".toList
      = some "netflix.com".toList :=
  ⟨by decide, by decide,
    (domainRule_spec id "https://www.netflix.com/login:user@a.com:pass123".toList
      (by decide) (by decide)).trans (by decide)⟩

/-! ## The password pattern -/

theorem isPassChar_eq (c : Char) : isPassChar c = !isSep c := by
  simp only [isPassChar, isSep]
  cases (c == ',') <;> cases (c == ':') <;> cases isReSpace c <;> rfl

theorem isPassChar_fun : isPassChar = fun c => !isSep c := funext isPassChar_eq

/-- The separator alternative `(?::|,|\s)` consumes exactly one separator character. -/
theorem run_sepRe (b a : List Char) (cap : Option Str) :
    (Re.alt (Re.cls (fun x => x == ':'))
        (Re.alt (Re.cls (fun x => x == ',')) (Re.cls isReSpace))).run ⟨b, a, cap⟩ =
      match a with
      | [] => []
      | c :: t => if isSep c then [⟨c :: b, t, cap⟩] else [] := by
  rw [run_alt, run_alt, run_cls, run_cls, run_cls]
  cases a with
  | nil => rfl
  | cons c t =>
    by_cases h1 : c = ':'
    · subst h1; simp [isSep]; decide
    · by_cases h2 : c = ','
      · subst h2; simp [isSep]; decide
      · by_cases h3 : isReSpace c = true <;> simp [isSep, h1, h2, h3]

theorem run_passRe_nil (b a : List Char) (h : sepTokenAt a 0 = false) :
    passRe.run ⟨b, a, none⟩ = [] := by
  unfold passRe
  rw [run_cat, run_sepRe]
  rcases a with _ | ⟨c, _ | ⟨d, t⟩⟩
  · rfl
  · by_cases hc : isSep c = true
    · simp only [hc, if_true, andThen_singleton]
      show ((Re.plus isPassChar).run ⟨[c] ++ b, [], none⟩).map _ = []
      rw [run_plus]; rfl
    · simp [hc, andThen]
  · by_cases hc : isSep c = true
    · have hd : isPassChar d = false := by
        rw [isPassChar_eq]
        simpa [sepTokenAt, hc] using h
      simp only [hc, if_true, andThen_singleton]
      show ((Re.plus isPassChar).run ⟨c :: b, d :: t, none⟩).map _ = []
      rw [run_plus]; simp [hd]
    · simp [hc, andThen]

theorem run_passRe_head (b a : List Char) (h : sepTokenAt a 0 = true) :
    ∃ s, (passRe.run ⟨b, a, none⟩).head? = some s ∧
      s.cap = some ((a.drop 1).takeWhile (fun c => !isSep c)) := by
  unfold passRe
  rw [run_cat, run_sepRe]
  rcases a with _ | ⟨c, _ | ⟨d, t⟩⟩
  · simp [sepTokenAt] at h
  · simp [sepTokenAt] at h
  · have hcd : isSep c = true ∧ isSep d = false := by simpa [sepTokenAt] using h
    simp only [hcd.1, if_true, andThen_singleton]
    rw [run_group_plus_head isPassChar _ _ _ (by simp)
      (by intro x hx; simp at hx; subst hx; simp [isPassChar_eq, hcd.2])]
    exact ⟨_, rfl, by simp [isPassChar_fun]⟩

theorem sepTokenAt_succ (c : Char) (t : Str) (i : Nat) :
    sepTokenAt (c :: t) (i + 1) = sepTokenAt t i := by
  simp [sepTokenAt]

/-- Leftmost-first search with `passRe` stops at the first separator that is followed
by a non-separator, and group 1 is the longest run of non-separators after it. -/
theorem findFrom_passRe_some (rest : Str) (i : Nat) :
    ∀ b : List Char, sepTokenAt rest i = true → (∀ j, j < i → sepTokenAt rest j = false) →
    ∃ m, findFrom passRe b rest = some m ∧
      m.cap = some ((rest.drop (i + 1)).takeWhile (fun c => !isSep c)) := by
  induction i generalizing rest with
  | zero =>
    intro b h _
    obtain ⟨s, hs, hcap⟩ := run_passRe_head b rest h
    have hm : matchHere passRe b rest = some ⟨b.length, s.before.length, s.cap⟩ := by
      rw [matchHere_eq, hs]; rfl
    exact ⟨_, findFrom_of_matchHere hm, by simpa using hcap⟩
  | succ i ih =>
    intro b h hmin
    cases rest with
    | nil => simp [sepTokenAt] at h
    | cons c t =>
      have h0 : matchHere passRe b (c :: t) = none := by
        rw [matchHere_eq, run_passRe_nil b (c :: t) (hmin 0 (Nat.succ_pos i))]; rfl
      rw [sepTokenAt_succ] at h
      obtain ⟨m, hm, hcap⟩ := ih t (c :: b) h (fun j hj => by
        have := hmin (j + 1) (Nat.succ_lt_succ hj)
        rwa [sepTokenAt_succ] at this)
      exact ⟨m, by simp [findFrom, h0, hm], by simpa using hcap⟩

theorem findFrom_passRe_none (rest : Str) :
    ∀ b : List Char, (∀ i, sepTokenAt rest i = false) → findFrom passRe b rest = none := by
  induction rest with
  | nil =>
    intro b h
    simp [findFrom, matchHere_eq, run_passRe_nil b [] (h 0)]
  | cons c t ih =>
    intro b h
    have h0 : matchHere passRe b (c :: t) = none := by
      rw [matchHere_eq, run_passRe_nil b (c :: t) (h 0)]; rfl
    have := ih (c :: b) (fun i => by have := h (i + 1); rwa [sepTokenAt_succ] at this)
    simp [findFrom, h0, this]

/-- A least offset with a separator followed by a non-separator, when there is one. -/
theorem exists_first_sepToken (rest : Str) (i : Nat) (h : sepTokenAt rest i = true) :
    ∃ k, sepTokenAt rest k = true ∧ ∀ j, j < k → sepTokenAt rest j = false := by
  classical
  let P := fun k => sepTokenAt rest k = true
  have hex : ∃ k, P k := ⟨i, h⟩
  refine ⟨Nat.find hex, Nat.find_spec hex, fun j hj => ?_⟩
  have := Nat.find_min hex hj
  simpa [P] using this

/-! ## The credential rules -/

/-- The entry built by a credential rule once its key pattern has matched at `[a, b)`
and the rest of the line holds a first separator-then-token at offset `i`. -/
theorem credentialPair_some (re : Re) (line : Str) (a b i : Nat)
    (hkey : findStringIndex re line = some (a, b))
    (hi : sepTokenAt (line.drop b) i = true)
    (hmin : ∀ j, j < i → sepTokenAt (line.drop b) j = false) :
    credentialPair re line =
      some (slice line a b, ((line.drop b).drop (i + 1)).takeWhile (fun c => !isSep c)) := by
  obtain ⟨m, hm, hcap⟩ := findFrom_passRe_some (line.drop b) i [] hi hmin
  simp [credentialPair, hkey, findStringSubmatch, hm, hcap]

theorem credentialEntry_some (re : Re) (line : Str) (a b i : Nat)
    (hkey : findStringIndex re line = some (a, b))
    (hi : sepTokenAt (line.drop b) i = true)
    (hmin : ∀ j, j < i → sepTokenAt (line.drop b) j = false) :
    credentialEntry re line =
      some (slice line a b ++ ':' :: ((line.drop b).drop (i + 1)).takeWhile (fun c => !isSep c)) := by
  rw [credentialEntry, credentialPair_some re line a b i hkey hi hmin]
  rfl

/-- Every pair produced by a credential rule comes from a match of the key pattern and
from the first separator-then-token of the rest of the line. -/
theorem credentialPair_inv {re : Re} {line : Str} {k p : Str}
    (h : credentialPair re line = some (k, p)) :
    ∃ a b i, findStringIndex re line = some (a, b) ∧ sepTokenAt (line.drop b) i = true ∧
      (∀ j, j < i → sepTokenAt (line.drop b) j = false) ∧ k = slice line a b ∧
      p = ((line.drop b).drop (i + 1)).takeWhile (fun c => !isSep c) := by
  cases hkey : findStringIndex re line with
  | none => simp [credentialPair, hkey] at h
  | some ab =>
    obtain ⟨a, b⟩ := ab
    by_cases hex : ∃ i, sepTokenAt (line.drop b) i = true
    · obtain ⟨i, hi⟩ := hex
      obtain ⟨i0, hi0, hmin⟩ := exists_first_sepToken _ i hi
      have := credentialPair_some re line a b i0 hkey hi0 hmin
      rw [h] at this
      simp only [Option.some.injEq, Prod.mk.injEq] at this
      exact ⟨a, b, i0, rfl, hi0, hmin, this.1, this.2⟩
    · have hall : ∀ i, sepTokenAt (line.drop b) i = false := by
        intro i
        cases hs : sepTokenAt (line.drop b) i with
        | false => rfl
        | true => exact absurd ⟨i, hs⟩ hex
      have := findFrom_passRe_none (line.drop b) [] hall
      simp [credentialPair, hkey, findStringSubmatch, this] at h

theorem credentialEntry_isSome_iff (re : Re) (line : Str) :
    (credentialEntry re line).isSome = true ↔
      ∃ a b, findStringIndex re line = some (a, b) ∧ ∃ i, sepTokenAt (line.drop b) i = true := by
  constructor
  · intro h
    cases hkey : findStringIndex re line with
    | none => simp [credentialEntry, credentialPair, hkey] at h
    | some ab =>
      obtain ⟨a, b⟩ := ab
      refine ⟨a, b, rfl, ?_⟩
      by_contra hno
      have hall : ∀ i, sepTokenAt (line.drop b) i = false := by
        intro i
        cases hs : sepTokenAt (line.drop b) i with
        | false => rfl
        | true => exact absurd ⟨i, hs⟩ hno
      have := findFrom_passRe_none (line.drop b) [] hall
      simp [credentialEntry, credentialPair, hkey, findStringSubmatch, this] at h
  · rintro ⟨a, b, hkey, i, hi⟩
    obtain ⟨k, hk, hmin⟩ := exists_first_sepToken _ i hi
    rw [credentialEntry_some re line a b k hkey hk hmin]
    rfl

theorem findFrom_some {r : Re} {a : List Char} :
    ∀ {b : List Char} {m : Match}, findFrom r b a = some m →
    ∃ j, j ≤ a.length ∧ matchHere r ((a.take j).reverse ++ b) (a.drop j) = some m ∧
      ∀ i, i < j → matchHere r ((a.take i).reverse ++ b) (a.drop i) = none := by
  induction a with
  | nil =>
    intro b m h
    exact ⟨0, le_refl _, by simpa [findFrom] using h, fun i hi => absurd hi (Nat.not_lt_zero i)⟩
  | cons c t ih =>
    intro b m h
    cases h0 : matchHere r b (c :: t) with
    | some m0 =>
      have : m0 = m := by simpa [findFrom, h0] using h
      subst this
      exact ⟨0, Nat.zero_le _, by simpa using h0, fun i hi => absurd hi (Nat.not_lt_zero i)⟩
    | none =>
      have h' : findFrom r (c :: b) t = some m := by simpa [findFrom, h0] using h
      obtain ⟨j, hj, hm, hmin⟩ := ih h'
      refine ⟨j + 1, by simpa using hj, by simpa using hm, fun i hi => ?_⟩
      cases i with
      | zero => simpa using h0
      | succ i => simpa using hmin i (Nat.lt_of_succ_lt_succ hi)

theorem findFrom_none {r : Re} {a : List Char} :
    ∀ {b : List Char}, findFrom r b a = none →
    ∀ j, j ≤ a.length → matchHere r ((a.take j).reverse ++ b) (a.drop j) = none := by
  induction a with
  | nil =>
    intro b h j hj
    have : j = 0 := by simpa using hj
    subst this
    simpa [findFrom] using h
  | cons c t ih =>
    intro b h j hj
    cases h0 : matchHere r b (c :: t) with
    | some m0 => simp [findFrom, h0] at h
    | none =>
      have h' : findFrom r (c :: b) t = none := by simpa [findFrom, h0] using h
      cases j with
      | zero => simpa using h0
      | succ j => simpa using ih h' j (by simpa using hj)

theorem matchHere_none_iff (r : Re) (b a : List Char) :
    matchHere r b a = none ↔ r.run ⟨b, a, none⟩ = [] := by
  unfold matchHere
  cases r.run ⟨b, a, none⟩ <;> simp

theorem matchHere_start {r : Re} {b a : List Char} {m : Match}
    (h : matchHere r b a = some m) : m.start = b.length := by
  unfold matchHere at h
  cases hr : r.run ⟨b, a, none⟩ with
  | nil => simp [hr] at h
  | cons s ss =>
    simp only [hr, Option.some.injEq] at h
    rw [← h]

/-- Go reports the leftmost match: `FindStringIndex` returns offsets `(a, b)` only if the
pattern matches at `a` and at no smaller offset. -/
theorem findStringIndex_leftmost {r : Re} {line : Str} {a b : Nat}
    (h : findStringIndex r line = some (a, b)) :
    a ≤ line.length ∧ matchesAt r line a = true ∧ ∀ k, k < a → matchesAt r line k = false := by
  unfold findStringIndex at h
  cases hf : findFrom r [] line with
  | none => simp [hf] at h
  | some m =>
    obtain ⟨j, hj, hm, hmin⟩ := findFrom_some hf
    have hst := matchHere_start hm
    have hja : j = a := by
      have h1 : m.start = a := by simpa [hf] using congrArg (Option.map Prod.fst) h
      have h2 : m.start = j := by simpa [Nat.min_eq_left hj] using hst
      omega
    subst hja
    refine ⟨hj, ?_, fun k hk => ?_⟩
    · have : matchHere r (List.take j line).reverse (List.drop j line) ≠ none := by
        simpa using (by rw [show (List.take j line).reverse = (List.take j line).reverse ++ [] by simp, hm]; simp :
          matchHere r (List.take j line).reverse (List.drop j line) ≠ none)
      rw [Ne, matchHere_none_iff] at this
      simpa [matchesAt] using this
    · have := hmin k hk
      simp only [List.append_nil] at this
      rw [matchHere_none_iff] at this
      simp [matchesAt, this]

/-- Go reports no match only when the pattern matches at no offset of the line. -/
theorem findStringIndex_none {r : Re} {line : Str} (h : findStringIndex r line = none) :
    ∀ k, k ≤ line.length → matchesAt r line k = false := by
  unfold findStringIndex at h
  cases hf : findFrom r [] line with
  | some m => simp [hf] at h
  | none =>
    intro k hk
    have := findFrom_none hf k hk
    simp only [List.append_nil] at this
    rw [matchHere_none_iff] at this
    simp [matchesAt, this]

/-- Conversely, a match at some offset makes `FindStringIndex` succeed. -/
theorem findStringIndex_isSome {r : Re} {line : Str} {k : Nat} (hk : k ≤ line.length)
    (h : matchesAt r line k = true) : (findStringIndex r line).isSome = true := by
  cases hf : findStringIndex r line with
  | some ab => rfl
  | none =>
    have := findStringIndex_none hf k hk
    rw [h] at this
    exact absurd this (by decide)

theorem manyFrom_sound (p : Char → Bool) (cap : Option Str) (a : List Char) :
    ∀ (b : List Char) (s' : Pos), s' ∈ manyFrom p cap b a →
    ∃ w, Advances ⟨b, a, cap⟩ s' w ∧ ∀ c ∈ w, p c = true := by
  induction a with
  | nil =>
    intro b s' h
    simp only [manyFrom, List.mem_singleton] at h
    subst h
    exact ⟨[], ⟨rfl, rfl⟩, by simp⟩
  | cons x t ih =>
    intro b s' h
    by_cases hx : p x = true
    · simp only [manyFrom, hx, if_true, List.mem_append, List.mem_singleton] at h
      rcases h with h | h
      · obtain ⟨w, ⟨h1, h2⟩, h3⟩ := ih (x :: b) s' h
        refine ⟨x :: w, ⟨by simpa using h1, by simpa using h2⟩, ?_⟩
        intro c hc
        rcases List.mem_cons.mp hc with rfl | hc
        · exact hx
        · exact h3 c hc
      · subst h
        exact ⟨[], ⟨rfl, rfl⟩, by simp⟩
    · simp only [manyFrom, hx, Bool.false_eq_true, if_false, List.mem_singleton] at h
      subst h
      exact ⟨[], ⟨rfl, rfl⟩, by simp⟩

/-- Every match consumes a stretch of the line right after the starting position, made
of characters of the pattern's alphabet. -/
theorem run_sound (r : Re) :
    ∀ (s s' : Pos), s' ∈ r.run s → ∃ w, Advances s s' w ∧ ∀ c ∈ w, r.alphabet c = true := by
  induction r with
  | eps =>
    intro s s' h
    simp only [Re.run, List.mem_singleton] at h
    subst h
    exact ⟨[], ⟨rfl, rfl⟩, by simp⟩
  | cls p =>
    intro s s' h
    obtain ⟨b, a, cap⟩ := s
    cases a with
    | nil => simp [Re.run] at h
    | cons x t =>
      by_cases hx : p x = true
      · simp only [Re.run, hx, if_true, List.mem_singleton] at h
        subst h
        exact ⟨[x], ⟨rfl, rfl⟩, by simpa [Re.alphabet] using hx⟩
      · simp [Re.run, hx] at h
  | many p =>
    intro s s' h
    obtain ⟨b, a, cap⟩ := s
    exact manyFrom_sound p cap a b s' h
  | cat a b iha ihb =>
    intro s s' h
    rw [run_cat, mem_andThen] at h
    obtain ⟨s1, h1, h2⟩ := h
    obtain ⟨w1, ⟨e1, e2⟩, c1⟩ := iha s s1 h1
    obtain ⟨w2, ⟨e3, e4⟩, c2⟩ := ihb s1 s' h2
    refine ⟨w1 ++ w2, ⟨by simp [e3, e1], by simp [e2, e4]⟩, ?_⟩
    intro c hc
    rcases List.mem_append.mp hc with hc | hc
    · simp [Re.alphabet, c1 c hc]
    · simp [Re.alphabet, c2 c hc]
  | alt a b iha ihb =>
    intro s s' h
    rw [run_alt, List.mem_append] at h
    rcases h with h | h
    · obtain ⟨w, hw, hc⟩ := iha s s' h
      exact ⟨w, hw, fun c hcw => by simp [Re.alphabet, hc c hcw]⟩
    · obtain ⟨w, hw, hc⟩ := ihb s s' h
      exact ⟨w, hw, fun c hcw => by simp [Re.alphabet, hc c hcw]⟩
  | opt a iha =>
    intro s s' h
    rw [run_opt, List.mem_append, List.mem_singleton] at h
    rcases h with h | h
    · obtain ⟨w, hw, hc⟩ := iha s s' h
      exact ⟨w, hw, fun c hcw => by simp [Re.alphabet, hc c hcw]⟩
    · subst h
      exact ⟨[], ⟨rfl, rfl⟩, by simp⟩
  | bol =>
    intro s s' h
    by_cases hb : s.before = []
    · simp only [Re.run, hb, if_true, List.mem_singleton] at h
      subst h
      exact ⟨[], ⟨rfl, rfl⟩, by simp⟩
    · simp [Re.run, hb] at h
  | wordB =>
    intro s s' h
    by_cases hb : (wordAt s.before != wordAt s.after) = true
    · simp only [Re.run, hb, if_true, List.mem_singleton] at h
      subst h
      exact ⟨[], ⟨rfl, rfl⟩, by simp⟩
    · simp [Re.run, hb] at h
  | group a iha =>
    intro s s' h
    simp only [Re.run, List.mem_map] at h
    obtain ⟨s1, h1, rfl⟩ := h
    obtain ⟨w, ⟨e1, e2⟩, hc⟩ := iha s s1 h1
    exact ⟨w, ⟨e1, e2⟩, fun c hcw => by simp [Re.alphabet, hc c hcw]⟩

/-- The text `line[a:b]` of a match reported by `FindStringIndex` consists of characters
of the pattern's alphabet, and `a ≤ b ≤ len(line)`. -/
theorem findStringIndex_slice {r : Re} {line : Str} {a b : Nat}
    (h : findStringIndex r line = some (a, b)) :
    a ≤ b ∧ b ≤ line.length ∧ (∀ c ∈ slice line a b, r.alphabet c = true) ∧
      (slice line a b).length = b - a := by
  unfold findStringIndex at h
  cases hf : findFrom r [] line with
  | none => simp [hf] at h
  | some m =>
    obtain ⟨j, hj, hm, _⟩ := findFrom_some hf
    have hab : m.start = a ∧ m.stop = b := by
      simpa [hf] using h
    rw [List.append_nil] at hm
    rw [matchHere] at hm
    cases hr : r.run ⟨(List.take j line).reverse, List.drop j line, none⟩ with
    | nil => simp [hr] at hm
    | cons s ss =>
      simp only [hr, Option.some.injEq] at hm
      have hmem : s ∈ r.run ⟨(List.take j line).reverse, List.drop j line, none⟩ := by
        rw [hr]; exact List.mem_cons_self _ _
      obtain ⟨w, ⟨e1, e2⟩, hc⟩ := run_sound r _ s hmem
      simp only at e1 e2
      have hstart : a = j := by
        rw [← hab.1, ← hm]; simp [Nat.min_eq_left hj]
      have hstop : b = w.length + j := by
        rw [← hab.2, ← hm, e1]; simp [Nat.min_eq_left hj]
      have hlen : line.length = j + (w.length + s.after.length) := by
        have := congrArg List.length e2
        simp at this
        omega
      have hsl : slice line a b = w := by
        rw [hstart, hstop, slice, e2]
        simp
      refine ⟨by omega, by omega, by rw [hsl]; exact hc, by rw [hsl]; omega⟩

theorem findFrom_of_first {r : Re} {m : Match} (j : Nat) :
    ∀ (a b : List Char), j ≤ a.length →
    matchHere r ((a.take j).reverse ++ b) (a.drop j) = some m →
    (∀ i, i < j → matchHere r ((a.take i).reverse ++ b) (a.drop i) = none) →
    findFrom r b a = some m := by
  induction j with
  | zero =>
    intro a b _ hm _
    exact findFrom_of_matchHere (by simpa using hm)
  | succ j ih =>
    intro a b hj hm hmin
    cases a with
    | nil => simp at hj
    | cons c t =>
      have h0 : matchHere r b (c :: t) = none := by simpa using hmin 0 (Nat.succ_pos j)
      have := ih t (c :: b) (by simpa using hj) (by simpa using hm) (fun i hi => by
        simpa using hmin (i + 1) (Nat.succ_lt_succ hi))
      simp [findFrom, h0, this]

/-- `FindStringIndex` returns `(a, b)` exactly when `a` is the least offset at which the
pattern matches and `b` is where the preferred match from `a` ends. -/
theorem findStringIndex_eq_some_iff (r : Re) (line : Str) (a b : Nat) :
    findStringIndex r line = some (a, b) ↔
      a ≤ line.length ∧
      (∃ s ss, r.run ⟨(line.take a).reverse, line.drop a, none⟩ = s :: ss ∧
        b = s.before.length) ∧
      ∀ k, k < a → r.run ⟨(line.take k).reverse, line.drop k, none⟩ = [] := by
  constructor
  · intro h
    unfold findStringIndex at h
    cases hf : findFrom r [] line with
    | none => simp [hf] at h
    | some m =>
      obtain ⟨j, hj, hm, hmin⟩ := findFrom_some hf
      have hab : m.start = a ∧ m.stop = b := by simpa [hf] using h
      rw [List.append_nil] at hm
      have hst := matchHere_start hm
      have hja : j = a := by
        rw [← hab.1, hst]; simp [Nat.min_eq_left hj]
      subst hja
      refine ⟨hj, ?_, fun k hk => ?_⟩
      · rw [matchHere] at hm
        cases hr : r.run ⟨(List.take j line).reverse, List.drop j line, none⟩ with
        | nil => simp [hr] at hm
        | cons s ss =>
          simp only [hr, Option.some.injEq] at hm
          exact ⟨s, ss, rfl, by rw [← hab.2, ← hm]⟩
      · have := hmin k hk
        rwa [List.append_nil, matchHere_none_iff] at this
  · rintro ⟨ha, ⟨s, ss, hr, hb⟩, hmin⟩
    have hm : matchHere r ((line.take a).reverse ++ []) (line.drop a) = some ⟨a, b, s.cap⟩ := by
      rw [List.append_nil, matchHere, hr]
      simp [Nat.min_eq_left ha, hb]
    have := findFrom_of_first a line [] ha hm (fun i hi => by
      rw [List.append_nil, matchHere_none_iff]; exact hmin i hi)
    simp [findStringIndex, this]

/-! ## The digit-run patterns of CPF and CNPJ -/

theorem run_rep_cls (p : Char → Bool) (n : Nat) :
    ∀ (b a : List Char) (cap : Option Str),
    (Re.rep (Re.cls p) n).run ⟨b, a, cap⟩ =
      if n ≤ a.length ∧ (a.take n).all p = true then
        [⟨(a.take n).reverse ++ b, a.drop n, cap⟩]
      else [] := by
  induction n with
  | zero => intro b a cap; simp [Re.rep, Re.run]
  | succ n ih =>
    intro b a cap
    rw [Re.rep, run_cat, run_cls]
    cases a with
    | nil => simp [andThen]
    | cons x t =>
      by_cases hx : p x = true
      · simp only [hx, if_true, andThen_singleton, ih]
        by_cases hc : n ≤ t.length ∧ (t.take n).all p = true
        · rw [if_pos hc, if_pos]
          · simp
          · simpa [hx] using hc
        · rw [if_neg hc, if_neg]
          simpa [hx] using hc
      · simp [hx, andThen]

theorem digitAt_le_wordAt (l : List Char) (h : digitAt l = true) : wordAt l = true := by
  cases l with
  | nil => simp [digitAt] at h
  | cons c t => simp only [digitAt] at h; simp [wordAt, isWordChar, h]

/-- A run bounded by non-word characters is in particular bounded by non-digits. -/
theorem standalone_of_wordBounded {n : Nat} {line : Str} {k : Nat}
    (h : wordBoundedDigitsAt n line k = true) : standaloneDigitsAt n line k = true := by
  simp only [wordBoundedDigitsAt, Bool.and_eq_true, Bool.not_eq_true'] at h
  obtain ⟨⟨⟨h1, h2⟩, h3⟩, h4⟩ := h
  have d3 : digitAt (line.take k).reverse = false := by
    cases hd : digitAt (line.take k).reverse with
    | false => rfl
    | true => rw [digitAt_le_wordAt _ hd] at h3; exact absurd h3 (by decide)
  have d4 : digitAt (line.drop (k + n)) = false := by
    cases hd : digitAt (line.drop (k + n)) with
    | false => rfl
    | true => rw [digitAt_le_wordAt _ hd] at h4; exact absurd h4 (by decide)
  simp [standaloneDigitsAt, h1, h2, d3, d4]

theorem wordAt_of_all_digits (l t : List Char) (hne : l ≠ []) (h : l.all isDigit = true) :
    wordAt (l ++ t) = true := by
  cases l with
  | nil => exact absurd rfl hne
  | cons c l =>
    simp only [List.all_cons, Bool.and_eq_true] at h
    simp [wordAt, isWordChar, h.1]

/-- The pattern `\b\d{n}\b` (with `n ≥ 1`) matches at a position exactly when `n` digits
follow that are bounded by non-word characters or line edges, and then it has exactly
one match, which consumes the `n` digits. -/
theorem run_digitsRe (n : Nat) (b a : List Char) :
    (digitsRe (n + 1)).run ⟨b, a, none⟩ =
      if (decide (n + 1 ≤ a.length) && (a.take (n + 1)).all isDigit &&
          !wordAt b && !wordAt (a.drop (n + 1))) = true then
        [⟨(a.take (n + 1)).reverse ++ b, a.drop (n + 1), none⟩]
      else [] := by
  unfold digitsRe
  rw [run_cat]
  by_cases hd : (n + 1 ≤ a.length ∧ (a.take (n + 1)).all isDigit = true)
  · have hne : a.take (n + 1) ≠ [] := by
      intro h0
      have hl : (a.take (n + 1)).length = n + 1 := by
        rw [List.length_take]; exact Nat.min_eq_left hd.1
      rw [h0] at hl
      simp at hl
    have hwa : wordAt a = true := by
      have := wordAt_of_all_digits (a.take (n + 1)) (a.drop (n + 1)) hne hd.2
      rwa [List.take_append_drop] at this
    have hwe : wordAt ((a.take (n + 1)).reverse ++ b) = true :=
      wordAt_of_all_digits _ b (by simpa using hne) (by simpa using hd.2)
    cases hb : wordAt b with
    | true => simp [Re.run, hb, hwa, andThen]
    | false =>
      have h1 : Re.wordB.run ⟨b, a, none⟩ = [⟨b, a, none⟩] := by simp [Re.run, hb, hwa]
      rw [h1, andThen_singleton, run_cat, run_rep_cls, if_pos hd, andThen_singleton]
      cases he : wordAt (a.drop (n + 1)) with
      | true => simp [Re.run, hwe, he, hd.1, hd.2]
      | false => simp [Re.run, hwe, he, hd.1, hd.2]
  · have h2 : ∀ s : Pos, s.after = a →
        (Re.cat (Re.rep (Re.cls isDigit) (n + 1)) Re.wordB).run s = [] := by
      intro s hs
      obtain ⟨sb, sa, sc⟩ := s
      simp only at hs
      subst hs
      rw [run_cat, run_rep_cls, if_neg hd]; rfl
    have hres : (decide (n + 1 ≤ a.length) && (a.take (n + 1)).all isDigit &&
          !wordAt b && !wordAt (a.drop (n + 1))) = false := by
      by_cases h1 : n + 1 ≤ a.length
      · have : (a.take (n + 1)).all isDigit = false := by
          cases hh : (a.take (n + 1)).all isDigit with
          | false => rfl
          | true => exact absurd ⟨h1, hh⟩ hd
        simp [this]
      · simp [h1]
    rw [hres]
    by_cases hb : (wordAt b != wordAt a) = true
    · simp only [Re.run, hb, if_true, andThen_singleton]
      exact h2 ⟨b, a, none⟩ rfl
    · simp [Re.run, hb, andThen]

theorem matchesAt_digitsRe (n : Nat) (line : Str) (k : Nat) :
    matchesAt (digitsRe (n + 1)) line k = wordBoundedDigitsAt (n + 1) line k := by
  unfold matchesAt wordBoundedDigitsAt
  rw [run_digitsRe]
  have hlen : decide (n + 1 ≤ (line.drop k).length) = decide (k + (n + 1) ≤ line.length) := by
    simp only [List.length_drop, decide_eq_decide]
    omega
  have hdrop : List.drop (n + 1) (List.drop k line) = List.drop (k + (n + 1)) line := by
    rw [List.drop_drop]
  rw [hlen, hdrop]
  cases h : (decide (k + (n + 1) ≤ line.length) && ((line.drop k).take (n + 1)).all isDigit &&
          !wordAt (line.take k).reverse && !wordAt (line.drop (k + (n + 1))))
  · simp
  · simp

/-- `FindStringIndex` with `\b\d{n}\b` returns the leftmost run of `n` digits that is
bounded by non-word characters or line edges. -/
theorem findStringIndex_digitsRe_iff (n : Nat) (line : Str) (a b : Nat) :
    findStringIndex (digitsRe (n + 1)) line = some (a, b) ↔
      wordBoundedDigitsAt (n + 1) line a = true ∧ b = a + (n + 1) ∧
      ∀ k, k < a → wordBoundedDigitsAt (n + 1) line k = false := by
  rw [findStringIndex_eq_some_iff]
  have key : ∀ k, (digitsRe (n + 1)).run ⟨(line.take k).reverse, line.drop k, none⟩ = [] ↔
      wordBoundedDigitsAt (n + 1) line k = false := by
    intro k
    rw [← matchesAt_digitsRe]
    simp [matchesAt]
  constructor
  · rintro ⟨ha, ⟨s, ss, hr, hb⟩, hmin⟩
    have hw : wordBoundedDigitsAt (n + 1) line a = true := by
      cases hh : wordBoundedDigitsAt (n + 1) line a with
      | true => rfl
      | false => rw [(key a).mpr hh] at hr; exact absurd hr (by simp)
    refine ⟨hw, ?_, fun k hk => (key k).mp (hmin k hk)⟩
    rw [run_digitsRe] at hr
    split at hr
    · simp only [List.cons.injEq] at hr
      rw [hb, ← hr.1]
      simp only [wordBoundedDigitsAt, Bool.and_eq_true, decide_eq_true_eq] at hw
      have := hw.1.1.1
      simp
      omega
    · exact absurd hr (by simp)
  · rintro ⟨hw, hb, hmin⟩
    have hle : a + (n + 1) ≤ line.length := by
      simp only [wordBoundedDigitsAt, Bool.and_eq_true, decide_eq_true_eq] at hw
      exact hw.1.1.1
    refine ⟨by omega, ?_, fun k hk => (key k).mpr (hmin k hk)⟩
    have hm : matchesAt (digitsRe (n + 1)) line a = true := by rw [matchesAt_digitsRe]; exact hw
    rw [matchesAt, run_digitsRe] at hm
    rw [run_digitsRe]
    split
    · refine ⟨_, _, rfl, ?_⟩
      simp
      omega
    · rename_i hc
      rw [if_neg hc] at hm
      simp at hm

/-! ## Claims about the rules -/

/-- C3. EmailCredentialRule (the per-line step of `extractEmailsAndPasswords`): an entry
is produced if and only if `emailRe` matches somewhere in the line and the text after the
leftmost match holds a separator (`:`, `,` or a `\s` character) immediately followed by a
non-separator; the entry is then `email ++ ":" ++ password`, where `email` is the
leftmost match and `password` is the longest run of non-separators that follows the first
such separator.  The reported match starts at the least offset where the pattern
matches, and a line yields at most one entry. -/
theorem emailRule_spec (line : Str) :
    ((emailEntry line).isSome = true ↔
      ∃ a b, findStringIndex emailRe line = some (a, b) ∧
        ∃ i, sepTokenAt (line.drop b) i = true) ∧
    (∀ a b i, findStringIndex emailRe line = some (a, b) →
      sepTokenAt (line.drop b) i = true →
      (∀ j, j < i → sepTokenAt (line.drop b) j = false) →
      emailEntry line = some (slice line a b ++ ':' ::
        ((line.drop b).drop (i + 1)).takeWhile (fun c => !isSep c))) ∧
    (∀ a b, findStringIndex emailRe line = some (a, b) →
      a ≤ line.length ∧ matchesAt emailRe line a = true ∧
        ∀ k, k < a → matchesAt emailRe line k = false) ∧
    ((findStringIndex emailRe line).isSome = true ↔
      ∃ k, k ≤ line.length ∧ matchesAt emailRe line k = true) ∧
    (∀ e₁ e₂, emailEntry line = some e₁ → emailEntry line = some e₂ → e₁ = e₂) := by
  refine ⟨credentialEntry_isSome_iff emailRe line,
    fun a b i h hi hmin => credentialEntry_some emailRe line a b i h hi hmin,
    fun a b h => findStringIndex_leftmost h, ⟨fun h => ?_, fun ⟨k, hk, hm⟩ =>
      findStringIndex_isSome hk hm⟩, fun e₁ e₂ h₁ h₂ => ?_⟩
  · cases hf : findStringIndex emailRe line with
    | none => simp [hf] at h
    | some ab =>
      obtain ⟨a, b⟩ := ab
      obtain ⟨h1, h2, _⟩ := findStringIndex_leftmost hf
      exact ⟨a, h1, h2⟩
  · rw [h₁] at h₂
    exact Option.some.inj h₂

/-- C3, the literal case of the spec: the line
`https://www.netflix.com/login:user@a.com:pass123` gives the email `user@a.com` and the
password `pass123`. -/
theorem emailRule_spec_witness :
    findStringIndex emailRe "https://www.netflix.com/login:user@a.com:pass123".toList
      = some (30, 40) ∧
    slice "https://www.netflix.com/login:user@a.com:pass123".toList 30 40
      = "user@a.com".toList ∧
    sepTokenAt ("https://www.netflix.com/login:user@a.com:pass123".toList.drop 40) 0 = true ∧
    emailEntry "https://www.netflix.com/login:user@a.com:pass123".toList
      = some "user@a.com:pass123".toList :=
  ⟨by decide, by decide, by decide,
    ((emailRule_spec "https://www.netflix.com/login:user@a.com:pass123".toList).2.1 30 40 0
      (by decide) (by decide) (fun j hj => absurd hj (Nat.not_lt_zero j))).trans (by decide)⟩

/-- The entry of a digit-run rule, for the leftmost run bounded by non-word characters. -/
theorem digitsEntry_spec (n : Nat) (line : Str) (k : Nat)
    (hk : wordBoundedDigitsAt (n + 1) line k = true)
    (hmin : ∀ j, j < k → wordBoundedDigitsAt (n + 1) line j = false) :
    findStringIndex (digitsRe (n + 1)) line = some (k, k + (n + 1)) ∧
    (∀ i, sepTokenAt (line.drop (k + (n + 1))) i = true →
      (∀ j, j < i → sepTokenAt (line.drop (k + (n + 1))) j = false) →
      credentialEntry (digitsRe (n + 1)) line = some (slice line k (k + (n + 1)) ++ ':' ::
        ((line.drop (k + (n + 1))).drop (i + 1)).takeWhile (fun c => !isSep c))) ∧
    ((∃ i, sepTokenAt (line.drop (k + (n + 1))) i = true) →
      (credentialEntry (digitsRe (n + 1)) line).isSome = true) := by
  have hf : findStringIndex (digitsRe (n + 1)) line = some (k, k + (n + 1)) :=
    (findStringIndex_digitsRe_iff n line k (k + (n + 1))).mpr ⟨hk, rfl, hmin⟩
  refine ⟨hf, fun i hi hm => credentialEntry_some _ line k _ i hf hi hm, fun hex => ?_⟩
  exact (credentialEntry_isSome_iff _ line).mpr ⟨k, _, hf, hex⟩

/-- C4, as the claim states it, fails: in the line `a11122233344:senha123` the digits
`11122233344` are a run of exactly 11 digits bounded by a non-digit on each side and
they are followed by a separator and a token, yet `extractCPFAndPasswords` produces no
entry, because `\b` needs a non-word character (or a line edge) next to the run. -/
theorem cpfRule_claim_counterexample :
    standaloneDigitsAt 11 "a11122233344:senha123".toList 1 = true ∧
    (∀ j, j < 1 → standaloneDigitsAt 11 "a11122233344:senha123".toList j = false) ∧
    sepTokenAt ("a11122233344:senha123".toList.drop (1 + 11)) 0 = true ∧
    findStringIndex cpfRe "a11122233344:senha123".toList = none ∧
    cpfEntry "a11122233344:senha123".toList = none := by
  refine ⟨by decide, by decide, by decide, by decide, by decide⟩

/-- C4, amended. CPFCredentialRule finds every 11-digit run that stands between non-word
characters: for every line that holds a run of exactly 11 decimal digits with no letter,
digit or underscore right before it and none right after it, the per-line step of
`extractCPFAndPasswords` takes the leftmost such run as key, and produces the entry
`cpf ++ ":" ++ password` whenever the text after that run holds a separator followed by a
token; the same holds for `extractCNPJAndPasswords` with 14 digits. -/
theorem cpfRule_amended :
    (∀ (line : Str) (k : Nat), wordBoundedDigitsAt 11 line k = true →
      (∀ j, j < k → wordBoundedDigitsAt 11 line j = false) →
      findStringIndex cpfRe line = some (k, k + 11) ∧
      (∀ i, sepTokenAt (line.drop (k + 11)) i = true →
        (∀ j, j < i → sepTokenAt (line.drop (k + 11)) j = false) →
        cpfEntry line = some (slice line k (k + 11) ++ ':' ::
          ((line.drop (k + 11)).drop (i + 1)).takeWhile (fun c => !isSep c))) ∧
      ((∃ i, sepTokenAt (line.drop (k + 11)) i = true) → (cpfEntry line).isSome = true)) ∧
    (∀ (line : Str) (k : Nat), wordBoundedDigitsAt 14 line k = true →
      (∀ j, j < k → wordBoundedDigitsAt 14 line j = false) →
      findStringIndex cnpjRe line = some (k, k + 14) ∧
      (∀ i, sepTokenAt (line.drop (k + 14)) i = true →
        (∀ j, j < i → sepTokenAt (line.drop (k + 14)) j = false) →
        cnpjEntry line = some (slice line k (k + 14) ++ ':' ::
          ((line.drop (k + 14)).drop (i + 1)).takeWhile (fun c => !isSep c))) ∧
      ((∃ i, sepTokenAt (line.drop (k + 14)) i = true) → (cnpjEntry line).isSome = true)) :=
  ⟨fun line k hk hmin => digitsEntry_spec 10 line k hk hmin,
   fun line k hk hmin => digitsEntry_spec 13 line k hk hmin⟩

/-- C4, the literal case of the spec: the line `11122233344:senha123` gives the output
line `11122233344:senha123`. -/
theorem cpfRule_amended_witness :
    wordBoundedDigitsAt 11 "11122233344:senha123".toList 0 = true ∧
    sepTokenAt ("11122233344:senha123".toList.drop (0 + 11)) 0 = true ∧
    cpfEntry "11122233344:senha123".toList = some "11122233344:senha123".toList :=
  ⟨by decide, by decide,
    ((cpfRule_amended.1 "11122233344:senha123".toList 0 (by decide)
      (fun j hj => absurd hj (Nat.not_lt_zero j))).2.1 0 (by decide)
      (fun j hj => absurd hj (Nat.not_lt_zero j))).trans (by decide)⟩

theorem digitsRe_alphabet (n : Nat) (c : Char) :
    (digitsRe n).alphabet c = true → isDigit c = true := by
  have hrep : ∀ m, (Re.rep (Re.cls isDigit) m).alphabet c = true → isDigit c = true := by
    intro m
    induction m with
    | zero => simp [Re.rep, Re.alphabet]
    | succ m ih =>
      intro h
      simp only [Re.rep, Re.alphabet, Bool.or_eq_true] at h
      rcases h with h | h
      · exact h
      · exact ih h
  intro h
  simp only [digitsRe, Re.alphabet, Bool.false_or, Bool.or_false] at h
  exact hrep n h

/-- The key found by `\b\d{n}\b` is a run of exactly `n` digits with no digit right
before it and none right after it. -/
theorem digitsKey_standalone {n : Nat} {line : Str} {a b : Nat}
    (h : findStringIndex (digitsRe (n + 1)) line = some (a, b)) :
    b = a + (n + 1) ∧ standaloneDigitsAt (n + 1) line a = true ∧
      (slice line a b).length = n + 1 ∧ ∀ c ∈ slice line a b, isDigit c = true := by
  obtain ⟨hw, hb, _⟩ := (findStringIndex_digitsRe_iff n line a b).mp h
  refine ⟨hb, standalone_of_wordBounded hw, ?_, ?_⟩
  · have := (findStringIndex_slice h).2.2.2
    omega
  · intro c hc
    have hal := (findStringIndex_slice h).2.2.1 c hc
    exact digitsRe_alphabet _ c hal

theorem digitsEntry_none {n : Nat} {line : Str}
    (h : ∀ k, standaloneDigitsAt (n + 1) line k = false) :
    credentialEntry (digitsRe (n + 1)) line = none := by
  cases hf : findStringIndex (digitsRe (n + 1)) line with
  | none => simp [credentialEntry, credentialPair, hf]
  | some ab =>
    obtain ⟨a, b⟩ := ab
    have := (digitsKey_standalone hf).2.1
    rw [h a] at this
    exact absurd this (by decide)

theorem digitsPair_key {n : Nat} {line : Str} {k p : Str}
    (h : credentialPair (digitsRe (n + 1)) line = some (k, p)) :
    ∃ a, k = slice line a (a + (n + 1)) ∧ standaloneDigitsAt (n + 1) line a = true ∧
      k.length = n + 1 ∧ ∀ c ∈ k, isDigit c = true := by
  obtain ⟨a, b, i, hf, _, _, hk, _⟩ := credentialPair_inv h
  obtain ⟨hb, hs, hl, hd⟩ := digitsKey_standalone hf
  subst hb
  exact ⟨a, hk, hs, by rw [hk]; exact hl, by rw [hk]; exact hd⟩

/-- C5. The CPF and CNPJ rules never cut a key out of a longer digit run: every key
produced by the per-line step of `extractCPFAndPasswords` is a run of exactly 11 digits
with no digit immediately before or after it in the line, so a line without a maximal
digit run of length 11 produces no entry; the same holds for `extractCNPJAndPasswords`
with 14 in place of 11. -/
theorem cpfKey_never_cut :
    ((∀ (line : Str) (a b : Nat), findStringIndex cpfRe line = some (a, b) →
        b = a + 11 ∧ standaloneDigitsAt 11 line a = true ∧
        (slice line a b).length = 11 ∧ ∀ c ∈ slice line a b, isDigit c = true) ∧
      (∀ (line k p : Str), credentialPair cpfRe line = some (k, p) →
        ∃ a, k = slice line a (a + 11) ∧ standaloneDigitsAt 11 line a = true ∧
          k.length = 11 ∧ ∀ c ∈ k, isDigit c = true) ∧
      (∀ line : Str, (∀ k, standaloneDigitsAt 11 line k = false) → cpfEntry line = none)) ∧
    ((∀ (line : Str) (a b : Nat), findStringIndex cnpjRe line = some (a, b) →
        b = a + 14 ∧ standaloneDigitsAt 14 line a = true ∧
        (slice line a b).length = 14 ∧ ∀ c ∈ slice line a b, isDigit c = true) ∧
      (∀ (line k p : Str), credentialPair cnpjRe line = some (k, p) →
        ∃ a, k = slice line a (a + 14) ∧ standaloneDigitsAt 14 line a = true ∧
          k.length = 14 ∧ ∀ c ∈ k, isDigit c = true) ∧
      (∀ line : Str, (∀ k, standaloneDigitsAt 14 line k = false) → cnpjEntry line = none)) :=
  ⟨⟨fun _ _ _ h => digitsKey_standalone (n := 10) h,
    fun _ _ _ h => digitsPair_key (n := 10) h,
    fun _ h => digitsEntry_none (n := 10) h⟩,
   ⟨fun _ _ _ h => digitsKey_standalone (n := 13) h,
    fun _ _ _ h => digitsPair_key (n := 13) h,
    fun _ h => digitsEntry_none (n := 13) h⟩⟩

/-- C5, the literal case of the spec: a line holding the 12-digit run `111222333445` has
no standalone run of 11 digits and produces no entry. -/
theorem cpfKey_never_cut_witness :
    (∀ k, standaloneDigitsAt 11 "111222333445:senha123".toList k = false) ∧
    cpfEntry "111222333445:senha123".toList = none := by
  have hall : ∀ k, standaloneDigitsAt 11 "111222333445:senha123".toList k = false := by
    intro k
    by_cases hk : k < 11
    · have hdec : ∀ j, j < 11 →
          standaloneDigitsAt 11 "111222333445:senha123".toList j = false := by decide
      exact hdec k hk
    · have hlen : decide (k + 11 ≤ "111222333445:senha123".toList.length) = false := by
        have : "111222333445:senha123".toList.length = 21 := by decide
        rw [this, decide_eq_false_iff_not]
        omega
      unfold standaloneDigitsAt
      rw [hlen]
      rfl
  exact ⟨hall, cpfKey_never_cut.1.2.2 _ hall⟩

/-! ## The domain filter -/

theorem containsStr_iff (s sub : Str) : containsStr s sub = true ↔ sub <:+: s := by
  simp only [containsStr, List.any_eq_true, List.mem_tails, List.isPrefixOf_iff_prefix]
  rw [List.infix_iff_prefix_suffix]
  constructor
  · rintro ⟨t, h1, h2⟩; exact ⟨t, h2, h1⟩
  · rintro ⟨t, h1, h2⟩; exact ⟨t, h2, h1⟩

theorem domainSelects_iff (tbl : Char → Char) (input line : Str) :
    domainSelects tbl input line = true ↔
      ∃ d, domainOfLine tbl line = some d ∧ input <:+: d := by
  unfold domainSelects domainOfLine
  by_cases h : 1 < (findStringSubmatch domainRe line).length
  · simp [h, containsStr_iff]
  · simp [h]

/-- C9. Case-insensitive domain filter: `filterByDomain` with input `s` selects a scanned
text if and only if its trimmed form is non-empty, DomainRule yields a domain for it and
the lowercased domain contains the lowercased `s` as a substring; what is written is the
trimmed line itself, not the domain.  Two inputs with the same lowercase form select the
same lines, and with `s = netflix` the lines `NETFLIX.com` and `www.netflix.com` are both
selected. -/
theorem filterByDomain_spec (tbl : Char → Char) (s : Str) :
    (∀ line out : Str, (Op.filterByDomain s).key tbl line = some out ↔
      (out = line ∧ ∃ d, domainOfLine tbl line = some d ∧ toLower tbl s <:+: d)) ∧
    (∀ raw out : Str, (Op.filterByDomain s).scanKey tbl raw = some out ↔
      (out = trimSpace raw ∧ trimSpace raw ≠ [] ∧
        ∃ d, domainOfLine tbl (trimSpace raw) = some d ∧ toLower tbl s <:+: d)) ∧
    (∀ s' : Str, toLower tbl s' = toLower tbl s →
      ∀ raw, (Op.filterByDomain s').scanKey tbl raw = (Op.filterByDomain s).scanKey tbl raw) ∧
    (Op.filterByDomain "netflix".toList).scanKey tbl "NETFLIX.com".toList
      = some "NETFLIX.com".toList ∧
    (Op.filterByDomain "netflix".toList).scanKey tbl "www.netflix.com".toList
      = some "www.netflix.com".toList ∧
    (Op.filterByDomain "NetFlix".toList).scanKey tbl "www.netflix.com".toList
      = some "www.netflix.com".toList := by
  have hkey : ∀ line out : Str, (Op.filterByDomain s).key tbl line = some out ↔
      (out = line ∧ ∃ d, domainOfLine tbl line = some d ∧ toLower tbl s <:+: d) := by
    intro line out
    show (if domainSelects tbl (toLower tbl s) line = true then some line else none) = some out ↔ _
    by_cases h : domainSelects tbl (toLower tbl s) line = true
    · have h' := (domainSelects_iff tbl _ line).mp h
      rw [if_pos h]
      constructor
      · intro e
        exact ⟨(Option.some.inj e).symm, h'⟩
      · intro e
        rw [e.1]
    · have h' : ¬ ∃ d, domainOfLine tbl line = some d ∧ toLower tbl s <:+: d :=
        fun hd => h ((domainSelects_iff tbl _ line).mpr hd)
      rw [if_neg h]
      constructor
      · intro e
        cases e
      · intro e
        exact absurd e.2 h'
  refine ⟨hkey, ?_, ?_, rfl, rfl, rfl⟩
  · intro raw out
    unfold Op.scanKey
    by_cases he : trimSpace raw = []
    · simp [he]
    · simp only [he, if_false, hkey]
      constructor
      · intro h
        exact ⟨h.1, he, h.2⟩
      · intro h
        exact ⟨h.1, h.2.2⟩
  · intro s' hs raw
    simp only [Op.scanKey, Op.key, hs]

theorem Sink.ok_empty : Sink.empty.Ok := by
  simp [Sink.Ok, Sink.empty]

theorem Sink.ok_checkAndInsert {st : Sink} (h : st.Ok) (key : Str) :
    (st.checkAndInsert key).Ok ∧
      ∀ k, k ∈ (st.checkAndInsert key).output ↔ k ∈ st.output ∨ k = key := by
  obtain ⟨h1, h2, h3⟩ := h
  unfold Sink.checkAndInsert
  by_cases hk : key ∈ st.seen
  · rw [if_pos hk]
    refine ⟨⟨h1, h2, h3⟩, fun k => ⟨Or.inl, fun h => ?_⟩⟩
    rcases h with h | h
    · exact h
    · rw [h]; exact (h2 key).mp hk
  · rw [if_neg hk]
    have hk' : key ∉ st.output := fun h => hk ((h2 key).mpr h)
    refine ⟨⟨?_, ?_, ?_⟩, ?_⟩
    · exact List.nodup_append.mpr ⟨h1, List.nodup_singleton key, by
        intro x hx hx'
        rw [List.mem_singleton] at hx'
        subst hx'
        exact hk' hx⟩
    · intro k
      simp only [List.mem_cons, List.mem_append, List.mem_singleton, h2 k, List.not_mem_nil,
        or_false]
      exact or_comm
    · simp [h3]
    · intro k
      simp

theorem Sink.ok_foldl (keys : List Str) :
    ∀ st : Sink, st.Ok →
    (keys.foldl Sink.checkAndInsert st).Ok ∧
      ∀ k, k ∈ (keys.foldl Sink.checkAndInsert st).output ↔ k ∈ st.output ∨ k ∈ keys := by
  induction keys with
  | nil => intro st h; simp [h]
  | cons key keys ih =>
    intro st h
    obtain ⟨h1, h2⟩ := Sink.ok_checkAndInsert h key
    obtain ⟨h3, h4⟩ := ih _ h1
    refine ⟨h3, fun k => ?_⟩
    rw [List.foldl_cons, h4, h2, List.mem_cons, or_assoc]

/-- What a run leaves behind, whatever the order of the keys. -/
theorem runOrder_spec (order : List Str) :
    (runOrder order).output.Nodup ∧ (∀ k, k ∈ (runOrder order).output ↔ k ∈ order) ∧
    (runOrder order).matchCount = (runOrder order).output.length ∧
    (runOrder order).output.toFinset = order.toFinset ∧
    (runOrder order).matchCount = order.toFinset.card := by
  obtain ⟨⟨h1, h2, h3⟩, h4⟩ := Sink.ok_foldl order Sink.empty Sink.ok_empty
  change (runOrder order).output.Nodup at h1
  change (runOrder order).matchCount = (runOrder order).output.length at h3
  have hmem : ∀ k, k ∈ (runOrder order).output ↔ k ∈ order := by
    intro k
    have := h4 k
    simpa [Sink.empty] using this
  have hset : (runOrder order).output.toFinset = order.toFinset := by
    ext k
    simp [hmem]
  refine ⟨h1, hmem, h3, hset, ?_⟩
  rw [← hset, List.toFinset_card_of_nodup h1]
  exact h3

theorem emailRe_alphabet (c : Char) (h : emailRe.alphabet c = true) : c ≠ ':' := by
  rintro rfl
  revert h
  decide

theorem digitsRe_alphabet_ne_colon (n : Nat) (c : Char)
    (h : (digitsRe n).alphabet c = true) : c ≠ ':' := by
  rintro rfl
  have := digitsRe_alphabet n ':' h
  revert this
  decide

theorem splitAtColon_entryOf (k p : Str) (hk : ':' ∉ k) : splitAtColon (entryOf (k, p)) = (k, p) := by
  have hall : ∀ c ∈ k, (c != ':') = true := by
    intro c hc
    have : c ≠ ':' := by rintro rfl; exact hk hc
    simp [this]
  have h1 : (k ++ ':' :: p).takeWhile (fun c => c != ':') = k := by
    rw [List.takeWhile_append_of_pos hall]
    simp [List.takeWhile_cons]
  have h2 : (k ++ ':' :: p).dropWhile (fun c => c != ':') = ':' :: p := by
    rw [List.dropWhile_append_of_pos hall]
    simp [List.dropWhile_cons]
  simp [splitAtColon, entryOf, h1, h2]

/-- The pairs produced by a credential rule whose key pattern cannot consume `:`. -/
theorem credentialPair_props {re : Re} (hre : ∀ c, re.alphabet c = true → c ≠ ':')
    {line k p : Str} (h : credentialPair re line = some (k, p)) :
    ':' ∉ k ∧ ':' ∉ p ∧ p ≠ [] ∧ (∀ c ∈ p, c ≠ ',' ∧ isReSpace c = false) := by
  obtain ⟨a, b, i, hf, hi, _, hk, hp⟩ := credentialPair_inv h
  have hsep : ∀ c ∈ p, isSep c = false := by
    intro c hc
    rw [hp] at hc
    simpa using List.mem_takeWhile_imp hc
  refine ⟨?_, ?_, ?_, ?_⟩
  · intro hc
    rw [hk] at hc
    exact hre ':' ((findStringIndex_slice hf).2.2.1 ':' hc) rfl
  · intro hc
    have := hsep ':' hc
    revert this
    decide
  · unfold sepTokenAt at hi
    rw [hp, ← List.drop_drop]
    rcases hd : List.drop i (List.drop b line) with _ | ⟨c, _ | ⟨d, t⟩⟩
    · simp [hd] at hi
    · simp [hd] at hi
    · have hdd : isSep d = false := by
        have hcd : isSep c = true ∧ isSep d = false := by simpa [hd] using hi
        exact hcd.2
      simp [List.takeWhile_cons, hdd]
  · intro c hc
    have := hsep c hc
    simp only [isSep, Bool.or_eq_false_iff, beq_eq_false_iff_ne] at this
    exact ⟨this.1.2, this.2⟩

theorem entryDeterminesPair_of {re : Re} (hre : ∀ c, re.alphabet c = true → c ≠ ':') :
    EntryDeterminesPair re := by
  have hinj : ∀ (line₁ line₂ : Str) (kp₁ kp₂ : Str × Str), credentialPair re line₁ = some kp₁ →
      credentialPair re line₂ = some kp₂ → (entryOf kp₁ = entryOf kp₂ ↔ kp₁ = kp₂) := by
    intro line₁ line₂ kp₁ kp₂ h₁ h₂
    obtain ⟨k₁, p₁⟩ := kp₁
    obtain ⟨k₂, p₂⟩ := kp₂
    constructor
    · intro he
      have e₁ := splitAtColon_entryOf k₁ p₁ (credentialPair_props hre h₁).1
      have e₂ := splitAtColon_entryOf k₂ p₂ (credentialPair_props hre h₂).1
      rw [he, e₂] at e₁
      exact e₁.symm
    · intro he
      rw [he]
  refine ⟨fun line k p h => ?_, hinj, fun lines => ?_⟩
  · obtain ⟨h1, h2, h3, h4⟩ := credentialPair_props hre h
    refine ⟨h1, h2, h3, h4, ?_, splitAtColon_entryOf k p h1⟩
    simp [entryOf, List.count_append, List.count_cons, List.count_eq_zero_of_not_mem h1,
      List.count_eq_zero_of_not_mem h2]
  · rw [(runOrder_spec _).2.2.2.2]
    have hmap : lines.filterMap (credentialEntry re) =
        (lines.filterMap (credentialPair re)).map entryOf := by
      rw [List.map_filterMap]
      rfl
    have himg : ((lines.filterMap (credentialPair re)).map entryOf).toFinset =
        (lines.filterMap (credentialPair re)).toFinset.image entryOf := by
      ext x
      simp
    rw [hmap, himg]
    apply Finset.card_image_of_injOn
    intro x hx y hy hxy
    simp only [List.coe_toFinset, Set.mem_setOf_eq, List.mem_filterMap] at hx hy
    obtain ⟨l₁, _, h₁⟩ := hx
    obtain ⟨l₂, _, h₂⟩ := hy
    exact (hinj l₁ l₂ x y h₁ h₂).mp hxy

/-- C10. The output entry determines the credential pair, for each of the three
credential extractors: an entry `key ++ ":" ++ password` that is written holds exactly one
`:` (no extracted email, CPF, CNPJ or password holds a `:`, and the password is non-empty
and free of `,` and of the pattern's white space), splitting it at the `:` gives back the
pair, two matching lines produce the same entry if and only if they yield the same key
and the same password, and deduplicating by the entry counts the distinct pairs. -/
theorem entry_determines_pair :
    EntryDeterminesPair emailRe ∧ EntryDeterminesPair cpfRe ∧ EntryDeterminesPair cnpjRe :=
  ⟨entryDeterminesPair_of emailRe_alphabet,
   entryDeterminesPair_of (digitsRe_alphabet_ne_colon 11),
   entryDeterminesPair_of (digitsRe_alphabet_ne_colon 14)⟩

/-- C10 on the line of the spec: the entry `user@a.com:pass123` splits into the email and
the password it was built from. -/
theorem entry_determines_pair_witness :
    credentialPair emailRe "https://www.netflix.com/login:user@a.com:pass123".toList
      = some ("user@a.com".toList, "pass123".toList) ∧
    (entryOf ("user@a.com".toList, "pass123".toList)).count ':' = 1 ∧
    splitAtColon (entryOf ("user@a.com".toList, "pass123".toList))
      = ("user@a.com".toList, "pass123".toList) :=
  ⟨by decide,
   (entry_determines_pair.1.1 "https://www.netflix.com/login:user@a.com:pass123".toList
      "user@a.com".toList "pass123".toList (by decide)).2.2.2.2.1,
   (entry_determines_pair.1.1 "https://www.netflix.com/login:user@a.com:pass123".toList
      "user@a.com".toList "pass123".toList (by decide)).2.2.2.2.2⟩

/-! ## Lists of workers -/

theorem getElem?_split {α : Type} {l : List α} {i : Nat} {w : α} (h : l[i]? = some w) :
    ∃ l₁ l₂, l = l₁ ++ w :: l₂ ∧ l₁.length = i ∧ ∀ w', l.set i w' = l₁ ++ w' :: l₂ := by
  induction l generalizing i with
  | nil => simp at h
  | cons x t ih =>
    cases i with
    | zero =>
      simp only [List.getElem?_cons_zero, Option.some.injEq] at h
      subst h
      exact ⟨[], t, rfl, rfl, fun w' => rfl⟩
    | succ i =>
      simp only [List.getElem?_cons_succ] at h
      obtain ⟨l₁, l₂, h1, h2, h3⟩ := ih h
      exact ⟨x :: l₁, l₂, by rw [h1]; rfl, by simp [h2], fun w' => by simp [h3 w']⟩

theorem getElem?_mid {α : Type} (pre post : List α) (w : α) :
    (pre ++ w :: post)[pre.length]? = some w := by
  rw [List.getElem?_append_right (le_refl _)]
  simp

theorem set_mid {α : Type} (pre post : List α) (w w' : α) :
    (pre ++ w :: post).set pre.length w' = pre ++ w' :: post := by
  simp

/-- Every step of the executable model is one of the steps of the relation. -/
theorem poolStep_sound {tbl : Char → Char} {op : Op} {s s' : PoolState} {a : PoolAction}
    (h : poolStep tbl op s a = some s') : PoolStepRel tbl op s s' := by
  obtain ⟨fd, fc, ws, sink, ret⟩ := s
  cases a with
  | handOver i =>
    simp only [poolStep] at h
    split at h
    · have hw : ws[i]? = some PoolWorker.idle := by assumption
      obtain ⟨l₁, l₂, h1, _, h3⟩ := getElem?_split hw
      simp only [Option.some.injEq] at h
      subst h
      subst h1
      rw [h3]
      exact PoolStepRel.handOver ..
    · exact absurd h (by simp)
  | closeFiles =>
    simp only [poolStep] at h
    split at h
    · rename_i hc
      obtain ⟨hc1, hc2⟩ := hc
      subst hc1 hc2
      simp only [Option.some.injEq] at h
      subst h
      exact PoolStepRel.closeFiles ..
    · exact absurd h (by simp)
  | work i =>
    simp only [poolStep] at h
    split at h
    · exact absurd h (by simp)
    · have hw : ws[i]? = some PoolWorker.idle := by assumption
      obtain ⟨l₁, l₂, h1, _, h3⟩ := getElem?_split hw
      split at h
      · rename_i hc
        subst hc
        simp only [Option.some.injEq] at h
        subst h
        subst h1
        rw [h3]
        exact PoolStepRel.exit ..
      · exact absurd h (by simp)
    · rename_i hw
      obtain ⟨l₁, l₂, h1, _, h3⟩ := getElem?_split hw
      simp only [Option.some.injEq] at h
      subst h
      subst h1
      rw [h3]
      exact PoolStepRel.scanEnd ..
    · rename_i raw rest hw
      obtain ⟨l₁, l₂, h1, _, h3⟩ := getElem?_split hw
      simp only [Option.some.injEq] at h
      subst h
      subst h1
      rw [h3]
      exact PoolStepRel.scanLine ..
    · exact absurd h (by simp)
  | finish =>
    simp only [poolStep] at h
    split at h
    · rename_i hc
      obtain ⟨hc1, hc2⟩ := hc
      subst hc1
      simp only [Option.some.injEq] at h
      subst h
      exact PoolStepRel.finish _ _ _ _ (by simpa using hc2)
    · exact absurd h (by simp)

theorem PoolWorker.pending_of_idle (tbl : Char → Char) (op : Op) :
    PoolWorker.idle.pending tbl op = [] := rfl

theorem PoolWorker.pending_of_done (tbl : Char → Char) (op : Op) :
    PoolWorker.done.pending tbl op = [] := rfl

theorem PoolWorker.pending_of_scanning (tbl : Char → Char) (op : Op) (rest : List Str) :
    (PoolWorker.scanning rest).pending tbl op = rest.filterMap (op.scanKey tbl) := rfl

theorem poolStart_pending (tbl : Char → Char) (op : Op) (f : File) :
    (poolStart f).pending tbl op = (fileTexts f).filterMap (op.scanKey tbl) := by
  cases f <;> rfl

theorem poolStart_ne_done (f : File) : poolStart f ≠ PoolWorker.done := by
  cases f <;> simp [poolStart]

theorem keysOf_cons (tbl : Char → Char) (op : Op) (f : File) (fs : List File) :
    op.keysOf tbl (f :: fs) = (fileTexts f).filterMap (op.scanKey tbl) ++ op.keysOf tbl fs := by
  simp [Op.keysOf]

theorem runOrder_concat (order : List Str) (key : Str) :
    runOrder (order ++ [key]) = (runOrder order).checkAndInsert key := by
  simp [runOrder, List.foldl_append]

theorem PoolStepRel.keeps_structural {tbl : Char → Char} {op : Op} {s s' : PoolState}
    (h : PoolStepRel tbl op s s') (hs : PoolStructural s) : PoolStructural s' := by
  have active : ∀ {fd fd' : List File} {fc : Bool} {l₁ l₂ : List PoolWorker}
      {w w' : PoolWorker} {sink sink' : Sink} {ret : Bool},
      PoolStructural ⟨fd, fc, l₁ ++ w :: l₂, sink, ret⟩ → w ≠ PoolWorker.done →
      (w' = PoolWorker.done → fc = true) → (fc = true → fd' = []) →
      PoolStructural ⟨fd', fc, l₁ ++ w' :: l₂, sink', ret⟩ := by
    intro fd fd' fc l₁ l₂ w w' sink sink' ret hst hw hw' hfd
    obtain ⟨_, _, h3, h4⟩ := hst
    simp only at h3 h4
    have hret : ret = false := by
      cases hr : ret with
      | false => rfl
      | true => exact absurd (h4 hr w (by simp)) hw
    subst hret
    refine ⟨by simp, hfd, ?_, by simp⟩
    intro x hx hxd
    simp only [List.mem_append, List.mem_cons] at hx
    rcases hx with hx | hx | hx
    · exact h3 x (by simp [hx]) hxd
    · exact hw' (hx ▸ hxd)
    · exact h3 x (by simp [hx]) hxd
  cases h with
  | handOver f fs fc l₁ l₂ sink ret =>
    have hfc : fc = true → fs = [] := by
      intro hfc
      have := hs.2.1 hfc
      simp at this
    exact active hs (by simp) (fun h => absurd h (poolStart_ne_done f)) hfc
  | closeFiles ws sink ret =>
    obtain ⟨h1, _, _, h4⟩ := hs
    exact ⟨h1, fun _ => rfl, fun _ _ _ => rfl, h4⟩
  | exit fd l₁ l₂ sink ret => exact active hs (by simp) (fun _ => rfl) hs.2.1
  | scanEnd fd fc l₁ l₂ sink ret => exact active hs (by simp) (fun h => by cases h) hs.2.1
  | scanLine raw rest fd fc l₁ l₂ sink ret =>
    exact active hs (by simp) (fun h => by cases h) hs.2.1
  | finish fd fc ws sink hdone =>
    obtain ⟨h1, h2, h3, _⟩ := hs
    exact ⟨h1, h2, h3, fun _ => hdone⟩

theorem PoolStepRel.preserves {tbl : Char → Char} {op : Op} {files : List File}
    {s s' : PoolState} (h : PoolStepRel tbl op s s') (hs : PoolInv tbl op files s) :
    PoolInv tbl op files s' := by
  obtain ⟨hst, order, hsink, hperm⟩ := hs
  refine ⟨h.keeps_structural hst, ?_⟩
  have hcount := fun k => List.perm_iff_count.mp hperm k
  cases h with
  | handOver f fs fc l₁ l₂ sink ret =>
    refine ⟨order, hsink, List.perm_iff_count.mpr (fun k => ?_)⟩
    have := hcount k
    simp only [PoolState.pending, List.flatMap_append, List.flatMap_cons, List.count_append,
      PoolWorker.pending_of_idle, poolStart_pending, keysOf_cons, List.count_nil] at this ⊢
    omega
  | closeFiles ws sink ret => exact ⟨order, hsink, hperm⟩
  | exit fd l₁ l₂ sink ret =>
    refine ⟨order, hsink, List.perm_iff_count.mpr (fun k => ?_)⟩
    have := hcount k
    simp only [PoolState.pending, List.flatMap_append, List.flatMap_cons, List.count_append,
      PoolWorker.pending_of_idle, PoolWorker.pending_of_done, List.count_nil] at this ⊢
    omega
  | scanEnd fd fc l₁ l₂ sink ret =>
    refine ⟨order, hsink, List.perm_iff_count.mpr (fun k => ?_)⟩
    have := hcount k
    simp only [PoolState.pending, List.flatMap_append, List.flatMap_cons, List.count_append,
      PoolWorker.pending_of_idle, PoolWorker.pending_of_scanning, List.filterMap_nil,
      List.count_nil] at this ⊢
    omega
  | scanLine raw rest fd fc l₁ l₂ sink ret =>
    simp only at hsink
    cases hkey : op.scanKey tbl raw with
    | none =>
      refine ⟨order, by simp only [poolScan, hkey]; exact hsink,
        List.perm_iff_count.mpr (fun k => ?_)⟩
      have := hcount k
      simp only [PoolState.pending, List.flatMap_append, List.flatMap_cons, List.count_append,
        PoolWorker.pending_of_scanning, List.filterMap_cons, hkey] at this ⊢
      omega
    | some key =>
      refine ⟨order ++ [key], by simp only [poolScan, hkey, runOrder_concat, hsink],
        List.perm_iff_count.mpr (fun k => ?_)⟩
      have := hcount k
      simp only [PoolState.pending, List.flatMap_append, List.flatMap_cons, List.count_append,
        PoolWorker.pending_of_scanning, List.filterMap_cons, hkey, List.count_cons,
        List.count_nil] at this ⊢
      omega
  | finish fd fc ws sink hdone => exact ⟨order, hsink, hperm⟩

theorem flatMap_poolPending_replicate_idle (tbl : Char → Char) (op : Op) (n : Nat) :
    (List.replicate n PoolWorker.idle).flatMap (PoolWorker.pending tbl op) = [] := by
  induction n with
  | zero => rfl
  | succ n ih => simp [List.replicate_succ, PoolWorker.pending_of_idle, ih]

theorem flatMap_poolPending_of_done (tbl : Char → Char) (op : Op) {ws : List PoolWorker}
    (h : ∀ w ∈ ws, w = PoolWorker.done) : ws.flatMap (PoolWorker.pending tbl op) = [] := by
  induction ws with
  | nil => rfl
  | cons w ws ih =>
    have hw : w = PoolWorker.done := h w (by simp)
    subst hw
    simp [PoolWorker.pending_of_done, ih (fun x hx => h x (by simp [hx]))]

theorem poolInv_init (tbl : Char → Char) (op : Op) (files : List File) {numCPU : Nat}
    (hcpu : 0 < numCPU) : PoolInv tbl op files (poolInit files numCPU) := by
  refine ⟨⟨?_, ?_, ?_, ?_⟩, [], rfl, ?_⟩
  · intro h
    have := congrArg List.length h
    simp [poolInit] at this
    omega
  · intro h; simp [poolInit] at h
  · intro w hw hd
    simp only [poolInit, List.mem_replicate] at hw
    rw [hw.2] at hd
    cases hd
  · intro h; simp [poolInit] at h
  · simp [PoolState.pending, poolInit, flatMap_poolPending_replicate_idle]

/-- The invariant holds in every reachable state of a writing operation. -/
theorem PoolReach.pool_invariant {tbl : Char → Char} {op : Op} {files : List File} {numCPU : Nat}
    (hcpu : 0 < numCPU) {s : PoolState} (h : PoolReach tbl op (poolInit files numCPU) s) :
    PoolInv tbl op files s := by
  induction h with
  | refl => exact poolInv_init tbl op files hcpu
  | next a _ hstep ih => exact (poolStep_sound hstep).preserves ih

/-- At every moment of a run the lines written so far are pairwise different, and as
many as `matches` counts. -/
theorem PoolReach.sink_ok {tbl : Char → Char} {op : Op} {files : List File} {numCPU : Nat}
    (hcpu : 0 < numCPU) {s : PoolState} (h : PoolReach tbl op (poolInit files numCPU) s) :
    s.sink.output.Nodup ∧ s.sink.matchCount = s.sink.output.length ∧
      ∀ k, k ∈ s.sink.output → k ∈ op.keysOf tbl files := by
  obtain ⟨_, order, hsink, hperm⟩ := h.pool_invariant hcpu
  obtain ⟨h1, h2, h3, _⟩ := runOrder_spec order
  rw [hsink]
  refine ⟨h1, h3, fun k hk => ?_⟩
  have hk' : k ∈ order := (h2 k).mp hk
  exact hperm.mem_iff.mp (List.mem_append_left _ hk')

/-- When a writing operation returns, its shared state is the critical section applied
to a permutation of the keys of all matching lines. -/
theorem PoolReach.returned_order {tbl : Char → Char} {op : Op} {files : List File}
    {numCPU : Nat} (hcpu : 0 < numCPU) {s : PoolState}
    (h : PoolReach tbl op (poolInit files numCPU) s) (hret : s.returned = true) :
    ∃ order : List Str, order.Perm (op.keysOf tbl files) ∧ s.sink = runOrder order := by
  obtain ⟨hst, order, hsink, hperm⟩ := h.pool_invariant hcpu
  obtain ⟨h1, h2, h3, h4⟩ := hst
  have hdone := h4 hret
  have hfd : s.feeder = [] := by
    cases hw : s.workers with
    | nil => exact absurd hw h1
    | cons w ws =>
      have hmem : w ∈ s.workers := by rw [hw]; simp
      exact h2 (h3 w hmem (hdone w hmem))
  refine ⟨order, ?_, hsink⟩
  simpa [PoolState.pending, flatMap_poolPending_of_done tbl op hdone, hfd, Op.keysOf] using hperm

/-! ## Schedules of a writing operation -/

theorem PoolReach.append {tbl : Char → Char} {op : Op} {s t u : PoolState}
    (h₁ : PoolReach tbl op s t) (h₂ : PoolReach tbl op t u) : PoolReach tbl op s u := by
  induction h₂ with
  | refl => exact h₁
  | next a _ hstep ih => exact PoolReach.next a ih hstep

theorem PoolReach.one {tbl : Char → Char} {op : Op} {s t : PoolState} (a : PoolAction)
    (h : poolStep tbl op s a = some t) : PoolReach tbl op s t :=
  PoolReach.next a PoolReach.refl h

/-- The first worker scans its texts to the end. -/
theorem poolReach_scan (tbl : Char → Char) (op : Op) (fd : List File) (fc : Bool)
    (ws : List PoolWorker) (ret : Bool) (texts : List Str) :
    ∀ sink : Sink, ∃ sink',
    PoolReach tbl op ⟨fd, fc, PoolWorker.scanning texts :: ws, sink, ret⟩
      ⟨fd, fc, PoolWorker.scanning [] :: ws, sink', ret⟩ := by
  induction texts with
  | nil => intro sink; exact ⟨sink, PoolReach.refl⟩
  | cons raw rest ih =>
    intro sink
    have h1 : poolStep tbl op ⟨fd, fc, PoolWorker.scanning (raw :: rest) :: ws, sink, ret⟩
        (PoolAction.work 0) =
        some ⟨fd, fc, PoolWorker.scanning rest :: ws, poolScan tbl op raw sink, ret⟩ := by
      simp [poolStep]
    obtain ⟨sink', hr⟩ := ih (poolScan tbl op raw sink)
    exact ⟨sink', (PoolReach.one _ h1).append hr⟩

/-- The first worker takes the files one after the other and works through each. -/
theorem poolReach_files (tbl : Char → Char) (op : Op) (ws : List PoolWorker) (ret : Bool)
    (fs : List File) :
    ∀ sink : Sink, ∃ sink',
    PoolReach tbl op ⟨fs, false, PoolWorker.idle :: ws, sink, ret⟩
      ⟨[], false, PoolWorker.idle :: ws, sink', ret⟩ := by
  induction fs with
  | nil => intro sink; exact ⟨sink, PoolReach.refl⟩
  | cons f fs ih =>
    intro sink
    have h1 : poolStep tbl op ⟨f :: fs, false, PoolWorker.idle :: ws, sink, ret⟩
        (PoolAction.handOver 0) =
        some ⟨fs, false, poolStart f :: ws, sink, ret⟩ := by
      simp [poolStep]
    cases f with
    | none =>
      obtain ⟨sink', hr⟩ := ih sink
      exact ⟨sink', (PoolReach.one _ h1).append hr⟩
    | some texts =>
      obtain ⟨sink₁, h2⟩ := poolReach_scan tbl op fs false ws ret texts sink
      have h3 : poolStep tbl op ⟨fs, false, PoolWorker.scanning [] :: ws, sink₁, ret⟩
          (PoolAction.work 0) =
          some ⟨fs, false, PoolWorker.idle :: ws, sink₁, ret⟩ := by
        simp [poolStep]
      obtain ⟨sink', hr⟩ := ih sink₁
      exact ⟨sink', (PoolReach.one _ h1).append (h2.append ((PoolReach.one _ h3).append hr))⟩

/-- Once `filesChan` is closed, the idle workers leave their loops. -/
theorem poolReach_exit (tbl : Char → Char) (op : Op) (fd : List File) (sink : Sink)
    (ret : Bool) (k : Nat) :
    ∀ pre : List PoolWorker,
    PoolReach tbl op ⟨fd, true, pre ++ List.replicate k PoolWorker.idle, sink, ret⟩
      ⟨fd, true, pre ++ List.replicate k PoolWorker.done, sink, ret⟩ := by
  induction k with
  | zero => intro pre; exact PoolReach.refl
  | succ k ih =>
    intro pre
    have h1 : poolStep tbl op
        ⟨fd, true, pre ++ PoolWorker.idle :: List.replicate k PoolWorker.idle, sink, ret⟩
        (PoolAction.work pre.length) =
        some ⟨fd, true, pre ++ PoolWorker.done :: List.replicate k PoolWorker.idle, sink, ret⟩ := by
      simp only [poolStep, getElem?_mid, set_mid]
      rfl
    have h2 := ih (pre ++ [PoolWorker.done])
    simp only [List.append_assoc, List.singleton_append] at h2
    rw [List.replicate_succ, List.replicate_succ]
    exact (PoolReach.one _ h1).append h2

/-- Every writing operation can return, on every file list. -/
theorem pool_can_return (tbl : Char → Char) (op : Op) (files : List File) (numCPU : Nat) :
    ∃ s, PoolReach tbl op (poolInit files (numCPU + 1)) s ∧ s.returned = true := by
  have hw : List.replicate ((numCPU + 1) * 2) PoolWorker.idle =
      PoolWorker.idle :: List.replicate (numCPU * 2 + 1) PoolWorker.idle := by
    rw [show (numCPU + 1) * 2 = (numCPU * 2 + 1) + 1 by omega, List.replicate_succ]
  obtain ⟨sink, h1⟩ := poolReach_files tbl op (List.replicate (numCPU * 2 + 1) PoolWorker.idle)
    false files Sink.empty
  have h2 : poolStep tbl op
      ⟨[], false, PoolWorker.idle :: List.replicate (numCPU * 2 + 1) PoolWorker.idle, sink, false⟩
      PoolAction.closeFiles =
      some ⟨[], true, PoolWorker.idle :: List.replicate (numCPU * 2 + 1) PoolWorker.idle, sink,
        false⟩ := by
    simp [poolStep]
  have h3 := poolReach_exit tbl op [] sink false (numCPU * 2 + 1 + 1) []
  simp only [List.nil_append] at h3
  rw [List.replicate_succ] at h3
  have h4 : poolStep tbl op
      ⟨[], true, List.replicate (numCPU * 2 + 1 + 1) PoolWorker.done, sink, false⟩
      PoolAction.finish =
      some ⟨[], true, List.replicate (numCPU * 2 + 1 + 1) PoolWorker.done, sink, true⟩ := by
    simp [poolStep]
  refine ⟨⟨[], true, List.replicate (numCPU * 2 + 1 + 1) PoolWorker.done, sink, true⟩, ?_, rfl⟩
  have h0 : poolInit files (numCPU + 1) = ⟨files, false,
      PoolWorker.idle :: List.replicate (numCPU * 2 + 1) PoolWorker.idle, Sink.empty, false⟩ := by
    simp only [poolInit, hw]
  rw [h0]
  exact h1.append ((PoolReach.one _ h2).append (h3.append (PoolReach.one _ h4)))

/-- What a writing operation returns: always the number of distinct keys of the matching
lines, after writing exactly these keys, whatever the schedule and the number of
workers. -/
theorem poolReturns_iff (tbl : Char → Char) (op : Op) (files : List File) (numCPU : Nat)
    (n : Nat) (out : Finset Str) :
    PoolReturns tbl op files (numCPU + 1) n out ↔
      (n = (op.keysOf tbl files).toFinset.card ∧ out = (op.keysOf tbl files).toFinset) := by
  have hval : ∀ s, PoolReach tbl op (poolInit files (numCPU + 1)) s → s.returned = true →
      s.sink.matchCount = (op.keysOf tbl files).toFinset.card ∧
      s.sink.output.toFinset = (op.keysOf tbl files).toFinset := by
    intro s hreach hret
    obtain ⟨order, hperm, hsink⟩ := hreach.returned_order (Nat.succ_pos numCPU) hret
    obtain ⟨_, _, _, h4, h5⟩ := runOrder_spec order
    have hfin : order.toFinset = (op.keysOf tbl files).toFinset := by
      ext k
      simp [hperm.mem_iff]
    rw [hsink, h5, h4, hfin]
    exact ⟨rfl, rfl⟩
  constructor
  · rintro ⟨s, hreach, hret, hn, hout⟩
    obtain ⟨h1, h2⟩ := hval s hreach hret
    exact ⟨hn.trans h1, hout.trans h2⟩
  · rintro ⟨hn, hout⟩
    obtain ⟨s, hreach, hret⟩ := pool_can_return tbl op files numCPU
    obtain ⟨h1, h2⟩ := hval s hreach hret
    exact ⟨s, hreach, hret, hn.trans h1.symm, hout.trans h2.symm⟩

/-- A writing operation cannot get stuck: in every reachable state in which the call has
not returned, some goroutine can take a step. -/
theorem pool_progress (tbl : Char → Char) (op : Op) (s : PoolState)
    (hnr : s.returned = false) : ∃ a, (poolStep tbl op s a).isSome = true := by
  by_cases hall : ∀ w ∈ s.workers, w = PoolWorker.done
  · have hallb : s.workers.all (fun w => w == PoolWorker.done) = true := by
      simpa using hall
    exact ⟨PoolAction.finish, by simp [poolStep, hnr, hallb]⟩
  · have hex : ∃ w ∈ s.workers, w ≠ PoolWorker.done := by
      by_contra hno
      exact hall (fun w hw => by
        by_contra hne
        exact hno ⟨w, hw, hne⟩)
    obtain ⟨w, hw, hne⟩ := hex
    obtain ⟨i, hi⟩ := List.mem_iff_getElem?.mp hw
    cases w with
    | done => exact absurd rfl hne
    | idle =>
      cases hfd : s.feeder with
      | cons f fs => exact ⟨PoolAction.handOver i, by simp [poolStep, hfd, hi]⟩
      | nil =>
        cases hfc : s.filesClosed with
        | false => exact ⟨PoolAction.closeFiles, by simp [poolStep, hfd, hfc]⟩
        | true => exact ⟨PoolAction.work i, by simp [poolStep, hi, hfc]⟩
    | scanning rest =>
      cases rest with
      | nil => exact ⟨PoolAction.work i, by simp [poolStep, hi]⟩
      | cons raw rest => exact ⟨PoolAction.work i, by simp [poolStep, hi]⟩

/-! ## No duplicates, exact set: the contract of the writing operations -/

/-- C1. No duplicates and exact set for `filterByDomain`, `extractEmailsAndPasswords`,
`extractCPFAndPasswords` and `extractCNPJAndPasswords`.  When the critical section is
applied to the keys of the matching lines of all files in any order, no two lines written
are equal, the lines written are exactly the keys of the matching lines, and the returned
count is the number of lines written.  Every schedule of the goroutines, with any number
of workers, is such an order: at every moment the lines written are pairwise different
and as many as `matches` counts, and when the call returns its shared state is the
critical section applied to a permutation of the keys.  So every run returns the same
count after writing the same set of lines. -/
theorem writers_no_duplicates_exact_set (tbl : Char → Char) (op : Op) (files : List File) :
    (∀ order : List Str, order.Perm (op.keysOf tbl files) →
      (runOrder order).output.Nodup ∧
      (∀ k, k ∈ (runOrder order).output ↔ k ∈ op.keysOf tbl files) ∧
      (runOrder order).matchCount = (runOrder order).output.length ∧
      (runOrder order).output.toFinset = (op.keysOf tbl files).toFinset ∧
      (runOrder order).matchCount = (op.keysOf tbl files).toFinset.card) ∧
    (∀ (numCPU : Nat) (s : PoolState), PoolReach tbl op (poolInit files (numCPU + 1)) s →
      s.sink.output.Nodup ∧ s.sink.matchCount = s.sink.output.length ∧
      (s.returned = true →
        (∃ order : List Str, order.Perm (op.keysOf tbl files) ∧ s.sink = runOrder order) ∧
        ∀ k, k ∈ s.sink.output ↔ k ∈ op.keysOf tbl files)) ∧
    (∀ (numCPU n : Nat) (out : Finset Str), PoolReturns tbl op files (numCPU + 1) n out ↔
      (n = (op.keysOf tbl files).toFinset.card ∧ out = (op.keysOf tbl files).toFinset)) := by
  have hfin : ∀ o : List Str, o.Perm (op.keysOf tbl files) →
      o.toFinset = (op.keysOf tbl files).toFinset := by
    intro o ho
    ext k
    simp [ho.mem_iff]
  refine ⟨fun order h => ?_, fun numCPU s hreach => ?_,
    fun numCPU n out => poolReturns_iff tbl op files numCPU n out⟩
  · obtain ⟨h1, h2, h3, h4, h5⟩ := runOrder_spec order
    exact ⟨h1, fun k => (h2 k).trans h.mem_iff, h3, h4.trans (hfin _ h), by rw [h5, hfin _ h]⟩
  · obtain ⟨h1, h2, _⟩ := hreach.sink_ok (Nat.succ_pos numCPU)
    refine ⟨h1, h2, fun hret => ?_⟩
    obtain ⟨order, hperm, hsink⟩ := hreach.returned_order (Nat.succ_pos numCPU) hret
    refine ⟨⟨order, hperm, hsink⟩, fun k => ?_⟩
    rw [hsink]
    exact ((runOrder_spec order).2.1 k).trans hperm.mem_iff

/-- C1 on two files that hold the same matching line, with a third file that cannot be
opened: whichever worker enters the critical section first, one line is written for
it. -/
theorem writers_no_duplicates_exact_set_witness :
    ["a@b.co:pw".toList, "c@d.org:x".toList, "a@b.co:pw".toList].Perm
      (Op.extractEmailsAndPasswords.keysOf id
        [some ["a@b.co:pw".toList, "c@d.org x y".toList], none, some [" a@b.co:pw ".toList]]) ∧
    (runOrder ["a@b.co:pw".toList, "c@d.org:x".toList, "a@b.co:pw".toList]).output.Nodup ∧
    (runOrder ["a@b.co:pw".toList, "c@d.org:x".toList, "a@b.co:pw".toList]).matchCount =
      (runOrder ["a@b.co:pw".toList, "c@d.org:x".toList, "a@b.co:pw".toList]).output.length ∧
    (runOrder ["a@b.co:pw".toList, "c@d.org:x".toList, "a@b.co:pw".toList]).matchCount = 2 ∧
    PoolReturns id Op.extractEmailsAndPasswords
      [some ["a@b.co:pw".toList, "c@d.org x y".toList], none, some [" a@b.co:pw ".toList]]
      (1 + 1) 2 {"a@b.co:pw".toList, "c@d.org:x".toList} :=
  ⟨by decide,
   ((writers_no_duplicates_exact_set id Op.extractEmailsAndPasswords
      [some ["a@b.co:pw".toList, "c@d.org x y".toList], none, some [" a@b.co:pw ".toList]]).1
      ["a@b.co:pw".toList, "c@d.org:x".toList, "a@b.co:pw".toList] (by decide)).1,
   ((writers_no_duplicates_exact_set id Op.extractEmailsAndPasswords
      [some ["a@b.co:pw".toList, "c@d.org x y".toList], none, some [" a@b.co:pw ".toList]]).1
      ["a@b.co:pw".toList, "c@d.org:x".toList, "a@b.co:pw".toList] (by decide)).2.2.1,
   by decide,
   ((writers_no_duplicates_exact_set id Op.extractEmailsAndPasswords
      [some ["a@b.co:pw".toList, "c@d.org x y".toList], none, some [" a@b.co:pw ".toList]]).2.2
      1 2 {"a@b.co:pw".toList, "c@d.org:x".toList}).mpr ⟨by decide, by decide⟩⟩

namespace computeStats

/-- Every step of the executable model is one of the steps of the relation. -/
theorem step_sound {tbl : Char → Char} {s s' : State} {a : Action}
    (h : step tbl s a = some s') : Step tbl s s' := by
  obtain ⟨fd, fc, ws, tc, cap, tcl, dc, dcl, cl, ca, tl, ds⟩ := s
  cases a with
  | handOver i =>
    simp only [step] at h
    split at h
    · have hw : ws[i]? = some Worker.idle := by assumption
      obtain ⟨l₁, l₂, h1, _, h3⟩ := getElem?_split hw
      simp only [Option.some.injEq] at h
      subst h
      subst h1
      rw [h3]
      exact Step.handOver ..
    · exact absurd h (by simp)
  | closeFiles =>
    simp only [step] at h
    split at h
    · rename_i hc
      obtain ⟨hc1, hc2⟩ := hc
      subst hc1 hc2
      simp only [Option.some.injEq] at h
      subst h
      exact Step.closeFiles ..
    · exact absurd h (by simp)
  | work i =>
    simp only [step, workStep] at h
    split at h
    · exact absurd h (by simp)
    · have hw : ws[i]? = some Worker.idle := by assumption
      obtain ⟨l₁, l₂, h1, _, h3⟩ := getElem?_split hw
      split at h
      · rename_i hc
        subst hc
        simp only [Option.some.injEq] at h
        subst h
        subst h1
        rw [h3]
        exact Step.exit ..
      · exact absurd h (by simp)
    · rename_i n hw
      obtain ⟨l₁, l₂, h1, _, h3⟩ := getElem?_split hw
      simp only [Option.some.injEq] at h
      subst h
      subst h1
      rw [h3]
      exact Step.scanEnd ..
    · rename_i raw rest n hw
      obtain ⟨l₁, l₂, h1, _, h3⟩ := getElem?_split hw
      simp only [Option.some.injEq] at h
      subst h
      subst h1
      rw [h3]
      exact Step.scanLine ..
    · rename_i d rest n hw
      obtain ⟨l₁, l₂, h1, _, h3⟩ := getElem?_split hw
      split at h
      · rename_i hroom
        simp only [Option.some.injEq] at h
        subst h
        subst h1
        rw [h3]
        exact Step.send _ _ _ _ _ _ _ _ _ _ _ _ _ _ _ _ hroom
      · exact absurd h (by simp)
    · rename_i n hw
      obtain ⟨l₁, l₂, h1, _, h3⟩ := getElem?_split hw
      split at h
      · rename_i hroom
        simp only [Option.some.injEq] at h
        subst h
        subst h1
        rw [h3]
        exact Step.report _ _ _ _ _ _ _ _ _ _ _ _ _ _ hroom
      · exact absurd h (by simp)
    · exact absurd h (by simp)
  | close =>
    simp only [step, closeStep] at h
    split at h
    · split at h
      · rename_i hall
        simp only [Option.some.injEq] at h
        subst h
        exact Step.closeLines _ _ _ _ _ _ _ _ _ _ _ (by simpa using hall)
      · exact absurd h (by simp)
    · simp only [Option.some.injEq] at h
      subst h
      exact Step.closeDomains ..
    · exact absurd h (by simp)
  | call =>
    simp only [step, callStep] at h
    split at h
    · split at h
      · simp only [Option.some.injEq] at h
        subst h
        exact Step.recvLines ..
      · split at h
        · rename_i hcl
          subst hcl
          simp only [Option.some.injEq] at h
          subst h
          exact Step.linesDone ..
        · exact absurd h (by simp)
    · split at h
      · simp only [Option.some.injEq] at h
        subst h
        exact Step.recvDomain ..
      · split at h
        · rename_i hcl
          subst hcl
          simp only [Option.some.injEq] at h
          subst h
          exact Step.ret ..
        · exact absurd h (by simp)
    · exact absurd h (by simp)

theorem Worker.lines_idle : Worker.idle.lines = 0 := rfl
theorem Worker.lines_scanning (rest : List Str) (n : Nat) :
    (Worker.scanning rest n).lines = n + nonEmptyCount rest := rfl
theorem Worker.lines_sending (d : Str) (rest : List Str) (n : Nat) :
    (Worker.sending d rest n).lines = n + nonEmptyCount rest := rfl
theorem Worker.lines_reporting (n : Nat) : (Worker.reporting n).lines = n := rfl
theorem Worker.lines_done : Worker.done.lines = 0 := rfl

theorem Worker.pending_idle (tbl : Char → Char) : Worker.idle.pending tbl = [] := rfl
theorem Worker.pending_scanning (tbl : Char → Char) (rest : List Str) (n : Nat) :
    (Worker.scanning rest n).pending tbl = domainsOf tbl rest := rfl
theorem Worker.pending_sending (tbl : Char → Char) (d : Str) (rest : List Str) (n : Nat) :
    (Worker.sending d rest n).pending tbl = d :: domainsOf tbl rest := rfl
theorem Worker.pending_reporting (tbl : Char → Char) (n : Nat) :
    (Worker.reporting n).pending tbl = [] := rfl
theorem Worker.pending_done (tbl : Char → Char) : Worker.done.pending tbl = [] := rfl

theorem nonEmptyCount_nil : nonEmptyCount [] = 0 := rfl

theorem domainsOf_nil (tbl : Char → Char) : domainsOf tbl [] = [] := rfl

theorem allTexts_cons (f : File) (fs : List File) :
    allTexts (f :: fs) = fileTexts f ++ allTexts fs := by
  simp [allTexts]

theorem nonEmptyCount_append (a b : List Str) :
    nonEmptyCount (a ++ b) = nonEmptyCount a + nonEmptyCount b := by
  simp [nonEmptyCount]

theorem domainsOf_append (tbl : Char → Char) (a b : List Str) :
    domainsOf tbl (a ++ b) = domainsOf tbl a ++ domainsOf tbl b := by
  simp [domainsOf]

theorem startFile_lines (f : File) : (startFile f).lines = nonEmptyCount (fileTexts f) := by
  cases f <;> simp [startFile, Worker.lines, fileTexts, nonEmptyCount]

theorem startFile_pending (tbl : Char → Char) (f : File) :
    (startFile f).pending tbl = domainsOf tbl (fileTexts f) := by
  cases f <;> simp [startFile, Worker.pending, fileTexts, domainsOf]

theorem startFile_ne_done (f : File) : startFile f ≠ Worker.done := by
  cases f <;> simp [startFile]

theorem scanStep_lines (tbl : Char → Char) (raw : Str) (rest : List Str) (n : Nat) :
    (scanStep tbl raw rest n).lines = n + nonEmptyCount (raw :: rest) := by
  unfold scanStep
  by_cases h : trimSpace raw = []
  · simp [h, Worker.lines, nonEmptyCount]
  · cases hd : domainOfLine tbl (trimSpace raw) <;>
      simp [h, hd, Worker.lines, nonEmptyCount] <;> omega

theorem scanStep_pending (tbl : Char → Char) (raw : Str) (rest : List Str) (n : Nat) :
    (scanStep tbl raw rest n).pending tbl = domainsOf tbl (raw :: rest) := by
  unfold scanStep
  by_cases h : trimSpace raw = []
  · simp [h, Worker.pending, domainsOf, scanDomain]
  · cases hd : domainOfLine tbl (trimSpace raw) <;>
      simp [h, hd, Worker.pending, domainsOf, scanDomain]

theorem scanStep_ne_done (tbl : Char → Char) (raw : Str) (rest : List Str) (n : Nat) :
    scanStep tbl raw rest n ≠ Worker.done := by
  unfold scanStep
  by_cases h : trimSpace raw = []
  · simp [h]
  · cases hd : domainOfLine tbl (trimSpace raw) <;> simp [h, hd]

/-- No step loses or invents a line. -/
theorem Step.lineSum_eq {tbl : Char → Char} {s s' : State} (h : Step tbl s s') :
    s'.lineSum = s.lineSum := by
  cases h <;>
    simp only [State.lineSum, Worker.lines_idle, Worker.lines_scanning, Worker.lines_sending,
      Worker.lines_reporting, Worker.lines_done, startFile_lines, scanStep_lines, allTexts_cons,
      nonEmptyCount_append, nonEmptyCount_nil, List.map_append, List.map_cons, List.sum_append,
      List.sum_cons, List.sum_nil] <;> try omega

/-- No step loses or invents a domain. -/
theorem Step.domains_iff {tbl : Char → Char} {s s' : State} (h : Step tbl s s') (x : Str) :
    (x ∈ s'.domains ∨ x ∈ s'.pendingDomains tbl) ↔ (x ∈ s.domains ∨ x ∈ s.pendingDomains tbl) := by
  cases h
  case recvDomain d fd fc ws tc cap tcl dc dcl cl tl ds =>
    simp only [State.pendingDomains, List.mem_append, List.mem_cons]
    by_cases hd : d ∈ ds
    · rw [if_pos hd]
      constructor
      · tauto
      · rintro (h | ((h | h) | h) | h)
        · exact Or.inl h
        · exact Or.inl (h ▸ hd)
        · exact Or.inr (Or.inl (Or.inl h))
        · exact Or.inr (Or.inl (Or.inr h))
        · exact Or.inr (Or.inr h)
    · rw [if_neg hd, List.mem_cons]
      tauto
  all_goals
    simp only [State.pendingDomains, Worker.pending_idle, Worker.pending_scanning,
      Worker.pending_sending, Worker.pending_reporting, Worker.pending_done, startFile_pending,
      scanStep_pending, allTexts_cons, domainsOf_append, domainsOf_nil, List.flatMap_append,
      List.flatMap_cons, List.mem_append, List.mem_cons, List.not_mem_nil, or_false, false_or,
      List.append_nil, List.nil_append] <;> try tauto

/-- While the caller still drains `totalLinesChan`, the domains sent and still to be sent
are as many as at the start. -/
theorem Step.pending_length {tbl : Char → Char} {s s' : State} (h : Step tbl s s')
    (hc : s'.caller = Caller.drainingLines) :
    s.caller = Caller.drainingLines ∧
      (s'.pendingDomains tbl).length = (s.pendingDomains tbl).length := by
  cases h <;>
    simp_all [State.pendingDomains, Worker.pending_idle, Worker.pending_scanning,
      Worker.pending_sending, Worker.pending_reporting, Worker.pending_done, startFile_pending,
      scanStep_pending, allTexts_cons, domainsOf_append, domainsOf_nil] <;> try omega

theorem Structural.of_active {s : State} (hs : Structural s) {w : Worker}
    (hw : w ∈ s.workers) (hnd : w ≠ Worker.done) :
    s.closer = Closer.waiting ∧ s.totalLinesClosed = false ∧ s.domainsClosed = false ∧
      s.caller = Caller.drainingLines := by
  obtain ⟨_, _, _, h4, h5, h6, h7, _⟩ := hs
  have hcl : s.closer = Closer.waiting := by
    by_contra hne
    exact hnd (h4 hne w hw)
  have htcl : s.totalLinesClosed = false := by
    cases ht : s.totalLinesClosed with
    | false => rfl
    | true => exact absurd hcl (h5.mp ht)
  have hdcl : s.domainsClosed = false := by
    cases hd : s.domainsClosed with
    | false => rfl
    | true =>
      have := h6.mp hd
      rw [hcl] at this
      cases this
  refine ⟨hcl, htcl, hdcl, ?_⟩
  by_contra hne
  have := (h7 hne).1
  rw [htcl] at this
  cases this

/-- A worker that is not done moves on: the facts survive. -/
theorem Structural.replace_worker {fd fd' : List File} {fc : Bool} {l₁ l₂ : List Worker}
    {w w' : Worker} {tc tc' : List Nat} {cap : Nat} {tcl : Bool} {dc dc' : List Str}
    {dcl : Bool} {cl : Closer} {ca : Caller} {tl : Nat} {ds : List Str}
    (hs : Structural ⟨fd, fc, l₁ ++ w :: l₂, tc, cap, tcl, dc, dcl, cl, ca, tl, ds⟩)
    (hw : w ≠ Worker.done) (hw' : w' = Worker.done → fc = true)
    (hfd : fc = true → fd' = []) (hdc : dc'.length ≤ domainsChanCap) :
    Structural ⟨fd', fc, l₁ ++ w' :: l₂, tc', cap, tcl, dc', dcl, cl, ca, tl, ds⟩ := by
  obtain ⟨hcl, htcl, hdcl, hca⟩ := hs.of_active (w := w) (by simp) hw
  simp only at hcl htcl hdcl hca
  obtain ⟨_, _, h3, _, _, _, _, _, _, h10⟩ := hs
  simp only at h3 h10
  subst hcl htcl hdcl hca
  refine ⟨by simp, hfd, ?_, by simp, by simp, by simp, by simp, by simp, hdc, h10⟩
  intro x hx hxd
  simp only [List.mem_append, List.mem_cons] at hx
  rcases hx with hx | hx | hx
  · exact h3 x (by simp [hx]) hxd
  · exact hw' (hx ▸ hxd)
  · exact h3 x (by simp [hx]) hxd

theorem Step.structural {tbl : Char → Char} {s s' : State} (h : Step tbl s s')
    (hs : Structural s) : Structural s' := by
  cases h with
  | handOver f fs fc l₁ l₂ tc cap tcl dc dcl cl ca tl ds =>
    have hfc : fc = true → fs = [] := by
      intro hfc
      have := hs.2.1 hfc
      simp at this
    exact hs.replace_worker (by simp) (fun h => absurd h (startFile_ne_done f)) hfc hs.2.2.2.2.2.2.2.2.1
  | closeFiles ws tc cap tcl dc dcl cl ca tl ds =>
    obtain ⟨h1, _, _, h4, h5, h6, h7, h8, h9, h10⟩ := hs
    exact ⟨h1, fun _ => rfl, fun _ _ _ => rfl, h4, h5, h6, h7, h8, h9, h10⟩
  | exit fd l₁ l₂ tc cap tcl dc dcl cl ca tl ds =>
    exact hs.replace_worker (by simp) (fun _ => rfl) hs.2.1 hs.2.2.2.2.2.2.2.2.1
  | scanEnd n fd fc l₁ l₂ tc cap tcl dc dcl cl ca tl ds =>
    exact hs.replace_worker (by simp) (fun h => by cases h) hs.2.1 hs.2.2.2.2.2.2.2.2.1
  | scanLine raw rest n fd fc l₁ l₂ tc cap tcl dc dcl cl ca tl ds =>
    exact hs.replace_worker (by simp) (fun h => absurd h (scanStep_ne_done tbl raw rest n))
      hs.2.1 hs.2.2.2.2.2.2.2.2.1
  | send d rest n fd fc l₁ l₂ tc cap tcl dc dcl cl ca tl ds hroom =>
    exact hs.replace_worker (by simp) (fun h => by cases h) hs.2.1
      (by simp only [List.length_append, List.length_singleton]; omega)
  | report n fd fc l₁ l₂ tc cap tcl dc dcl cl ca tl ds hroom =>
    exact hs.replace_worker (by simp) (fun h => by cases h) hs.2.1 hs.2.2.2.2.2.2.2.2.1
  | closeLines fd fc ws tc cap tcl dc dcl ca tl ds hdone =>
    obtain ⟨h1, h2, h3, h4, h5, h6, h7, h8, h9, h10⟩ := hs
    simp only at h1 h2 h3 h4 h5 h6 h7 h8 h9 h10
    have htcl : tcl = false := by
      cases ht : tcl with
      | false => rfl
      | true => exact absurd rfl (h5.mp ht)
    have hdcl : dcl = false := by
      cases hd : dcl with
      | false => rfl
      | true => exact absurd (h6.mp hd) (by simp)
    have hca : ca = Caller.drainingLines := by
      by_contra hne
      have := (h7 hne).1
      rw [htcl] at this
      cases this
    subst hdcl hca
    exact ⟨h1, h2, h3, fun _ => hdone, by simp, by simp, by simp, by simp, h9, h10⟩
  | closeDomains fd fc ws tc cap tcl dc dcl ca tl ds =>
    obtain ⟨h1, h2, h3, h4, h5, h6, h7, h8, h9, h10⟩ := hs
    simp only at h1 h2 h3 h4 h5 h6 h7 h8 h9 h10
    have hdcl : dcl = false := by
      cases hd : dcl with
      | false => rfl
      | true => exact absurd (h6.mp hd) (by simp)
    have hca : ca ≠ Caller.returned := by
      intro hca
      have := (h8 hca).1
      rw [hdcl] at this
      cases this
    have htcl : tcl = true := h5.mpr (by simp)
    refine ⟨h1, h2, h3, fun _ => h4 (by simp), by simp [htcl], by simp, h7, ?_, h9, h10⟩
    intro hca'
    exact absurd hca' hca
  | recvLines n fd fc ws tc cap tcl dc dcl cl tl ds =>
    obtain ⟨h1, h2, h3, h4, h5, h6, h7, h8, h9, h10⟩ := hs
    exact ⟨h1, h2, h3, h4, h5, h6, by simp, by simp, h9, h10⟩
  | linesDone fd fc ws cap dc dcl cl tl ds =>
    obtain ⟨h1, h2, h3, h4, h5, h6, h7, h8, h9, h10⟩ := hs
    exact ⟨h1, h2, h3, h4, h5, h6, by simp, by simp, h9, h10⟩
  | recvDomain d fd fc ws tc cap tcl dc dcl cl tl ds =>
    obtain ⟨h1, h2, h3, h4, h5, h6, h7, h8, h9, h10⟩ := hs
    simp only at h1 h2 h3 h4 h5 h6 h7 h8 h9 h10
    refine ⟨h1, h2, h3, h4, h5, h6, h7, by simp, ?_, ?_⟩
    · simp only [List.length_cons] at h9 ⊢
      omega
    · show (if d ∈ ds then ds else d :: ds).Nodup
      by_cases hd : d ∈ ds
      · rw [if_pos hd]; exact h10
      · rw [if_neg hd]; exact List.nodup_cons.mpr ⟨hd, h10⟩
  | ret fd fc ws tc cap tcl cl tl ds =>
    obtain ⟨h1, h2, h3, h4, h5, h6, h7, h8, h9, h10⟩ := hs
    simp only at h1 h2 h3 h4 h5 h6 h7 h8 h9 h10
    exact ⟨h1, h2, h3, h4, h5, by simpa using h6, fun _ => h7 (by simp), by simp, h9, h10⟩

theorem map_lines_replicate_idle (n : Nat) :
    ((List.replicate n Worker.idle).map Worker.lines).sum = 0 := by
  induction n with
  | zero => rfl
  | succ n ih => simp [List.replicate_succ, Worker.lines_idle, ih]

theorem flatMap_pending_replicate_idle (tbl : Char → Char) (n : Nat) :
    (List.replicate n Worker.idle).flatMap (Worker.pending tbl) = [] := by
  induction n with
  | zero => rfl
  | succ n ih => simp [List.replicate_succ, Worker.pending_idle, ih]

theorem map_lines_of_done {ws : List Worker} (h : ∀ w ∈ ws, w = Worker.done) :
    (ws.map Worker.lines).sum = 0 := by
  induction ws with
  | nil => rfl
  | cons w ws ih =>
    have hw : w = Worker.done := h w (by simp)
    subst hw
    simp [Worker.lines_done, ih (fun x hx => h x (by simp [hx]))]

theorem flatMap_pending_of_done (tbl : Char → Char) {ws : List Worker}
    (h : ∀ w ∈ ws, w = Worker.done) : ws.flatMap (Worker.pending tbl) = [] := by
  induction ws with
  | nil => rfl
  | cons w ws ih =>
    have hw : w = Worker.done := h w (by simp)
    subst hw
    simp [Worker.pending_done, ih (fun x hx => h x (by simp [hx]))]

theorem inv_init (tbl : Char → Char) (files : List File) {numCPU : Nat} (hcpu : 0 < numCPU) :
    Inv tbl files (init files numCPU) := by
  refine ⟨⟨?_, ?_, ?_, ?_, ?_, ?_, ?_, ?_, ?_, ?_⟩, ?_, ?_, ?_⟩
  · intro h
    have := congrArg List.length h
    simp [init] at this
    omega
  · intro h; simp [init] at h
  · intro w hw hd
    simp only [init, List.mem_replicate] at hw
    rw [hw.2] at hd
    cases hd
  · intro h; simp [init] at h
  · simp [init]
  · simp [init]
  · intro h; simp [init] at h
  · intro h; simp [init] at h
  · simp [init]
  · simp [init]
  · simp [State.lineSum, init, Worker.lines_idle]
  · intro x
    simp [State.pendingDomains, init, flatMap_pending_replicate_idle]
  · intro _
    simp [State.pendingDomains, init, flatMap_pending_replicate_idle]

theorem Step.preserves_inv {tbl : Char → Char} {files : List File} {s s' : State} (h : Step tbl s s')
    (hs : Inv tbl files s) : Inv tbl files s' := by
  obtain ⟨h1, h2, h3, h4⟩ := hs
  refine ⟨h.structural h1, by rw [h.lineSum_eq, h2], fun x => (h.domains_iff x).trans (h3 x), ?_⟩
  intro hc
  obtain ⟨hc', hlen⟩ := h.pending_length hc
  rw [hlen, h4 hc']

/-- The invariant holds in every reachable state. -/
theorem Reach.invariant {tbl : Char → Char} {files : List File} {numCPU : Nat} (hcpu : 0 < numCPU)
    {s : State} (h : Reach tbl (init files numCPU) s) : Inv tbl files s := by
  induction h with
  | refl => exact inv_init tbl files hcpu
  | next a _ hstep ih => exact (step_sound hstep).preserves_inv ih

theorem Reach.trans {tbl : Char → Char} {s t u : State} (h₁ : Reach tbl s t)
    (h₂ : Reach tbl t u) : Reach tbl s u := by
  induction h₂ with
  | refl => exact h₁
  | next a _ hstep ih => exact Reach.next a ih hstep

theorem Reach.single {tbl : Char → Char} {s t : State} (a : Action)
    (h : step tbl s a = some t) : Reach tbl s t :=
  Reach.next a Reach.refl h

/-- When every worker is done, nothing is left outside the channels. -/
theorem Structural.all_done {s : State} (hs : Structural s)
    (hd : ∀ w ∈ s.workers, w = Worker.done) : s.feeder = [] := by
  obtain ⟨h1, h2, h3, _⟩ := hs
  cases hw : s.workers with
  | nil => exact absurd hw h1
  | cons w ws =>
    have hmem : w ∈ s.workers := by rw [hw]; simp
    exact h2 (h3 w hmem (hd w hmem))

/-- Partial correctness of `computeStats`: whenever the call returns, the first value
is the number of scanned texts that are non-empty after trimming, and the second is the
number of distinct lowercased domains that DomainRule extracts from them. -/
theorem returned_values {tbl : Char → Char} {files : List File} {numCPU : Nat}
    (hcpu : 0 < numCPU) {s : State} (h : Reach tbl (init files numCPU) s)
    (hret : s.caller = Caller.returned) :
    s.totalLines = nonEmptyCount (allTexts files) ∧
      s.domains.length = (domainsOf tbl (allTexts files)).toFinset.card := by
  obtain ⟨hst, hl, hd, _⟩ := h.invariant hcpu
  have hst' := hst
  obtain ⟨_, _, _, h4, _, h6, h7, h8, _, h10⟩ := hst
  obtain ⟨hdcl, hdc⟩ := h8 hret
  have hdone : ∀ w ∈ s.workers, w = Worker.done := h4 (by rw [h6.mp hdcl]; simp)
  have hfd := hst'.all_done hdone
  have htc : s.totalLinesChan = [] := (h7 (by rw [hret]; simp)).2
  constructor
  · rw [← hl]
    simp [State.lineSum, htc, hfd, map_lines_of_done hdone, allTexts, nonEmptyCount]
  · rw [← List.toFinset_card_of_nodup h10]
    congr 1
    ext x
    have := hd x
    simp only [State.pendingDomains, hdc, hfd, flatMap_pending_of_done tbl hdone, allTexts,
      domainsOf, List.flatMap_nil, List.filterMap_nil, List.append_nil, List.not_mem_nil,
      or_false] at this
    simpa [domainsOf, allTexts] using this

/-- With more domains than `domainsChan` holds, the caller never leaves its first loop and
the closer never gets past `wg.Wait()`. -/
theorem blocked_of_many_domains {tbl : Char → Char} {files : List File} {numCPU : Nat}
    (hcpu : 0 < numCPU) (hmany : domainsChanCap < (domainsOf tbl (allTexts files)).length)
    {s : State} (h : Reach tbl (init files numCPU) s) :
    s.caller = Caller.drainingLines ∧ s.closer = Closer.waiting := by
  induction h with
  | refl => exact ⟨rfl, rfl⟩
  | @next t u a hreach hstep ih =>
    obtain ⟨hca, hcl⟩ := ih
    obtain ⟨hst, _, _, hlen⟩ := hreach.invariant hcpu
    have hlen' := hlen hca
    have hst' := hst
    obtain ⟨_, _, _, _, h5, _, _, _, h9, _⟩ := hst
    have htcl : t.totalLinesClosed = false := by
      cases ht : t.totalLinesClosed with
      | false => rfl
      | true => exact absurd hcl (h5.mp ht)
    have hS := step_sound hstep
    cases hS with
    | closeLines fd fc ws tc cap tcl dc dcl ca tl ds hdone =>
      exfalso
      have hfd : fd = [] := hst'.all_done hdone
      simp only [State.pendingDomains, hfd, flatMap_pending_of_done tbl hdone, allTexts,
        List.flatMap_nil, domainsOf, List.filterMap_nil, List.append_nil] at hlen'
      simp only at h9
      simp only [domainsOf, allTexts] at hmany
      omega
    | linesDone => simp at htcl
    | closeDomains => simp at hcl
    | recvDomain => simp at hca
    | ret => simp at hca
    | handOver => exact ⟨hca, hcl⟩
    | closeFiles => exact ⟨hca, hcl⟩
    | exit => exact ⟨hca, hcl⟩
    | scanEnd => exact ⟨hca, hcl⟩
    | scanLine => exact ⟨hca, hcl⟩
    | send => exact ⟨hca, hcl⟩
    | report => exact ⟨hca, hcl⟩
    | recvLines => exact ⟨hca, hcl⟩

/-- With more domains than `domainsChan` holds, `computeStats` never returns. -/
theorem never_returns_of_many_domains {tbl : Char → Char} {files : List File} {numCPU : Nat}
    (hcpu : 0 < numCPU) (hmany : domainsChanCap < (domainsOf tbl (allTexts files)).length)
    (r : Nat × Nat) : ¬ Returns tbl files numCPU r := by
  rintro ⟨s, hreach, hret, _⟩
  have := (blocked_of_many_domains hcpu hmany hreach).1
  rw [hret] at this
  cases this

/-! ## Schedules of `computeStats` -/

/-- The first worker scans the texts `pre` and sends their domains, as long as
`domainsChan` has room for them. -/
theorem reach_scan (tbl : Char → Char) (fd : List File) (fc : Bool) (ws : List Worker)
    (tc : List Nat) (cap : Nat) (tcl : Bool) (dcl : Bool) (cl : Closer) (ca : Caller)
    (tl : Nat) (ds : List Str) (post : List Str) (pre : List Str) :
    ∀ (n : Nat) (dc : List Str), dc.length + (domainsOf tbl pre).length ≤ domainsChanCap →
    Reach tbl ⟨fd, fc, Worker.scanning (pre ++ post) n :: ws, tc, cap, tcl, dc, dcl, cl, ca, tl, ds⟩
      ⟨fd, fc, Worker.scanning post (n + nonEmptyCount pre) :: ws, tc, cap, tcl,
        dc ++ domainsOf tbl pre, dcl, cl, ca, tl, ds⟩ := by
  induction pre with
  | nil =>
    intro n dc _
    simp only [List.nil_append, nonEmptyCount_nil, domainsOf_nil, Nat.add_zero, List.append_nil]
    exact Reach.refl
  | cons raw rest ih =>
    intro n dc hroom
    have h1 : step tbl ⟨fd, fc, Worker.scanning (raw :: rest ++ post) n :: ws, tc, cap, tcl, dc,
        dcl, cl, ca, tl, ds⟩ (Action.work 0) =
        some ⟨fd, fc, scanStep tbl raw (rest ++ post) n :: ws, tc, cap, tcl, dc, dcl, cl, ca,
          tl, ds⟩ := by
      simp [step, workStep]
    refine (Reach.single _ h1).trans ?_
    by_cases he : trimSpace raw = []
    · have hc : nonEmptyCount (raw :: rest) = nonEmptyCount rest := by
        simp [nonEmptyCount, he]
      have hd : domainsOf tbl (raw :: rest) = domainsOf tbl rest := by
        simp [domainsOf, scanDomain, he]
      have hss : scanStep tbl raw (rest ++ post) n = Worker.scanning (rest ++ post) n := by
        simp [scanStep, he]
      rw [hc, hd, hss]
      rw [hd] at hroom
      exact ih n dc hroom
    · have hc : nonEmptyCount (raw :: rest) = nonEmptyCount rest + 1 := by
        simp [nonEmptyCount, he]
      cases hdom : domainOfLine tbl (trimSpace raw) with
      | none =>
        have hd : domainsOf tbl (raw :: rest) = domainsOf tbl rest := by
          simp [domainsOf, scanDomain, he, hdom]
        have hss : scanStep tbl raw (rest ++ post) n =
            Worker.scanning (rest ++ post) (n + 1) := by
          simp [scanStep, he, hdom]
        rw [hc, hd, hss]
        rw [hd] at hroom
        have := ih (n + 1) dc hroom
        rwa [show n + 1 + nonEmptyCount rest = n + (nonEmptyCount rest + 1) by omega] at this
      | some d =>
        have hd : domainsOf tbl (raw :: rest) = d :: domainsOf tbl rest := by
          simp [domainsOf, scanDomain, he, hdom]
        have hss : scanStep tbl raw (rest ++ post) n =
            Worker.sending d (rest ++ post) (n + 1) := by
          simp [scanStep, he, hdom]
        rw [hc, hd, hss]
        rw [hd] at hroom
        simp only [List.length_cons] at hroom
        have h2 : step tbl ⟨fd, fc, Worker.sending d (rest ++ post) (n + 1) :: ws, tc, cap, tcl,
            dc, dcl, cl, ca, tl, ds⟩ (Action.work 0) =
            some ⟨fd, fc, Worker.scanning (rest ++ post) (n + 1) :: ws, tc, cap, tcl, dc ++ [d],
              dcl, cl, ca, tl, ds⟩ := by
          have : dc.length < domainsChanCap := by omega
          simp [step, workStep, this]
        refine (Reach.single _ h2).trans ?_
        have := ih (n + 1) (dc ++ [d]) (by simp only [List.length_append, List.length_singleton]; omega)
        rwa [show n + 1 + nonEmptyCount rest = n + (nonEmptyCount rest + 1) by omega,
          List.append_assoc, List.singleton_append] at this

/-- The first worker takes the files one after the other and works through each, as long
as both channels have room. -/
theorem reach_files (tbl : Char → Char) (ws : List Worker) (cap : Nat) (tcl : Bool)
    (dcl : Bool) (cl : Closer) (ca : Caller) (tl : Nat) (ds : List Str) (fs : List File) :
    ∀ (tc : List Nat) (dc : List Str), tc.length + fs.length ≤ cap →
    dc.length + (domainsOf tbl (allTexts fs)).length ≤ domainsChanCap →
    ∃ tc' dc', Reach tbl ⟨fs, false, Worker.idle :: ws, tc, cap, tcl, dc, dcl, cl, ca, tl, ds⟩
      ⟨[], false, Worker.idle :: ws, tc', cap, tcl, dc', dcl, cl, ca, tl, ds⟩ := by
  induction fs with
  | nil => intro tc dc _ _; exact ⟨tc, dc, Reach.refl⟩
  | cons f fs ih =>
    intro tc dc htc hdc
    rw [allTexts_cons, domainsOf_append, List.length_append] at hdc
    simp only [List.length_cons] at htc
    have h1 : step tbl ⟨f :: fs, false, Worker.idle :: ws, tc, cap, tcl, dc, dcl, cl, ca, tl, ds⟩
        (Action.handOver 0) =
        some ⟨fs, false, startFile f :: ws, tc, cap, tcl, dc, dcl, cl, ca, tl, ds⟩ := by
      simp [step]
    cases f with
    | none =>
      obtain ⟨tc', dc', hr⟩ := ih tc dc (by omega) (by simp [fileTexts] at hdc; omega)
      exact ⟨tc', dc', (Reach.single _ h1).trans hr⟩
    | some texts =>
      simp only [fileTexts] at hdc
      have h2 := reach_scan tbl fs false ws tc cap tcl dcl cl ca tl ds [] texts 0 dc (by omega)
      rw [List.append_nil] at h2
      have h3 : step tbl ⟨fs, false, Worker.scanning [] (0 + nonEmptyCount texts) :: ws, tc, cap,
          tcl, dc ++ domainsOf tbl texts, dcl, cl, ca, tl, ds⟩ (Action.work 0) =
          some ⟨fs, false, Worker.reporting (0 + nonEmptyCount texts) :: ws, tc, cap, tcl,
            dc ++ domainsOf tbl texts, dcl, cl, ca, tl, ds⟩ := by
        simp [step, workStep]
      have h4 : step tbl ⟨fs, false, Worker.reporting (0 + nonEmptyCount texts) :: ws, tc, cap,
          tcl, dc ++ domainsOf tbl texts, dcl, cl, ca, tl, ds⟩ (Action.work 0) =
          some ⟨fs, false, Worker.idle :: ws, tc ++ [0 + nonEmptyCount texts], cap, tcl,
            dc ++ domainsOf tbl texts, dcl, cl, ca, tl, ds⟩ := by
        have : tc.length < cap := by omega
        simp [step, workStep, this]
      obtain ⟨tc', dc', hr⟩ := ih (tc ++ [0 + nonEmptyCount texts]) (dc ++ domainsOf tbl texts)
        (by simp only [List.length_append, List.length_singleton]; omega)
        (by simp only [List.length_append]; omega)
      exact ⟨tc', dc', (Reach.single _ h1).trans
        (h2.trans ((Reach.single _ h3).trans ((Reach.single _ h4).trans hr)))⟩

/-- Once `filesChan` is closed, the idle workers leave their loops. -/
theorem reach_exit (tbl : Char → Char) (fd : List File) (tc : List Nat) (cap : Nat)
    (tcl : Bool) (dc : List Str) (dcl : Bool) (cl : Closer) (ca : Caller) (tl : Nat)
    (ds : List Str) (k : Nat) :
    ∀ pre : List Worker,
    Reach tbl ⟨fd, true, pre ++ List.replicate k Worker.idle, tc, cap, tcl, dc, dcl, cl, ca, tl, ds⟩
      ⟨fd, true, pre ++ List.replicate k Worker.done, tc, cap, tcl, dc, dcl, cl, ca, tl, ds⟩ := by
  induction k with
  | zero => intro pre; exact Reach.refl
  | succ k ih =>
    intro pre
    have h1 : step tbl ⟨fd, true, pre ++ Worker.idle :: List.replicate k Worker.idle, tc, cap,
        tcl, dc, dcl, cl, ca, tl, ds⟩ (Action.work pre.length) =
        some ⟨fd, true, pre ++ Worker.done :: List.replicate k Worker.idle, tc, cap, tcl, dc,
          dcl, cl, ca, tl, ds⟩ := by
      simp only [step, workStep, getElem?_mid, set_mid]
      rfl
    have h2 := ih (pre ++ [Worker.done])
    simp only [List.append_assoc, List.singleton_append] at h2
    rw [List.replicate_succ, List.replicate_succ]
    exact (Reach.single _ h1).trans h2

/-- The caller empties `totalLinesChan`. -/
theorem reach_drainLines (tbl : Char → Char) (fd : List File) (fc : Bool) (ws : List Worker)
    (cap : Nat) (tcl : Bool) (dc : List Str) (dcl : Bool) (cl : Closer) (ds : List Str)
    (tc : List Nat) :
    ∀ tl : Nat,
    Reach tbl ⟨fd, fc, ws, tc, cap, tcl, dc, dcl, cl, Caller.drainingLines, tl, ds⟩
      ⟨fd, fc, ws, [], cap, tcl, dc, dcl, cl, Caller.drainingLines, tl + tc.sum, ds⟩ := by
  induction tc with
  | nil => intro tl; exact Reach.refl
  | cons n ns ih =>
    intro tl
    have h1 : step tbl ⟨fd, fc, ws, n :: ns, cap, tcl, dc, dcl, cl, Caller.drainingLines, tl, ds⟩
        Action.call =
        some ⟨fd, fc, ws, ns, cap, tcl, dc, dcl, cl, Caller.drainingLines, tl + n, ds⟩ := by
      simp [step, callStep]
    have := ih (tl + n)
    rw [List.sum_cons, ← Nat.add_assoc]
    exact (Reach.single _ h1).trans this

/-- The caller empties `domainsChan`. -/
theorem reach_drainDomains (tbl : Char → Char) (fd : List File) (fc : Bool) (ws : List Worker)
    (tc : List Nat) (cap : Nat) (tcl : Bool) (dcl : Bool) (cl : Closer) (tl : Nat)
    (dc : List Str) :
    ∀ ds : List Str, ∃ ds',
    Reach tbl ⟨fd, fc, ws, tc, cap, tcl, dc, dcl, cl, Caller.drainingDomains, tl, ds⟩
      ⟨fd, fc, ws, tc, cap, tcl, [], dcl, cl, Caller.drainingDomains, tl, ds'⟩ := by
  induction dc with
  | nil => intro ds; exact ⟨ds, Reach.refl⟩
  | cons d dc ih =>
    intro ds
    have h1 : step tbl ⟨fd, fc, ws, tc, cap, tcl, d :: dc, dcl, cl, Caller.drainingDomains, tl, ds⟩
        Action.call =
        some ⟨fd, fc, ws, tc, cap, tcl, dc, dcl, cl, Caller.drainingDomains, tl,
          if d ∈ ds then ds else d :: ds⟩ := by
      simp [step, callStep]
    obtain ⟨ds', hr⟩ := ih (if d ∈ ds then ds else d :: ds)
    exact ⟨ds', (Reach.single _ h1).trans hr⟩

theorem all_done_replicate (k : Nat) :
    (List.replicate k Worker.done).all (fun w => w == Worker.done) = true := by
  simp

/-- When `domainsChan` has room for all domains of the run, `computeStats` can return. -/
theorem can_return (tbl : Char → Char) (files : List File) (numCPU : Nat)
    (hfew : (domainsOf tbl (allTexts files)).length ≤ domainsChanCap) :
    ∃ s, Reach tbl (init files (numCPU + 1)) s ∧ s.caller = Caller.returned := by
  have hw : List.replicate ((numCPU + 1) * 2) Worker.idle =
      Worker.idle :: List.replicate (numCPU * 2 + 1) Worker.idle := by
    rw [show (numCPU + 1) * 2 = (numCPU * 2 + 1) + 1 by omega, List.replicate_succ]
  obtain ⟨tc, dc, h1⟩ := reach_files tbl (List.replicate (numCPU * 2 + 1) Worker.idle)
    files.length false false Closer.waiting Caller.drainingLines 0 [] files [] []
    (by simp) (by simpa using hfew)
  have h2 : step tbl ⟨[], false, Worker.idle :: List.replicate (numCPU * 2 + 1) Worker.idle, tc,
      files.length, false, dc, false, Closer.waiting, Caller.drainingLines, 0, []⟩
      Action.closeFiles =
      some ⟨[], true, Worker.idle :: List.replicate (numCPU * 2 + 1) Worker.idle, tc,
        files.length, false, dc, false, Closer.waiting, Caller.drainingLines, 0, []⟩ := by
    simp [step]
  have h3 := reach_exit tbl [] tc files.length false dc false Closer.waiting
    Caller.drainingLines 0 [] (numCPU * 2 + 1 + 1) []
  simp only [List.nil_append] at h3
  rw [List.replicate_succ] at h3
  have h4 : step tbl ⟨[], true, List.replicate (numCPU * 2 + 1 + 1) Worker.done, tc,
      files.length, false, dc, false, Closer.waiting, Caller.drainingLines, 0, []⟩
      Action.close =
      some ⟨[], true, List.replicate (numCPU * 2 + 1 + 1) Worker.done, tc,
        files.length, true, dc, false, Closer.closedLines, Caller.drainingLines, 0, []⟩ := by
    simp only [step, closeStep, all_done_replicate]
    rfl
  have h5 : step tbl ⟨[], true, List.replicate (numCPU * 2 + 1 + 1) Worker.done, tc,
      files.length, true, dc, false, Closer.closedLines, Caller.drainingLines, 0, []⟩
      Action.close =
      some ⟨[], true, List.replicate (numCPU * 2 + 1 + 1) Worker.done, tc,
        files.length, true, dc, true, Closer.finished, Caller.drainingLines, 0, []⟩ := by
    simp [step, closeStep]
  have h6 := reach_drainLines tbl [] true (List.replicate (numCPU * 2 + 1 + 1) Worker.done)
    files.length true dc true Closer.finished [] tc 0
  have h7 : step tbl ⟨[], true, List.replicate (numCPU * 2 + 1 + 1) Worker.done, [],
      files.length, true, dc, true, Closer.finished, Caller.drainingLines, 0 + tc.sum, []⟩
      Action.call =
      some ⟨[], true, List.replicate (numCPU * 2 + 1 + 1) Worker.done, [],
        files.length, true, dc, true, Closer.finished, Caller.drainingDomains, 0 + tc.sum, []⟩ := by
    simp [step, callStep]
  obtain ⟨ds', h8⟩ := reach_drainDomains tbl [] true
    (List.replicate (numCPU * 2 + 1 + 1) Worker.done) [] files.length true true Closer.finished
    (0 + tc.sum) dc []
  have h9 : step tbl ⟨[], true, List.replicate (numCPU * 2 + 1 + 1) Worker.done, [],
      files.length, true, [], true, Closer.finished, Caller.drainingDomains, 0 + tc.sum, ds'⟩
      Action.call =
      some ⟨[], true, List.replicate (numCPU * 2 + 1 + 1) Worker.done, [],
        files.length, true, [], true, Closer.finished, Caller.returned, 0 + tc.sum, ds'⟩ := by
    simp [step, callStep]
  refine ⟨⟨[], true, List.replicate (numCPU * 2 + 1 + 1) Worker.done, [],
        files.length, true, [], true, Closer.finished, Caller.returned, 0 + tc.sum, ds'⟩, ?_, rfl⟩
  · have h0 : init files (numCPU + 1) = ⟨files, false,
        Worker.idle :: List.replicate (numCPU * 2 + 1) Worker.idle, [], files.length, false, [],
        false, Closer.waiting, Caller.drainingLines, 0, []⟩ := by
      simp only [init, hw]
    rw [h0]
    exact h1.trans ((Reach.single _ h2).trans (h3.trans ((Reach.single _ h4).trans
      ((Reach.single _ h5).trans (h6.trans ((Reach.single _ h7).trans
        (h8.trans (Reach.single _ h9))))))))

theorem Worker.busy_idle : Worker.idle.busy = 0 := rfl
theorem Worker.busy_done : Worker.done.busy = 0 := rfl
theorem Worker.busy_scanning (rest : List Str) (n : Nat) :
    (Worker.scanning rest n).busy = 1 := rfl
theorem Worker.busy_sending (d : Str) (rest : List Str) (n : Nat) :
    (Worker.sending d rest n).busy = 1 := rfl
theorem Worker.busy_reporting (n : Nat) : (Worker.reporting n).busy = 1 := rfl

theorem startFile_busy (f : File) : (startFile f).busy ≤ 1 := by
  cases f <;> simp [startFile, Worker.busy]

theorem scanStep_busy (tbl : Char → Char) (raw : Str) (rest : List Str) (n : Nat) :
    (scanStep tbl raw rest n).busy = 1 := by
  unfold scanStep
  by_cases h : trimSpace raw = []
  · simp [h, Worker.busy]
  · cases hd : domainOfLine tbl (trimSpace raw) <;> simp [h, hd, Worker.busy]

theorem Step.keeps_linesRoom {tbl : Char → Char} {s s' : State} (h : Step tbl s s')
    (hs : LinesRoom s) : LinesRoom s' := by
  cases h with
  | handOver f fs fc l₁ l₂ tc cap tcl dc dcl cl ca tl ds =>
    have := startFile_busy f
    simp only [LinesRoom, List.map_append, List.map_cons, List.sum_append, List.sum_cons,
      List.length_cons, Worker.busy_idle] at hs ⊢
    omega
  | scanLine raw rest n fd fc l₁ l₂ tc cap tcl dc dcl cl ca tl ds =>
    simp only [LinesRoom, List.map_append, List.map_cons, List.sum_append, List.sum_cons,
      scanStep_busy, Worker.busy_scanning] at hs ⊢
    omega
  | report n fd fc l₁ l₂ tc cap tcl dc dcl cl ca tl ds hroom =>
    simp only [LinesRoom, List.map_append, List.map_cons, List.sum_append, List.sum_cons,
      List.length_append, List.length_singleton, Worker.busy_reporting, Worker.busy_idle] at hs ⊢
    omega
  | recvLines n fd fc ws tc cap tcl dc dcl cl tl ds =>
    simp only [LinesRoom, List.length_cons] at hs ⊢
    omega
  | closeFiles => exact hs
  | exit fd l₁ l₂ tc cap tcl dc dcl cl ca tl ds =>
    simp only [LinesRoom, List.map_append, List.map_cons, List.sum_append, List.sum_cons,
      Worker.busy_idle, Worker.busy_done, Worker.busy_scanning, Worker.busy_sending,
      Worker.busy_reporting] at hs ⊢
    omega
  | scanEnd n fd fc l₁ l₂ tc cap tcl dc dcl cl ca tl ds =>
    simp only [LinesRoom, List.map_append, List.map_cons, List.sum_append, List.sum_cons,
      Worker.busy_idle, Worker.busy_done, Worker.busy_scanning, Worker.busy_sending,
      Worker.busy_reporting] at hs ⊢
    omega
  | send d rest n fd fc l₁ l₂ tc cap tcl dc dcl cl ca tl ds hroom =>
    simp only [LinesRoom, List.map_append, List.map_cons, List.sum_append, List.sum_cons,
      Worker.busy_idle, Worker.busy_done, Worker.busy_scanning, Worker.busy_sending,
      Worker.busy_reporting] at hs ⊢
    omega
  | closeLines => exact hs
  | closeDomains => exact hs
  | linesDone => exact hs
  | recvDomain => exact hs
  | ret => exact hs

theorem map_busy_replicate_idle (n : Nat) :
    ((List.replicate n Worker.idle).map Worker.busy).sum = 0 := by
  induction n with
  | zero => rfl
  | succ n ih => simp [List.replicate_succ, Worker.busy_idle, ih]

theorem Reach.linesRoom {tbl : Char → Char} {files : List File} {numCPU : Nat} {s : State}
    (h : Reach tbl (init files numCPU) s) : LinesRoom s := by
  induction h with
  | refl => simp [LinesRoom, init, Worker.busy_idle]
  | next a _ hstep ih => exact (step_sound hstep).keeps_linesRoom ih

theorem busy_le_sum {ws : List Worker} {w : Worker} (h : w ∈ ws) :
    w.busy ≤ (ws.map Worker.busy).sum := by
  obtain ⟨l₁, l₂, rfl⟩ := List.append_of_mem h
  simp only [List.map_append, List.map_cons, List.sum_append, List.sum_cons]
  omega

theorem pending_le_flatMap (tbl : Char → Char) {ws : List Worker} {w : Worker} (h : w ∈ ws) :
    (w.pending tbl).length ≤ (ws.flatMap (Worker.pending tbl)).length := by
  obtain ⟨l₁, l₂, rfl⟩ := List.append_of_mem h
  simp only [List.flatMap_append, List.flatMap_cons, List.length_append]
  omega

/-- When `domainsChan` has room for every domain of the run, `computeStats` cannot get
stuck: in every reachable state in which the call has not returned, some goroutine can
take a step. -/
theorem progress_of_few_domains {tbl : Char → Char} {files : List File} {numCPU : Nat}
    (hcpu : 0 < numCPU) (hfew : (domainsOf tbl (allTexts files)).length ≤ domainsChanCap)
    {s : State} (h : Reach tbl (init files numCPU) s) (hnr : s.caller ≠ Caller.returned) :
    ∃ a, (step tbl s a).isSome = true := by
  obtain ⟨hst, _, _, hlen⟩ := h.invariant hcpu
  have hroom := h.linesRoom
  by_cases hall : ∀ w ∈ s.workers, w = Worker.done
  · obtain ⟨_, _, _, _, h5, h6, _, _, _, _⟩ := hst
    have hallb : s.workers.all (fun w => w == Worker.done) = true := by
      simpa using hall
    cases hcl : s.closer with
    | waiting => exact ⟨Action.close, by simp [step, closeStep, hcl, hallb]⟩
    | closedLines => exact ⟨Action.close, by simp [step, closeStep, hcl]⟩
    | finished =>
      have htcl : s.totalLinesClosed = true := h5.mpr (by rw [hcl]; simp)
      have hdcl : s.domainsClosed = true := h6.mpr hcl
      cases hca : s.caller with
      | returned => exact absurd hca hnr
      | drainingLines =>
        cases htc : s.totalLinesChan with
        | nil => exact ⟨Action.call, by simp [step, callStep, hca, htc, htcl]⟩
        | cons n ns => exact ⟨Action.call, by simp [step, callStep, hca, htc]⟩
      | drainingDomains =>
        cases hdc : s.domainsChan with
        | nil => exact ⟨Action.call, by simp [step, callStep, hca, hdc, hdcl]⟩
        | cons d ds' => exact ⟨Action.call, by simp [step, callStep, hca, hdc]⟩
  · have hex : ∃ w ∈ s.workers, w ≠ Worker.done := by
      by_contra hno
      exact hall (fun w hw => by
        by_contra hne
        exact hno ⟨w, hw, hne⟩)
    obtain ⟨w, hw, hne⟩ := hex
    obtain ⟨i, hi⟩ := List.mem_iff_getElem?.mp hw
    cases w with
    | done => exact absurd rfl hne
    | idle =>
      cases hfd : s.feeder with
      | cons f fs => exact ⟨Action.handOver i, by simp [step, hfd, hi]⟩
      | nil =>
        cases hfc : s.filesClosed with
        | false => exact ⟨Action.closeFiles, by simp [step, hfd, hfc]⟩
        | true => exact ⟨Action.work i, by simp [step, workStep, hi, hfc]⟩
    | scanning rest n =>
      cases rest with
      | nil => exact ⟨Action.work i, by simp [step, workStep, hi]⟩
      | cons raw rest => exact ⟨Action.work i, by simp [step, workStep, hi]⟩
    | sending d rest n =>
      obtain ⟨_, _, _, hca⟩ := hst.of_active hw hne
      have hl := hlen hca
      have hp := pending_le_flatMap tbl hw
      simp only [State.pendingDomains, List.length_append, Worker.pending_sending,
        List.length_cons] at hl hp
      have : s.domainsChan.length < domainsChanCap := by omega
      exact ⟨Action.work i, by simp [step, workStep, hi, this]⟩
    | reporting n =>
      have hb := busy_le_sum hw
      simp only [Worker.busy_reporting, LinesRoom] at hb hroom
      have : s.totalLinesChan.length < s.totalLinesCap := by omega
      exact ⟨Action.work i, by simp [step, workStep, hi, this]⟩

/-! ## What `computeStats` returns, and when -/

/-- `computeStats` returns exactly when `domainsChan` has room for every domain of the
run, and then it returns the number of non-empty lines and the number of distinct
domains, whatever the schedule. -/
theorem returns_iff (tbl : Char → Char) (files : List File) (numCPU : Nat) (r : Nat × Nat) :
    Returns tbl files (numCPU + 1) r ↔
      ((domainsOf tbl (allTexts files)).length ≤ domainsChanCap ∧
        r = (nonEmptyCount (allTexts files), (domainsOf tbl (allTexts files)).toFinset.card)) := by
  constructor
  · intro h
    have hfew : (domainsOf tbl (allTexts files)).length ≤ domainsChanCap := by
      by_contra hmany
      exact never_returns_of_many_domains (Nat.succ_pos numCPU) (Nat.lt_of_not_le hmany) r h
    obtain ⟨s, hreach, hret, hr⟩ := h
    obtain ⟨h1, h2⟩ := returned_values (Nat.succ_pos numCPU) hreach hret
    exact ⟨hfew, by rw [hr, h1, h2]⟩
  · rintro ⟨hfew, hr⟩
    obtain ⟨s, hreach, hret⟩ := can_return tbl files numCPU hfew
    obtain ⟨h1, h2⟩ := returned_values (Nat.succ_pos numCPU) hreach hret
    exact ⟨s, hreach, hret, by rw [hr, h1, h2]⟩

theorem scanDomain_a (tbl : Char → Char) : scanDomain tbl ['a'] = some ['a'] := rfl

theorem domainsOf_replicate_a (tbl : Char → Char) (k : Nat) :
    domainsOf tbl (List.replicate k ['a']) = List.replicate k ['a'] := by
  induction k with
  | zero => rfl
  | succ k ih =>
    rw [List.replicate_succ, domainsOf, List.filterMap_cons, scanDomain_a]
    exact congrArg (List.cons ['a']) ih

theorem nonEmptyCount_replicate_a (k : Nat) :
    nonEmptyCount (List.replicate k ['a']) = k := by
  induction k with
  | zero => rfl
  | succ k ih =>
    have h : (trimSpace ['a'] != []) = true := by decide
    rw [List.replicate_succ]
    simp only [nonEmptyCount, List.countP_cons, h, if_true] at ih ⊢
    rw [ih]

/-- C6 fails on the code by the defect of C7: on a single file of 1001 lines `a` the
claim promises the values 1001 and 1, but `computeStats` returns nothing, on any number
of CPUs and under every schedule. -/
theorem no_result_on_1001_lines (tbl : Char → Char) (numCPU : Nat) :
    nonEmptyCount (allTexts [overfullFile]) = 1001 ∧
    (domainsOf tbl (allTexts [overfullFile])).toFinset.card = 1 ∧
    ∀ r, ¬ Returns tbl [overfullFile] (numCPU + 1) r := by
  have htexts : allTexts [overfullFile] = List.replicate (domainsChanCap + 1) ['a'] := by
    simp [allTexts, overfullFile, fileTexts]
  refine ⟨by rw [htexts, nonEmptyCount_replicate_a]; rfl, ?_, fun r => ?_⟩
  · rw [htexts, domainsOf_replicate_a]
    have : (List.replicate (domainsChanCap + 1) ['a']).toFinset = {['a']} := by
      ext x
      simp [List.mem_replicate]
    rw [this]
    rfl
  · apply never_returns_of_many_domains (Nat.succ_pos numCPU)
    rw [htexts, domainsOf_replicate_a, List.length_replicate]
    exact Nat.lt_succ_self _

theorem reach_deadlock (tbl : Char → Char) (numCPU : Nat) :
    Reach tbl (init [overfullFile] (numCPU + 1)) (deadlockState numCPU) := by
  have hw : List.replicate ((numCPU + 1) * 2) Worker.idle =
      Worker.idle :: List.replicate (numCPU * 2 + 1) Worker.idle := by
    rw [show (numCPU + 1) * 2 = (numCPU * 2 + 1) + 1 by omega, List.replicate_succ]
  have h0 : init [overfullFile] (numCPU + 1) = ⟨[overfullFile], false,
      Worker.idle :: List.replicate (numCPU * 2 + 1) Worker.idle, [], 1, false, [],
      false, Closer.waiting, Caller.drainingLines, 0, []⟩ := by
    simp only [init, hw, List.length_singleton]
  have h1 : step tbl ⟨[overfullFile], false,
      Worker.idle :: List.replicate (numCPU * 2 + 1) Worker.idle, [], 1, false, [],
      false, Closer.waiting, Caller.drainingLines, 0, []⟩ (Action.handOver 0) =
      some ⟨[], false, Worker.scanning (List.replicate domainsChanCap ['a'] ++ [['a']]) 0 ::
        List.replicate (numCPU * 2 + 1) Worker.idle, [], 1, false, [],
        false, Closer.waiting, Caller.drainingLines, 0, []⟩ := by
    simp only [step, overfullFile, startFile, List.getElem?_cons_zero, List.set_cons_zero,
      List.replicate_succ' domainsChanCap]
  have h2 := reach_scan tbl [] false (List.replicate (numCPU * 2 + 1) Worker.idle) [] 1 false
    false Closer.waiting Caller.drainingLines 0 [] [['a']] (List.replicate domainsChanCap ['a']) 0 []
    (by rw [domainsOf_replicate_a, List.length_replicate]; simp)
  rw [domainsOf_replicate_a, nonEmptyCount_replicate_a, List.nil_append, Nat.zero_add] at h2
  have h3 : step tbl ⟨[], false, Worker.scanning [['a']] domainsChanCap ::
      List.replicate (numCPU * 2 + 1) Worker.idle, [], 1, false, List.replicate domainsChanCap ['a'],
      false, Closer.waiting, Caller.drainingLines, 0, []⟩ (Action.work 0) =
      some ⟨[], false, Worker.sending ['a'] [] (domainsChanCap + 1) ::
        List.replicate (numCPU * 2 + 1) Worker.idle, [], 1, false, List.replicate domainsChanCap ['a'],
        false, Closer.waiting, Caller.drainingLines, 0, []⟩ := by
    have hs : scanStep tbl ['a'] [] domainsChanCap =
        Worker.sending ['a'] [] (domainsChanCap + 1) := rfl
    simp only [step, workStep, List.getElem?_cons_zero, List.set_cons_zero, hs]
  have h4 : step tbl ⟨[], false, Worker.sending ['a'] [] (domainsChanCap + 1) ::
      List.replicate (numCPU * 2 + 1) Worker.idle, [], 1, false, List.replicate domainsChanCap ['a'],
      false, Closer.waiting, Caller.drainingLines, 0, []⟩ Action.closeFiles =
      some ⟨[], true, Worker.sending ['a'] [] (domainsChanCap + 1) ::
        List.replicate (numCPU * 2 + 1) Worker.idle, [], 1, false, List.replicate domainsChanCap ['a'],
        false, Closer.waiting, Caller.drainingLines, 0, []⟩ := by
    simp [step]
  have h5 := reach_exit tbl [] [] 1 false (List.replicate domainsChanCap ['a']) false Closer.waiting
    Caller.drainingLines 0 [] (numCPU * 2 + 1) [Worker.sending ['a'] [] (domainsChanCap + 1)]
  simp only [List.singleton_append] at h5
  rw [h0]
  exact (Reach.single _ h1).trans (h2.trans ((Reach.single _ h3).trans
    ((Reach.single _ h4).trans h5)))

theorem stuck_deadlock (tbl : Char → Char) (numCPU : Nat) : Stuck tbl (deadlockState numCPU) := by
  intro a
  cases a with
  | handOver i => simp [step, deadlockState]
  | closeFiles => simp [step, deadlockState]
  | work i =>
    cases i with
    | zero => simp [step, workStep, deadlockState]
    | succ i =>
      simp only [step, workStep, deadlockState, List.getElem?_cons_succ]
      by_cases hi : i < numCPU * 2 + 1
      · have : (List.replicate (numCPU * 2 + 1) Worker.done)[i]? = some Worker.done := by
          rw [List.getElem?_eq_getElem (by simpa using hi)]
          simp
        rw [this]
      · have : (List.replicate (numCPU * 2 + 1) Worker.done)[i]? = none := by
          rw [List.getElem?_eq_none_iff]
          simpa using hi
        rw [this]
  | close => simp [step, closeStep, deadlockState]
  | call => simp [step, callStep, deadlockState]

/-- C7 fails on the code: on a single file of 1001 lines `a`, on any number of CPUs, a
schedule leads to a state in which `computeStats` has not returned and no goroutine can
take a step.  A worker waits at `domainsChan <- domain` with the buffer of 1000 full, the
caller waits in the loop over `totalLinesChan`, which is closed only after `wg.Wait()`,
and the closer waits for that worker. -/
theorem deadlock_on_1001_lines (tbl : Char → Char) (numCPU : Nat) :
    ∃ s, Reach tbl (init [overfullFile] (numCPU + 1)) s ∧ s.caller ≠ Caller.returned ∧
      Stuck tbl s ∧
      s.workers.head? = some (Worker.sending ['a'] [] (domainsChanCap + 1)) ∧
      s.domainsChan.length = domainsChanCap ∧ s.caller = Caller.drainingLines ∧
      s.closer = Closer.waiting :=
  ⟨deadlockState numCPU, reach_deadlock tbl numCPU, by simp [deadlockState],
    stuck_deadlock tbl numCPU, rfl, by simp [deadlockState], rfl, rfl⟩

/-! ## A run that fills `domainsChan` before the last file is handed over -/

theorem Worker.sent_idle (tbl : Char → Char) : Worker.idle.sent tbl = 0 := rfl
theorem Worker.sent_scanning (tbl : Char → Char) (rest : List Str) (n : Nat) :
    (Worker.scanning rest n).sent tbl = domainsChanCap + 1 - (domainsOf tbl rest).length := rfl
theorem Worker.sent_sending (tbl : Char → Char) (d : Str) (rest : List Str) (n : Nat) :
    (Worker.sending d rest n).sent tbl =
      domainsChanCap + 1 - ((domainsOf tbl rest).length + 1) := rfl
theorem Worker.sent_reporting (tbl : Char → Char) (n : Nat) :
    (Worker.reporting n).sent tbl = domainsChanCap + 1 := rfl

theorem scanStep_sent (tbl : Char → Char) (raw : Str) (rest : List Str) (n : Nat) :
    (scanStep tbl raw rest n).sent tbl =
      domainsChanCap + 1 - (domainsOf tbl (raw :: rest)).length := by
  unfold scanStep
  by_cases h : trimSpace raw = []
  · simp [h, Worker.sent, Worker.pending, domainsOf, scanDomain]
  · cases hd : domainOfLine tbl (trimSpace raw) <;>
      simp [h, hd, Worker.sent, Worker.pending, domainsOf, scanDomain]

theorem sum_busy_le_length (ws : List Worker) : (ws.map Worker.busy).sum ≤ ws.length := by
  induction ws with
  | nil => simp
  | cons w ws ih =>
    have : w.busy ≤ 1 := by cases w <;> simp [Worker.busy]
    simp only [List.map_cons, List.sum_cons, List.length_cons]
    omega

theorem map_sent_replicate_idle (tbl : Char → Char) (n : Nat) :
    ((List.replicate n Worker.idle).map (Worker.sent tbl)).sum = 0 := by
  induction n with
  | zero => rfl
  | succ n ih => simp [List.replicate_succ, Worker.sent_idle, ih]

theorem startFile_overfull (tbl : Char → Char) :
    (startFile overfullFile).busy = 1 ∧
      ((startFile overfullFile).pending tbl).length = domainsChanCap + 1 ∧
      (startFile overfullFile).sent tbl = 0 := by
  have hp : (startFile overfullFile).pending tbl = List.replicate (domainsChanCap + 1) ['a'] := by
    rw [startFile_pending, overfullFile, fileTexts, domainsOf_replicate_a]
  refine ⟨rfl, by rw [hp, List.length_replicate], ?_⟩
  have hs : (startFile overfullFile).sent tbl =
      domainsChanCap + 1 - ((startFile overfullFile).pending tbl).length := rfl
  rw [hs, hp, List.length_replicate, Nat.sub_self]

/-- While the caller is in its first loop, no step leads out of `Starving`. -/
theorem Step.keeps_starving {tbl : Char → Char} {s s' : State} (h : Step tbl s s')
    (hroom : s.domainsChan.length ≤ domainsChanCap) (hca : s.caller = Caller.drainingLines)
    (hs : Starving tbl s) : Starving tbl s' := by
  obtain ⟨hfc, htc, htl, ⟨j, k, hfd, hbusy⟩, hpend, hsent⟩ := hs
  cases h with
  | handOver f fs fc l₁ l₂ tc cap tcl dc dcl cl ca tl ds =>
    simp only [List.map_append, List.map_cons, List.sum_append, List.sum_cons,
      List.length_append, List.length_cons, Worker.busy_idle, Worker.sent_idle] at hbusy hsent
    simp only at hfd hpend
    cases j with
    | succ j =>
      rw [List.replicate_succ, List.cons_append] at hfd
      obtain ⟨rfl, rfl⟩ := List.cons.inj hfd
      refine ⟨hfc, htc, htl, ⟨j, k, rfl, ?_⟩, ?_, ?_⟩
      · simp only [startFile, List.map_append, List.map_cons, List.sum_append, List.sum_cons,
          List.length_append, List.length_cons, Worker.busy_idle]
        exact hbusy
      · simpa only [startFile] using hpend
      · simp only [startFile, List.map_append, List.map_cons, List.sum_append, List.sum_cons,
          Worker.sent_idle]
        exact hsent
    | zero =>
      rw [List.replicate_zero, List.nil_append] at hfd
      cases k with
      | zero =>
        exfalso
        have h1 := sum_busy_le_length l₁
        have h2 := sum_busy_le_length l₂
        omega
      | succ k =>
        rw [List.replicate_succ, List.cons_append] at hfd
        obtain ⟨rfl, rfl⟩ := List.cons.inj hfd
        obtain ⟨hb, hp, hse⟩ := startFile_overfull tbl
        refine ⟨hfc, htc, htl, ⟨0, k, by simp, ?_⟩, ?_, ?_⟩
        · simp only [List.map_append, List.map_cons, List.sum_append, List.sum_cons,
            List.length_append, List.length_cons, hb]
          omega
        · intro w hw
          simp only [List.mem_append, List.mem_cons] at hw
          rcases hw with hw | rfl | hw
          · exact hpend w (by simp [hw])
          · exact le_of_eq hp
          · exact hpend w (by simp [hw])
        · simp only [List.map_append, List.map_cons, List.sum_append, List.sum_cons, hse]
          exact hsent
  | closeFiles ws tc cap tcl dc dcl cl ca tl ds =>
    exfalso
    have := congrArg List.length hfd
    simp only [List.length_nil, List.length_append, List.length_replicate,
      List.length_singleton] at this
    omega
  | exit => simp at hfc
  | scanEnd n fd fc l₁ l₂ tc cap tcl dc dcl cl ca tl ds =>
    exfalso
    simp only [List.map_append, List.map_cons, List.sum_append, List.sum_cons,
      Worker.sent_scanning, domainsOf_nil, List.length_nil, Nat.sub_zero] at hsent
    simp only at hroom
    omega
  | scanLine raw rest n fd fc l₁ l₂ tc cap tcl dc dcl cl ca tl ds =>
    refine ⟨hfc, htc, htl, ⟨j, k, hfd, ?_⟩, ?_, ?_⟩
    · simp only [List.map_append, List.map_cons, List.sum_append, List.sum_cons,
        List.length_append, List.length_cons, scanStep_busy, Worker.busy_scanning] at hbusy ⊢
      exact hbusy
    · intro w hw
      simp only [List.mem_append, List.mem_cons] at hw
      rcases hw with hw | rfl | hw
      · exact hpend w (by simp [hw])
      · rw [scanStep_pending]
        exact hpend (Worker.scanning (raw :: rest) n) (by simp)
      · exact hpend w (by simp [hw])
    · simp only [List.map_append, List.map_cons, List.sum_append, List.sum_cons,
        scanStep_sent, Worker.sent_scanning] at hsent ⊢
      exact hsent
  | send d rest n fd fc l₁ l₂ tc cap tcl dc dcl cl ca tl ds hr =>
    have hw := hpend (Worker.sending d rest n) (by simp)
    simp only [Worker.pending_sending, List.length_cons] at hw
    refine ⟨hfc, htc, htl, ⟨j, k, hfd, ?_⟩, ?_, ?_⟩
    · simp only [List.map_append, List.map_cons, List.sum_append, List.sum_cons,
        List.length_append, List.length_cons, Worker.busy_sending, Worker.busy_scanning] at hbusy ⊢
      exact hbusy
    · intro w hw'
      simp only [List.mem_append, List.mem_cons] at hw'
      rcases hw' with hw' | rfl | hw'
      · exact hpend w (by simp [hw'])
      · rw [Worker.pending_scanning]
        omega
      · exact hpend w (by simp [hw'])
    · simp only [List.map_append, List.map_cons, List.sum_append, List.sum_cons,
        List.length_append, List.length_singleton, Worker.sent_sending,
        Worker.sent_scanning] at hsent ⊢
      omega
  | report n fd fc l₁ l₂ tc cap tcl dc dcl cl ca tl ds hr =>
    exfalso
    simp only [List.map_append, List.map_cons, List.sum_append, List.sum_cons,
      Worker.sent_reporting] at hsent
    simp only at hroom
    omega
  | closeLines => exact ⟨hfc, htc, htl, ⟨j, k, hfd, hbusy⟩, hpend, hsent⟩
  | closeDomains => exact ⟨hfc, htc, htl, ⟨j, k, hfd, hbusy⟩, hpend, hsent⟩
  | recvLines => simp at htc
  | linesDone => exact ⟨hfc, htc, htl, ⟨j, k, hfd, hbusy⟩, hpend, hsent⟩
  | recvDomain => simp at hca
  | ret => simp at hca

theorem many_domains_starving (tbl : Char → Char) (numCPU : Nat) :
    domainsChanCap < (domainsOf tbl (allTexts (starvingFiles (numCPU + 1)))).length := by
  have hf : starvingFiles (numCPU + 1) =
      none :: overfullFile :: (List.replicate (numCPU * 2 + 1) overfullFile ++ [lastFile]) := by
    rw [starvingFiles, show (numCPU + 1) * 2 = (numCPU * 2 + 1) + 1 by omega,
      List.replicate_succ, List.cons_append]
  rw [hf, allTexts_cons, allTexts_cons, domainsOf_append, domainsOf_append]
  have ho : fileTexts overfullFile = List.replicate (domainsChanCap + 1) ['a'] := rfl
  rw [ho, domainsOf_replicate_a]
  simp only [List.length_append, List.length_replicate]
  omega

/-- `Starving` holds in every state that a schedule can reach on `starvingFiles`. -/
theorem Reach.starving {tbl : Char → Char} {numCPU : Nat} {s : State}
    (h : Reach tbl (init (starvingFiles (numCPU + 1)) (numCPU + 1)) s) : Starving tbl s := by
  induction h with
  | refl =>
    refine ⟨rfl, rfl, rfl, ⟨1, (numCPU + 1) * 2, rfl, ?_⟩, ?_, ?_⟩
    · simp only [init, map_busy_replicate_idle, List.length_replicate, Nat.zero_add]
    · intro w hw
      simp only [init, List.mem_replicate] at hw
      rw [hw.2, Worker.pending_idle]
      simp
    · simp only [init, map_sent_replicate_idle, List.length_nil]
  | @next t u a hreach hstep ih =>
    have hmany := many_domains_starving tbl numCPU
    obtain ⟨hst, _⟩ := hreach.invariant (Nat.succ_pos numCPU)
    obtain ⟨_, _, _, _, _, _, _, _, h9, _⟩ := hst
    exact (step_sound hstep).keeps_starving h9
      (blocked_of_many_domains (Nat.succ_pos numCPU) hmany hreach).1 ih

theorem getLast?_starving (j k : Nat) :
    (List.replicate j (none : File) ++ (List.replicate k overfullFile ++ [lastFile])).getLast? =
      some lastFile := by
  rw [← List.append_assoc, List.getLast?_append]
  rfl

/-- The feeder hands the same file to each of `k` idle workers in turn. -/
theorem reach_handOvers (tbl : Char → Char) (f : File) (fs : List File) (fc : Bool)
    (tc : List Nat) (cap : Nat) (tcl : Bool) (dc : List Str) (dcl : Bool) (cl : Closer)
    (ca : Caller) (tl : Nat) (ds : List Str) (k : Nat) :
    ∀ pre : List Worker,
    Reach tbl ⟨List.replicate k f ++ fs, fc, pre ++ List.replicate k Worker.idle, tc, cap, tcl,
        dc, dcl, cl, ca, tl, ds⟩
      ⟨fs, fc, pre ++ List.replicate k (startFile f), tc, cap, tcl, dc, dcl, cl, ca, tl, ds⟩ := by
  induction k with
  | zero => intro pre; exact Reach.refl
  | succ k ih =>
    intro pre
    have h1 : step tbl ⟨f :: (List.replicate k f ++ fs), fc,
        pre ++ Worker.idle :: List.replicate k Worker.idle, tc, cap, tcl, dc, dcl, cl, ca, tl,
        ds⟩ (Action.handOver pre.length) =
        some ⟨List.replicate k f ++ fs, fc, pre ++ startFile f :: List.replicate k Worker.idle,
          tc, cap, tcl, dc, dcl, cl, ca, tl, ds⟩ := by
      simp only [step, getElem?_mid, set_mid]
    have h2 := ih (pre ++ [startFile f])
    simp only [List.append_assoc, List.singleton_append] at h2
    rw [List.replicate_succ, List.replicate_succ, List.replicate_succ, List.cons_append]
    exact (Reach.single _ h1).trans h2

/-- Each of `k` workers that hold the same texts scans the first of them. -/
theorem reach_scanLines (tbl : Char → Char) (raw : Str) (rest : List Str) (n : Nat)
    (fd : List File) (fc : Bool) (tc : List Nat) (cap : Nat) (tcl : Bool) (dc : List Str)
    (dcl : Bool) (cl : Closer) (ca : Caller) (tl : Nat) (ds : List Str) (k : Nat) :
    ∀ pre : List Worker,
    Reach tbl ⟨fd, fc, pre ++ List.replicate k (Worker.scanning (raw :: rest) n), tc, cap, tcl,
        dc, dcl, cl, ca, tl, ds⟩
      ⟨fd, fc, pre ++ List.replicate k (scanStep tbl raw rest n), tc, cap, tcl, dc, dcl, cl, ca,
        tl, ds⟩ := by
  induction k with
  | zero => intro pre; exact Reach.refl
  | succ k ih =>
    intro pre
    have h1 : step tbl ⟨fd, fc,
        pre ++ Worker.scanning (raw :: rest) n :: List.replicate k (Worker.scanning (raw :: rest) n),
        tc, cap, tcl, dc, dcl, cl, ca, tl, ds⟩ (Action.work pre.length) =
        some ⟨fd, fc,
          pre ++ scanStep tbl raw rest n :: List.replicate k (Worker.scanning (raw :: rest) n),
          tc, cap, tcl, dc, dcl, cl, ca, tl, ds⟩ := by
      simp only [step, workStep, getElem?_mid, set_mid]
    have h2 := ih (pre ++ [scanStep tbl raw rest n])
    simp only [List.append_assoc, List.singleton_append] at h2
    rw [List.replicate_succ, List.replicate_succ]
    exact (Reach.single _ h1).trans h2

theorem reach_starved (tbl : Char → Char) (numCPU : Nat) :
    Reach tbl (init (starvingFiles (numCPU + 1)) (numCPU + 1)) (starvedState numCPU) := by
  have hm : (numCPU + 1) * 2 = (numCPU * 2 + 1) + 1 := by omega
  have h0 : init (starvingFiles (numCPU + 1)) (numCPU + 1) =
      ⟨none :: (List.replicate ((numCPU + 1) * 2) overfullFile ++ [lastFile]), false,
        Worker.idle :: List.replicate (numCPU * 2 + 1) Worker.idle, [],
        (starvingFiles (numCPU + 1)).length, false, [], false, Closer.waiting,
        Caller.drainingLines, 0, []⟩ := by
    simp only [init, starvingFiles, hm, List.replicate_succ]
  have h1 : step tbl ⟨none :: (List.replicate ((numCPU + 1) * 2) overfullFile ++ [lastFile]),
      false, Worker.idle :: List.replicate (numCPU * 2 + 1) Worker.idle, [],
      (starvingFiles (numCPU + 1)).length, false, [], false, Closer.waiting,
      Caller.drainingLines, 0, []⟩ (Action.handOver 0) =
      some ⟨List.replicate ((numCPU + 1) * 2) overfullFile ++ [lastFile], false,
        [] ++ List.replicate ((numCPU + 1) * 2) Worker.idle, [],
        (starvingFiles (numCPU + 1)).length, false, [], false, Closer.waiting,
        Caller.drainingLines, 0, []⟩ := by
    simp only [step, startFile, List.getElem?_cons_zero, List.set_cons_zero, hm,
      List.replicate_succ, List.nil_append]
  have h2 := reach_handOvers tbl overfullFile [lastFile] false [] (starvingFiles (numCPU + 1)).length
    false [] false Closer.waiting Caller.drainingLines 0 [] ((numCPU + 1) * 2) []
  have hw : [] ++ List.replicate ((numCPU + 1) * 2) (startFile overfullFile) =
      Worker.scanning (List.replicate domainsChanCap ['a'] ++ [['a']]) 0 ::
        List.replicate (numCPU * 2 + 1)
          (Worker.scanning (['a'] :: List.replicate domainsChanCap ['a']) 0) := by
    rw [hm, List.nil_append, List.replicate_succ]
    simp only [startFile, overfullFile, List.replicate_succ' domainsChanCap]
    rw [← List.replicate_succ', List.replicate_succ]
  rw [hw] at h2
  have h3 := reach_scan tbl [lastFile] false
    (List.replicate (numCPU * 2 + 1)
      (Worker.scanning (['a'] :: List.replicate domainsChanCap ['a']) 0))
    [] (starvingFiles (numCPU + 1)).length false false Closer.waiting Caller.drainingLines 0 []
    [['a']] (List.replicate domainsChanCap ['a']) 0 []
    (by rw [domainsOf_replicate_a, List.length_replicate]; simp)
  rw [domainsOf_replicate_a, nonEmptyCount_replicate_a, List.nil_append, Nat.zero_add] at h3
  have hs1 : scanStep tbl ['a'] [] domainsChanCap =
      Worker.sending ['a'] [] (domainsChanCap + 1) := rfl
  have h4 : step tbl ⟨[lastFile], false, Worker.scanning [['a']] domainsChanCap ::
      List.replicate (numCPU * 2 + 1)
        (Worker.scanning (['a'] :: List.replicate domainsChanCap ['a']) 0),
      [], (starvingFiles (numCPU + 1)).length, false, List.replicate domainsChanCap ['a'], false,
      Closer.waiting, Caller.drainingLines, 0, []⟩ (Action.work 0) =
      some ⟨[lastFile], false, [Worker.sending ['a'] [] (domainsChanCap + 1)] ++
        List.replicate (numCPU * 2 + 1)
          (Worker.scanning (['a'] :: List.replicate domainsChanCap ['a']) 0),
        [], (starvingFiles (numCPU + 1)).length, false, List.replicate domainsChanCap ['a'],
        false, Closer.waiting, Caller.drainingLines, 0, []⟩ := by
    simp only [step, workStep, List.getElem?_cons_zero, List.set_cons_zero, hs1,
      List.singleton_append]
  have hs2 : scanStep tbl ['a'] (List.replicate domainsChanCap ['a']) 0 =
      Worker.sending ['a'] (List.replicate domainsChanCap ['a']) 1 := rfl
  have h5 := reach_scanLines tbl ['a'] (List.replicate domainsChanCap ['a']) 0 [lastFile] false []
    (starvingFiles (numCPU + 1)).length false (List.replicate domainsChanCap ['a']) false
    Closer.waiting Caller.drainingLines 0 [] (numCPU * 2 + 1)
    [Worker.sending ['a'] [] (domainsChanCap + 1)]
  rw [hs2, List.singleton_append] at h5
  rw [h0]
  exact (Reach.single _ h1).trans (h2.trans (h3.trans ((Reach.single _ h4).trans h5)))

theorem stuck_starved (tbl : Char → Char) (numCPU : Nat) : Stuck tbl (starvedState numCPU) := by
  intro a
  have hrep : ∀ i : Nat,
      (List.replicate (numCPU * 2 + 1)
        (Worker.sending ['a'] (List.replicate domainsChanCap ['a']) 1))[i]? = none ∨
      (List.replicate (numCPU * 2 + 1)
        (Worker.sending ['a'] (List.replicate domainsChanCap ['a']) 1))[i]? =
        some (Worker.sending ['a'] (List.replicate domainsChanCap ['a']) 1) := by
    intro i
    by_cases hi : i < numCPU * 2 + 1
    · right
      rw [List.getElem?_eq_getElem (by simpa using hi)]
      simp
    · left
      rw [List.getElem?_eq_none_iff]
      simpa using hi
  cases a with
  | handOver i =>
    cases i with
    | zero => simp [step, starvedState]
    | succ i =>
      simp only [step, starvedState, List.getElem?_cons_succ]
      rcases hrep i with h | h <;> rw [h]
  | closeFiles => simp [step, starvedState]
  | work i =>
    cases i with
    | zero => simp [step, workStep, starvedState]
    | succ i =>
      simp only [step, workStep, starvedState, List.getElem?_cons_succ]
      rcases hrep i with h | h <;> rw [h]
      simp
  | close => simp [step, closeStep, starvedState]
  | call => simp [step, callStep, starvedState]

/-- C8 fails on the code by the defect of C7.  Take a file that cannot be opened, then as
many files of 1001 lines `a` as there are workers, then a file with the one line `c`.
The claim promises that the run goes on and that every file but the first is processed
once.  In the code, under every schedule, the last file is never handed to a worker:
it stays last in the feeder's queue, `filesChan` is never closed, the caller never
leaves its first loop and has counted no line, and the closer never gets past
`wg.Wait()`.  So no value is ever returned, and a schedule leads to a state in which no
goroutine can take a step, with the last file still waiting to be handed over. -/
theorem last_file_never_processed (tbl : Char → Char) (numCPU : Nat) :
    (∀ s, Reach tbl (init (starvingFiles (numCPU + 1)) (numCPU + 1)) s →
      s.feeder.getLast? = some lastFile ∧ s.filesClosed = false ∧
      s.caller = Caller.drainingLines ∧ s.totalLines = 0 ∧ s.closer = Closer.waiting) ∧
    (∀ r, ¬ Returns tbl (starvingFiles (numCPU + 1)) (numCPU + 1) r) ∧
    (∃ s, Reach tbl (init (starvingFiles (numCPU + 1)) (numCPU + 1)) s ∧ Stuck tbl s ∧
      s.feeder = [lastFile] ∧ s.caller ≠ Caller.returned) := by
  refine ⟨fun s hreach => ?_, fun r => ?_, ?_⟩
  · obtain ⟨hfc, _, htl, ⟨j, k, hfd, _⟩, _, _⟩ := hreach.starving
    obtain ⟨hca, hcl⟩ := blocked_of_many_domains (Nat.succ_pos numCPU)
      (many_domains_starving tbl numCPU) hreach
    exact ⟨by rw [hfd, getLast?_starving], hfc, hca, htl, hcl⟩
  · exact never_returns_of_many_domains (Nat.succ_pos numCPU)
      (many_domains_starving tbl numCPU) r
  · exact ⟨starvedState numCPU, reach_starved tbl numCPU, stuck_starved tbl numCPU, rfl,
      by simp [starvedState]⟩

end computeStats

/-! ## A file that cannot be opened -/

theorem allTexts_skip (pre post : List File) :
    allTexts (pre ++ none :: post) = allTexts (pre ++ post) := by
  simp [allTexts, fileTexts]

theorem keysOf_skip (tbl : Char → Char) (op : Op) (pre post : List File) :
    op.keysOf tbl (pre ++ none :: post) = op.keysOf tbl (pre ++ post) := by
  simp [Op.keysOf, fileTexts]

/-- The four writing operations skip a file that cannot be opened.  Its worker goes back
to waiting for the next file; the run never gets stuck; when the call returns, the keys
that have passed through the critical section are the keys of the matching lines of the
other files, each as often as it occurs; and the call can return a count after writing a
set of lines exactly when it can on the list without the file. -/
theorem writers_skip_unopened_file (tbl : Char → Char) (op : Op) (pre post : List File)
    (numCPU : Nat) :
    poolStart none = PoolWorker.idle ∧
    (∀ s : PoolState, PoolReach tbl op (poolInit (pre ++ none :: post) (numCPU + 1)) s →
      s.returned = false → ∃ a, (poolStep tbl op s a).isSome = true) ∧
    (∀ s : PoolState, PoolReach tbl op (poolInit (pre ++ none :: post) (numCPU + 1)) s →
      s.returned = true →
        ∃ order : List Str, order.Perm (op.keysOf tbl (pre ++ post)) ∧ s.sink = runOrder order) ∧
    (∀ (n : Nat) (out : Finset Str),
      PoolReturns tbl op (pre ++ none :: post) (numCPU + 1) n out ↔
        PoolReturns tbl op (pre ++ post) (numCPU + 1) n out) := by
  refine ⟨rfl, fun s _ hnr => pool_progress tbl op s hnr, fun s hreach hret => ?_,
    fun n out => ?_⟩
  · have := hreach.returned_order (Nat.succ_pos numCPU) hret
    rwa [keysOf_skip] at this
  · rw [poolReturns_iff, poolReturns_iff, keysOf_skip]

end FilterClouds
